import Mathlib

set_option linter.unusedSectionVars false
set_option linter.unusedVariables false

/-!
# Room impulse response generator (image method), threaded version

A shallow embedding of `rir_generator_x_threaded.cpp`:

* `sinc`, `sim_microphone` and the thread body `impComp` are translated
  statement by statement;
* the parts of `mexFunction` that prepare the thread arguments (reflection
  coefficients from a reverberation time, default reverberation time,
  `ROUND`, the Hanning window, the thread loop) are translated as separate
  functions carrying the name of the variable they compute.

The C type `double` and the functions of `math.h` are a parameter of the
embedding: the class `Flt` lists the operations the program uses, and every
definition is written over an arbitrary carrier `R`.  There are two carriers:

* `Dbl`, IEEE 754 binary64 arithmetic (round to nearest, ties to even), with
  the transcendental functions of `math.h` as a parameter (`Libm`): this is the
  arithmetic the program runs in, and its values are computed by evaluation;
* `ℝ`, exact arithmetic, the idealisation in which rounding is ignored.

The structural properties (order test, write footprint, work partition,
samples before the first computed arrival) are proved for every carrier, under
the hypotheses `FdistNonneg` and `ZeroLaws` where they are needed, which both
carriers satisfy (`fdistNonneg_dbl`, `zeroLaws_dbl`, `fdistNonneg_real`,
`zeroLaws_real`).  The numerical properties are proved for `ℝ` and say so;
where rounding makes them fail in the program, an input is evaluated in `Dbl`.

The C type `int` is embedded as `Int` (signed overflow is undefined behaviour
and is not modelled; the division `Tw/2` of two `int` is `Int.tdiv`, which
truncates toward zero), `unsigned int` as `Nat`, and the `uint64_t` arithmetic of
the flat tensor index is embedded with explicit reduction modulo `2 ^ 64`.
The output tensor `imp` is a function from flat indices to samples.
-/

namespace RirGenerator

/-- Operations on the C type `double` used by the program, beyond the
arithmetic operators: conversions and the functions of `math.h`. -/
class Flt (R : Type) where
  /-- conversion of an `int` or `unsigned int` value to `double` -/
  ofInt : Int → R
  /-- the casts `(int)` and `(long)`: truncation toward zero -/
  toInt : R → Int
  /-- the constant `M_PI` -/
  pi : R
  sqrt : R → R
  sin : R → R
  cos : R → R
  exp : R → R
  log : R → R
  /-- the call `atan2(y, x)` -/
  atan2 : R → R → R
  pow : R → R → R
  floor : R → R
  ceil : R → R
  /-- the comparison `x == y` -/
  eq : R → R → Bool
  /-- the comparison `x < y` -/
  lt : R → R → Bool
  /-- the comparison `x <= y` -/
  le : R → R → Bool

section Embedding

variable {R : Type} [Add R] [Sub R] [Mul R] [Div R] [Neg R] [OfScientific R] [Flt R]

/-- Source lines 109-115: `sinc`. -/
def sinc (x : R) : R :=
  if Flt.eq x (Flt.ofInt 0) then 1.0 else Flt.sin x / x

/-- The pair `(P, PG)` selected by the `switch` of `sim_microphone`
(source lines 131-157). -/
def polarPattern (mtype : Char) : R × R :=
  if mtype = 'o' then (Flt.ofInt 1, Flt.ofInt 0)
  else if mtype = 's' then (0.75, 0.25)
  else if mtype = 'c' then (0.5, 0.5)
  else if mtype = 'h' then (0.25, 0.75)
  else if mtype = 'b' then (Flt.ofInt 0, Flt.ofInt 1)
  else (Flt.ofInt 1, Flt.ofInt 0)

/-- Source lines 117-162: `sim_microphone`; `mtype` is the character
`mtype[0]` the function switches on. -/
def sim_microphone (x y angle : R) (mtype : Char) : R :=
  let refl_theta := Flt.atan2 y x - angle
  let P := (polarPattern mtype : R × R).1
  let PG := (polarPattern mtype : R × R).2
  P + PG * Flt.cos refl_theta

/-- Source lines 78-107: `struct arg_s`, without the thread handle `tID` and
the pointer `imp`, whose memory is the state the functions below pass on.
Arrays are functions of the index; `mtype` is the first character of the
string; `tNum` and `tTot` are never negative and are natural numbers here. -/
structure arg_s (R : Type) where
  tNum : Nat
  tTot : Nat
  ss : Nat → R
  rr : Nat → R
  L : Nat → R
  beta : Nat → R
  hanning_window : Nat → R
  fs : R
  cTs : R
  angle : R
  Fc : R
  mtype : Char
  nr_of_louds : Nat
  nr_of_mics : Nat
  nsamples : Nat
  dim_s : Nat → Int
  Tw : Int
  order : Int
  hp_filter : Int
  lp_filter : Int

/-- Conversion of an `int` to `uint64_t`: reduction modulo `2 ^ 64`. -/
def u64 (x : Int) : Nat := (x % 2 ^ 64).toNat

/-- Addition of `uint64_t` values. -/
def add64 (x y : Nat) : Nat := (x + y) % 2 ^ 64

/-- Multiplication of `uint64_t` values. -/
def mul64 (x y : Nat) : Nat := (x * y) % 2 ^ 64

/-- Source lines 280, 288 and 308: the flat index `abs_counter` of sample
`pos + n` of the pair `(mic_nr, loud_nr)`; in lines 288 and 308 there is one
summand in place of `pos` and `n`, passed here as `pos` with `n = 0`. -/
def abs_counter (pos n : Int) (nsamples nr_of_mics mic_nr loud_nr : Nat) : Nat :=
  add64 (add64 (add64 (u64 pos) (u64 n)) (mul64 (u64 nsamples) (u64 mic_nr)))
    (mul64 (mul64 (u64 nsamples) (u64 nr_of_mics)) (u64 loud_nr))

/-- The values `lo, lo + 1, ..., hi` a loop `for (i = lo; i <= hi; i++)`
runs through. -/
def rangeInt (lo hi : Int) : List Int :=
  (List.range (hi - lo + 1).toNat).map (fun (i : Nat) => lo + (i : Int))

/-- Source lines 214-216: the lattice bound of one axis,
`ceil(nsamples/(2*L[axis]))*dim_s[axis]` stored in an `int`. -/
def latticeBound (a : arg_s R) (axis : Nat) : Int :=
  Flt.toInt (Flt.ceil (Flt.ofInt a.nsamples / (Flt.ofInt 2 * a.L axis)) *
    Flt.ofInt (a.dim_s axis))

/-- The index tuples `(mx, my, mz, q, j, k)` of the six nested loops of
source lines 219-242, in the order the loops visit them. -/
def lattice (a : arg_s R) : List (Int × Int × Int × Int × Int × Int) :=
  List.product (rangeInt (-(latticeBound a 0)) (latticeBound a 0))
    (List.product (rangeInt (-(latticeBound a 1)) (latticeBound a 1))
      (List.product (rangeInt (-(latticeBound a 2)) (latticeBound a 2))
        (List.product (rangeInt 0 (1 * a.dim_s 0))
          (List.product (rangeInt 0 (1 * a.dim_s 1)) (rangeInt 0 (1 * a.dim_s 2))))))

/-- Source lines 221-244: the image offset `hu[3 + axis]` for mirror index
`m` and parity `p`. -/
def imageOffset (a : arg_s R) (s r : Nat → R) (axis : Nat) (m p : Int) : R :=
  s axis - r axis + Flt.ofInt (2 * p) * r axis + Flt.ofInt (2 * m) * a.L axis

/-- Source lines 235, 240, 245: the attenuation `refl[axis]`. -/
def reflCoef (a : arg_s R) (axis : Nat) (m p : Int) : R :=
  Flt.pow (a.beta (2 * axis)) (Flt.ofInt |m|) *
    Flt.pow (a.beta (2 * axis + 1)) (Flt.ofInt |m + p|)

/-- Source line 247: `dist`. -/
def pathDist (a : arg_s R) (s r : Nat → R) (c : Int × Int × Int × Int × Int × Int) : R :=
  Flt.sqrt (Flt.pow (imageOffset a s r 0 c.1 c.2.2.2.1) (Flt.ofInt 2) +
    Flt.pow (imageOffset a s r 1 c.2.1 c.2.2.2.2.1) (Flt.ofInt 2) +
    Flt.pow (imageOffset a s r 2 c.2.2.1 c.2.2.2.2.2) (Flt.ofInt 2))

/-- Source line 249: `fdist`. -/
def pathFdist (a : arg_s R) (s r : Nat → R) (c : Int × Int × Int × Int × Int × Int) : Int :=
  Flt.toInt (Flt.floor (pathDist a s r c))

/-- Source line 250: the sum `abs(2*mx+q)+abs(2*my+j)+abs(2*mz+k)` compared
with the reflection order. -/
def pathOrder (c : Int × Int × Int × Int × Int × Int) : Int :=
  |2 * c.1 + c.2.2.2.1| + |2 * c.2.1 + c.2.2.2.2.1| + |2 * c.2.2.1 + c.2.2.2.2.2|

/-- Source line 250: the reflection-order test. -/
def orderTest (order : Int) (c : Int × Int × Int × Int × Int × Int) : Bool :=
  decide (pathOrder c ≤ order) || decide (order = -1)

/-- Source lines 260-261: `strength`. -/
def pathStrength (a : arg_s R) (s r : Nat → R) (c : Int × Int × Int × Int × Int × Int) : R :=
  sim_microphone (imageOffset a s r 0 c.1 c.2.2.2.1) (imageOffset a s r 1 c.2.1 c.2.2.2.2.1)
      a.angle a.mtype *
    reflCoef a 0 c.1 c.2.2.2.1 * reflCoef a 1 c.2.1 c.2.2.2.2.1 *
    reflCoef a 2 c.2.2.1 c.2.2.2.2.2 /
    (Flt.ofInt 4 * Flt.pi * pathDist a s r c * a.cTs)

/-- Source line 271: the entry `LPI[n]` of the interpolation kernel. -/
def LPI (a : arg_s R) (dist : R) (fdist : Int) (n : Nat) : R :=
  a.hanning_window n * a.Fc *
    sinc (Flt.pi * a.Fc * (Flt.ofInt n - (dist - Flt.ofInt fdist) - Flt.ofInt (Int.tdiv a.Tw 2)))

/-- Source lines 275-283: the loop adding the interpolation kernel. -/
def injectLowPass (a : arg_s R) (loud_nr mic_nr : Nat) (strength dist : R) (fdist : Int)
    (imp : Nat → R) : Nat → R :=
  (List.range (a.Tw + 1).toNat).foldl
    (fun imp (n : Nat) =>
      if 0 ≤ fdist - Int.tdiv a.Tw 2 + (n : Int) ∧ fdist - Int.tdiv a.Tw 2 + (n : Int) < a.nsamples then
        Function.update imp
          (abs_counter (fdist - Int.tdiv a.Tw 2) n a.nsamples a.nr_of_mics mic_nr loud_nr)
          (imp (abs_counter (fdist - Int.tdiv a.Tw 2) n a.nsamples a.nr_of_mics mic_nr loud_nr) +
            strength * LPI a dist fdist n)
      else imp)
    imp

/-- Source lines 288-289: the nearest-sample write. -/
def injectNearest (a : arg_s R) (loud_nr mic_nr : Nat) (strength : R) (fdist : Int)
    (imp : Nat → R) : Nat → R :=
  Function.update imp (abs_counter fdist 0 a.nsamples a.nr_of_mics mic_nr loud_nr)
    (imp (abs_counter fdist 0 a.nsamples a.nr_of_mics mic_nr loud_nr) + strength)

/-- Source lines 247-292: the body of the innermost loop for one index tuple. -/
def imageStep (a : arg_s R) (loud_nr mic_nr : Nat) (s r : Nat → R) (imp : Nat → R)
    (c : Int × Int × Int × Int × Int × Int) : Nat → R :=
  if orderTest a.order c then
    if pathFdist a s r c < a.nsamples then
      if a.lp_filter = 1 then
        injectLowPass a loud_nr mic_nr (pathStrength a s r c) (pathDist a s r c)
          (pathFdist a s r c) imp
      else
        injectNearest a loud_nr mic_nr (pathStrength a s r c) (pathFdist a s r c) imp
    else imp
  else imp

/-- Source lines 170-176: the high-pass coefficients `(B1, B2, A1, A2)`. -/
def hpCoefs (fs : R) : R × R × R × R :=
  let W : R := Flt.ofInt 2 * Flt.pi * Flt.ofInt 100 / fs
  let R1 : R := Flt.exp (-W)
  let R2 : R := R1
  (Flt.ofInt 2 * R1 * Flt.cos W, (-R1) * R1, -(Flt.ofInt 1 + R2), R2)

/-- Source lines 308-313: one iteration of the high-pass loop on the state
`(imp, Y0, Y1, Y2)`. -/
def hpStep (a : arg_s R) (loud_nr mic_nr : Nat) (st : (Nat → R) × R × R × R) (idx : Nat) :
    (Nat → R) × R × R × R :=
  let X0 := st.1 (abs_counter idx 0 a.nsamples a.nr_of_mics mic_nr loud_nr)
  let Y2 := st.2.2.1
  let Y1 := st.2.1
  let Y0 := (hpCoefs a.fs).1 * Y1 + (hpCoefs a.fs).2.1 * Y2 + X0
  (Function.update st.1 (abs_counter idx 0 a.nsamples a.nr_of_mics mic_nr loud_nr)
      (Y0 + (hpCoefs a.fs).2.2.1 * Y1 + (hpCoefs a.fs).2.2.2 * Y2),
    Y0, Y1, Y2)

/-- Source lines 301-315: the high-pass filter over the sequence of one pair. -/
def highPass (a : arg_s R) (loud_nr mic_nr : Nat) (imp : Nat → R) : Nat → R :=
  ((List.range a.nsamples).foldl (hpStep a loud_nr mic_nr)
    (imp, Flt.ofInt 0, Flt.ofInt 0, Flt.ofInt 0)).1

/-- Source lines 203-205 and 210-212: a position in sample units, read from
the column-major `count x 3` array `xs` at row `nr`. -/
def samplePos (xs : Nat → R) (cTs : R) (count nr : Nat) (axis : Nat) : R :=
  xs (nr + axis * count) / cTs

/-- Source lines 203-205: the array `s` for source `loud_nr`. -/
def srcPos (a : arg_s R) (loud_nr : Nat) : Nat → R :=
  samplePos a.ss a.cTs a.nr_of_louds loud_nr

/-- Source lines 210-212: the array `r` for receiver `mic_nr`. -/
def micPos (a : arg_s R) (mic_nr : Nat) : Nat → R :=
  samplePos a.rr a.cTs a.nr_of_mics mic_nr

/-- Source lines 219-298: the six nested loops for one pair. -/
def imageSum (a : arg_s R) (loud_nr mic_nr : Nat) (imp : Nat → R) : Nat → R :=
  (lattice a).foldl (imageStep a loud_nr mic_nr (srcPos a loud_nr) (micPos a mic_nr)) imp

/-- Source lines 209-315: the body of the receiver loop, that is the work
done for the pair `(loud_nr, mic_nr)`. -/
def pairComp (a : arg_s R) (loud_nr mic_nr : Nat) (imp : Nat → R) : Nat → R :=
  if a.hp_filter = 1 then highPass a loud_nr mic_nr (imageSum a loud_nr mic_nr imp)
  else imageSum a loud_nr mic_nr imp

/-- The receiver indices visited by the loop
`for (mic_nr = tNum; mic_nr < nr_of_mics; mic_nr = mic_nr + tTot)` of source
line 207, starting from `mic_nr`; `fuel` bounds the number of iterations. -/
def micLoop (tTot nr_of_mics : Nat) : Nat → Nat → List Nat
  | 0, _ => []
  | fuel + 1, mic_nr =>
    if mic_nr < nr_of_mics then mic_nr :: micLoop tTot nr_of_mics fuel (mic_nr + tTot) else []

/-- The receivers of worker `tNum` out of `tTot`: the loop of source line 207
run with `nr_of_mics` iterations of fuel, which it never exhausts when
`tTot` is positive. -/
def workerMics (tNum tTot nr_of_mics : Nat) : List Nat :=
  micLoop tTot nr_of_mics nr_of_mics tNum

/-- Source lines 165-320: the thread body `impComp`, as a transformation of
the tensor. -/
def impComp (a : arg_s R) (imp : Nat → R) : Nat → R :=
  (List.range a.nr_of_louds).foldl
    (fun imp loud_nr =>
      (workerMics a.tNum a.tTot a.nr_of_mics).foldl
        (fun imp mic_nr => pairComp a loud_nr mic_nr imp) imp)
    imp

/-- Source lines 636-671: the threads `t` of the list `ts`, each running
`impComp` with `tNum = t` and `tTot = numCPU`, one after the other. -/
def runThreads (a : arg_s R) (numCPU : Nat) (ts : List Nat) (imp : Nat → R) : Nat → R :=
  ts.foldl (fun imp t => impComp { a with tNum := t, tTot := numCPU } imp) imp

/-- Source line 76: the macro `ROUND`. -/
def ROUND (x : R) : Int :=
  if Flt.le (Flt.ofInt 0) x then Flt.toInt (x + 0.5) else Flt.toInt (x - 0.5)

/-- Source line 589: `Tw`. -/
def windowTw (Wl fs : R) : Int :=
  if ROUND (Wl * fs) < 1 then 1 else ROUND (Wl * fs)

/-- Source line 613: the entry `hanning_window[n]`. -/
def hanningWindow (Tw : Int) (n : Nat) : R :=
  0.5 * (Flt.ofInt 1 + Flt.cos (Flt.ofInt 2 * Flt.pi * Flt.ofInt (n + Int.tdiv Tw 2) / Flt.ofInt Tw))

/-- Source lines 433-436: `alfa`, the absorption implied by the reverberation
time `TR`. -/
def alfaOf (c : R) (LL : Nat → R) (TR : R) : R :=
  let V := LL 0 * LL 1 * LL 2
  let S := Flt.ofInt 2 * (LL 0 * LL 2 + LL 1 * LL 2 + LL 0 * LL 1)
  Flt.ofInt 24 * V * Flt.log 10.0 / (c * S * TR)

/-- Source lines 433-443: the reflection coefficient `beta_hat[0]` derived
from a reverberation time, or the error of line 438. -/
def betaHat (c : R) (LL : Nat → R) (TR : R) : Except String R :=
  if Flt.lt (Flt.ofInt 1) (alfaOf c LL TR) then
    Except.error "The reflection coefficients cannot be calculated"
  else Except.ok (Flt.sqrt (Flt.ofInt 1 - alfaOf c LL TR))

/-- Source lines 569-574: the reverberation time `TR` computed from the
reflection coefficients, before the floor of line 575. -/
def reverbTime (c : R) (LL beta : Nat → R) : R :=
  let V := LL 0 * LL 1 * LL 2
  let alpha :=
    ((Flt.ofInt 1 - Flt.pow (beta 0) (Flt.ofInt 2)) +
        (Flt.ofInt 1 - Flt.pow (beta 1) (Flt.ofInt 2))) * LL 0 * LL 2 +
      ((Flt.ofInt 1 - Flt.pow (beta 2) (Flt.ofInt 2)) +
        (Flt.ofInt 1 - Flt.pow (beta 3) (Flt.ofInt 2))) * LL 1 * LL 2 +
      ((Flt.ofInt 1 - Flt.pow (beta 4) (Flt.ofInt 2)) +
        (Flt.ofInt 1 - Flt.pow (beta 5) (Flt.ofInt 2))) * LL 0 * LL 1
  Flt.ofInt 24 * Flt.log 10.0 * V / (c * alpha)

/-- Source lines 574-576: `TR` after the minimum-duration floor. -/
def reverbTimeFloored (c : R) (LL beta : Nat → R) : R :=
  if Flt.lt (reverbTime c LL beta) 0.128 then 0.128 else reverbTime c LL beta

/-- Source lines 588-664: the thread arguments `tArgs[t]` that `mexFunction`
builds from the loaded parameters. -/
def threadArgs (c fs : R) (rr : Nat → R) (nr_of_mics : Nat) (ss : Nat → R) (nr_of_louds : Nat)
    (LL beta : Nat → R) (nsamples : Nat) (mtype : Char) (order : Int) (dim_s : Nat → Int)
    (angle : R) (hp_filter lp_filter : Int) (Wl : R) (t numCPU : Nat) : arg_s R where
  tNum := t
  tTot := numCPU
  ss := ss
  rr := rr
  L := fun i => LL i / (c / fs)
  beta := beta
  hanning_window := hanningWindow (windowTw Wl fs)
  fs := fs
  cTs := c / fs
  angle := angle
  Fc := Flt.ofInt 1
  mtype := mtype
  nr_of_louds := nr_of_louds
  nr_of_mics := nr_of_mics
  nsamples := nsamples
  dim_s := dim_s
  Tw := windowTw Wl fs
  order := order
  hp_filter := hp_filter
  lp_filter := lp_filter

/-- The cells of the pair `(mic_nr, loud_nr)`: the flat indices
`sample + nsamples*mic_nr + nsamples*nr_of_mics*loud_nr` with
`sample < nsamples`. -/
def ownSlice (nsamples nr_of_mics mic_nr loud_nr : Nat) (i : Nat) : Prop :=
  ∃ sample, sample < nsamples ∧
    i = sample + nsamples * mic_nr + nsamples * nr_of_mics * loud_nr

instance (nsamples nr_of_mics mic_nr loud_nr i : Nat) :
    Decidable (ownSlice nsamples nr_of_mics mic_nr loud_nr i) := by
  unfold ownSlice
  infer_instance

/-- What `imageStep` does to the single cell `i` holding the value `w`
(`imageStep_cell` proves that this is its effect). -/
def cellStep (a : arg_s R) (loud_nr mic_nr : Nat) (s r : Nat → R) (i : Nat) (w : R)
    (c : Int × Int × Int × Int × Int × Int) : R :=
  if orderTest a.order c then
    if pathFdist a s r c < a.nsamples then
      if a.lp_filter = 1 then
        (List.range (a.Tw + 1).toNat).foldl
          (fun w (n : Nat) =>
            if (0 ≤ pathFdist a s r c - Int.tdiv a.Tw 2 + (n : Int) ∧
                pathFdist a s r c - Int.tdiv a.Tw 2 + (n : Int) < a.nsamples) ∧
                abs_counter (pathFdist a s r c - Int.tdiv a.Tw 2) n a.nsamples a.nr_of_mics
                  mic_nr loud_nr = i then
              w + pathStrength a s r c * LPI a (pathDist a s r c) (pathFdist a s r c) n
            else w)
          w
      else if abs_counter (pathFdist a s r c) 0 a.nsamples a.nr_of_mics mic_nr loud_nr = i then
        w + pathStrength a s r c
      else w
    else w
  else w

/-- The pairs `(loud_nr, mic_nr)` the two outer loops of `impComp` visit for
thread `tNum` of `tTot`, in the order of the visit. -/
def workerPairs (tNum tTot nr_of_louds nr_of_mics : Nat) : List (Nat × Nat) :=
  List.product (List.range nr_of_louds) (workerMics tNum tTot nr_of_mics)

/-- The pairs visited when the threads of the list `ts` run one after the
other. -/
def threadPairs (numCPU nr_of_louds nr_of_mics : Nat) (ts : List Nat) : List (Nat × Nat) :=
  ts.flatMap (fun t => workerPairs t numCPU nr_of_louds nr_of_mics)

/-- The sequence `h` has its first non-zero sample at index `k`. -/
def FirstNonzeroAt {R : Type} [Flt R] (h : Nat → R) (k : Nat) : Prop :=
  h k ≠ Flt.ofInt 0 ∧ ∀ i, i < k → h i = Flt.ofInt 0

/-- The mirror index of an index tuple on an axis: `mx`, `my` or `mz`. -/
def tupleMirror (c : Int × Int × Int × Int × Int × Int) (axis : Nat) : Int :=
  if axis = 0 then c.1 else if axis = 1 then c.2.1 else c.2.2.1

/-- The parity selector of an index tuple on an axis: `q`, `j` or `k`. -/
def tupleParity (c : Int × Int × Int × Int × Int × Int) (axis : Nat) : Int :=
  if axis = 0 then c.2.2.2.1 else if axis = 1 then c.2.2.2.2.1 else c.2.2.2.2.2

/-- The arrival sample is never negative in the carrier `R`: the value
`(int) floor(sqrt(x))` is at least `0`. -/
def FdistNonneg (R : Type) [Flt R] : Prop :=
  ∀ x : R, 0 ≤ Flt.toInt (Flt.floor (Flt.sqrt x))

/-- The two laws of zero the high-pass filter needs to keep a zero state: a
product with zero is zero, and zero plus zero is zero. -/
def ZeroLaws (R : Type) [Add R] [Mul R] [Flt R] : Prop :=
  (∀ x : R, x * Flt.ofInt 0 = Flt.ofInt 0) ∧ (Flt.ofInt 0 + Flt.ofInt 0 : R) = Flt.ofInt 0

end Embedding

/-- Exact real arithmetic as the carrier of `double`: every operation is the
mathematical function it approximates, without rounding (an idealisation of
the program; `instFltDbl` is the rounded arithmetic).  `atan2(y, x)` is the
argument of `x + i y`, the cast to an integer type truncates toward zero. -/
noncomputable instance instFltReal : Flt ℝ where
  ofInt i := (i : ℝ)
  toInt x := if 0 ≤ x then ⌊x⌋ else ⌈x⌉
  pi := Real.pi
  sqrt := Real.sqrt
  sin := Real.sin
  cos := Real.cos
  exp := Real.exp
  log := Real.log
  atan2 y x := Complex.arg ⟨x, y⟩
  pow x y := x ^ y
  floor x := (⌊x⌋ : ℝ)
  ceil x := (⌈x⌉ : ℝ)
  eq x y := decide (x = y)
  lt x y := decide (x < y)
  le x y := decide (x ≤ y)

/-- The concrete scenario of the specification: room `(4, 4, 2)`, source
`(2, 2, 1)`, receiver `(1, 1, 1)`, `c = 343`, `fs = 16000`, all six reflection
coefficients `0.5`, order `2`, omnidirectional microphone, no high-pass filter,
nearest-sample injection, one thread; `nsamples` is left open. -/
noncomputable def scenario (nsamples : Nat) : arg_s ℝ :=
  threadArgs 343 16000 (fun _ => 1) 1 (fun i => if i = 2 then 1 else 2) 1
    (fun i => if i = 2 then 2 else 4) (fun _ => 0.5) nsamples 'o' 2 (fun _ => 1) 0 0 0 0.008 0 1

/-- A fully absorbing 1 m cube (all reflection coefficients zero) with
`c = 1`, `fs = 4` (so `cTs = 1/4`), source `(0.75, 0.5, 0.5)`, receiver
`(0.125, 0.5, 0.5)`, order 0, omnidirectional microphone, interpolation on
with `window_l = 1` (so `Tw = 4`), no high-pass filter, one thread; the
direct path is 2.5 samples long; `nsamples` is left open. -/
noncomputable def degenerateRoom (nsamples : Nat) : arg_s ℝ :=
  threadArgs 1 4 (fun i => if i = 0 then 0.125 else 0.5) 1 (fun i => if i = 0 then 0.75 else 0.5) 1
    (fun _ => 1) (fun _ => 0) nsamples 'o' 0 (fun _ => 1) 0 0 1 1 0 1

/-! ## The carrier of IEEE 754 binary64 values -/

/-- A finite value of the C type `double` (IEEE 754 binary64): the dyadic
rational `± man / 2 ^ k`, kept in lowest terms (`man` odd, or `k = 0`), zero
being `+ 0 / 2 ^ 0`.  The operations below round to nearest, ties to even,
with a significand of 53 bits.  The exponent range (overflow, subnormal
numbers), infinities, NaN and the sign of zero are not represented. -/
structure Dbl where
  neg : Bool
  man : Nat
  k : Nat
deriving DecidableEq

namespace Dbl

/-- The value `f n`, with `n` evaluated before `f` is applied to it. -/
def strict {α : Type} (n : Nat) (f : Nat → α) : α :=
  match n with
  | 0 => f 0
  | m + 1 => f (m + 1)

/-- Zero. -/
def zero : Dbl := ⟨false, 0, 0⟩

/-- The number of binary digits of `n`; `fuel` bounds the iterations. -/
def bitLenAux : Nat → Nat → Nat
  | 0, _ => 0
  | fuel + 1, n => if n = 0 then 0 else strict (n / 2) fun h => bitLenAux fuel h + 1

/-- The number of binary digits of `n`. -/
def bitLen (n : Nat) : Nat := bitLenAux (n + 1) n

/-- The value `± man / 2 ^ k` of a positive `man`, in lowest terms. -/
def norm (neg : Bool) : Nat → Nat → Dbl
  | man, 0 => ⟨neg, man, 0⟩
  | man, k + 1 =>
    if man % 2 = 0 then strict (man / 2) fun h => norm neg h k else ⟨neg, man, k + 1⟩

/-- The value `± q * 2 ^ p / 2 ^ K`. -/
def scale (neg : Bool) (q p K : Nat) : Dbl :=
  if q = 0 then zero
  else if K ≤ p then strict (q * 2 ^ (p - K)) fun v => ⟨neg, v, 0⟩
  else norm neg q (K - p)

/-- Rounding to a significand of 53 bits, to nearest, ties to even, of the
value `± (Q + d) * 2 ^ p / 2 ^ K`, where `0 ≤ d < 1` and `sticky` tells
whether `d` is not zero; when `sticky` is set, `Q` has more than 53 bits. -/
def round53 (neg : Bool) (Q : Nat) (sticky : Bool) (p K : Nat) : Dbl :=
  strict Q fun Q => strict (bitLen Q) fun b =>
    if b ≤ 53 then scale neg Q p K
    else strict (Q / 2 ^ (b - 53)) fun q => strict (Q % 2 ^ (b - 53)) fun rem =>
      if 2 ^ (b - 54) < rem ∨ (rem = 2 ^ (b - 54) ∧ (sticky = true ∨ q % 2 = 1)) then
        scale neg (q + 1) (p + (b - 53)) K
      else scale neg q (p + (b - 53)) K

/-- The rounded quotient `± a / d` of two natural numbers; the quotient is
computed to 55 bits or more, the remainder gives the sticky bit. -/
def roundQuot (neg : Bool) (a d : Nat) : Dbl :=
  strict a fun a => strict d fun d => strict (bitLen a) fun ba => strict (bitLen d) fun bd =>
    if a = 0 ∨ d = 0 then zero
    else if ba ≤ 55 + bd then
      round53 neg (a * 2 ^ (55 + bd - ba) / d) (decide (a * 2 ^ (55 + bd - ba) % d ≠ 0))
        0 (55 + bd - ba)
    else
      round53 neg (a / (d * 2 ^ (ba - (55 + bd)))) (decide (a % (d * 2 ^ (ba - (55 + bd))) ≠ 0))
        (ba - (55 + bd)) 0

/-- Conversion of an integer to `double`. -/
def ofInt (i : Int) : Dbl := round53 (decide (i < 0)) i.natAbs false 0 0

/-- The operator `+` of `double`. -/
def add (x y : Dbl) : Dbl :=
  match x, y with
  | ⟨s1, m1, k1⟩, ⟨s2, m2, k2⟩ =>
    if s1 = s2 then round53 s1 (m1 * 2 ^ k2 + m2 * 2 ^ k1) false 0 (k1 + k2)
    else if m2 * 2 ^ k1 ≤ m1 * 2 ^ k2 then
      round53 s1 (m1 * 2 ^ k2 - m2 * 2 ^ k1) false 0 (k1 + k2)
    else round53 s2 (m2 * 2 ^ k1 - m1 * 2 ^ k2) false 0 (k1 + k2)

/-- The unary operator `-` of `double`. -/
def negate (x : Dbl) : Dbl :=
  match x with
  | ⟨s, m, k⟩ => if m = 0 then zero else ⟨!s, m, k⟩

/-- The operator `*` of `double`. -/
def mul (x y : Dbl) : Dbl :=
  match x, y with
  | ⟨s1, m1, k1⟩, ⟨s2, m2, k2⟩ => round53 (xor s1 s2) (m1 * m2) false 0 (k1 + k2)

/-- The operator `/` of `double`; a zero divisor is outside the model and
gives zero. -/
def div (x y : Dbl) : Dbl :=
  match x, y with
  | ⟨s1, m1, k1⟩, ⟨s2, m2, k2⟩ => roundQuot (xor s1 s2) (m1 * 2 ^ k2) (m2 * 2 ^ k1)

/-- A decimal literal `m * 10 ^ (-e)` (when `s` is set) or `m * 10 ^ e` of the
source text, rounded once. -/
def ofScientific (m : Nat) (s : Bool) (e : Nat) : Dbl :=
  if s then roundQuot false m (10 ^ e) else round53 false (m * 10 ^ e) false 0 0

/-- The integer square root of `n`, found bit by bit from bit `b - 1` down;
`r` holds the bits found so far. -/
def sqrtAux (n : Nat) : Nat → Nat → Nat
  | 0, r => r
  | b + 1, r => strict (r + 2 ^ b) fun r2 => if r2 * r2 ≤ n then sqrtAux n b r2 else sqrtAux n b r

/-- The integer square root of `n`. -/
def isqrt (n : Nat) : Nat := strict n fun n => sqrtAux n (bitLen n / 2 + 1) 0

/-- The function `sqrt`, correctly rounded as IEEE 754 requires: the integer
root of `man * 2 ^ 128` (of `man * 2 ^ 129` for an odd `k`) has 64 bits or
more, and an inexact root sets the sticky bit.  A negative argument is outside
the model and gives zero. -/
def sqrt (x : Dbl) : Dbl :=
  match x with
  | ⟨s, m, k⟩ =>
    if s = true ∨ m = 0 then zero
    else if k % 2 = 0 then
      strict (isqrt (m * 2 ^ 128)) fun r =>
        round53 false r (decide (r * r ≠ m * 2 ^ 128)) 0 (64 + k / 2)
    else
      strict (isqrt (m * 2 ^ 129)) fun r =>
        round53 false r (decide (r * r ≠ m * 2 ^ 129)) 0 (64 + (k + 1) / 2)

/-- The function `floor`. -/
def floor (x : Dbl) : Dbl :=
  match x with
  | ⟨s, m, k⟩ => if s then scale true ((m + 2 ^ k - 1) / 2 ^ k) 0 0 else scale false (m / 2 ^ k) 0 0

/-- The function `ceil`. -/
def ceil (x : Dbl) : Dbl :=
  match x with
  | ⟨s, m, k⟩ => if s then scale true (m / 2 ^ k) 0 0 else scale false ((m + 2 ^ k - 1) / 2 ^ k) 0 0

/-- The casts `(int)` and `(long)`: truncation toward zero. -/
def toInt (x : Dbl) : Int :=
  match x with
  | ⟨s, m, k⟩ => if s then -((m / 2 ^ k : Nat) : Int) else ((m / 2 ^ k : Nat) : Int)

/-- The integer `± n`; the sign is negative when `s` is set. -/
def signed (s : Bool) (n : Nat) : Int := if s then -(n : Int) else (n : Int)

/-- The comparison `x < y`, made on the numerators over the common
denominator `2 ^ (k1 + k2)`. -/
def lt (x y : Dbl) : Bool :=
  match x, y with
  | ⟨s1, m1, k1⟩, ⟨s2, m2, k2⟩ =>
    strict (m1 * 2 ^ k2) fun A => strict (m2 * 2 ^ k1) fun B => decide (signed s1 A < signed s2 B)

/-- The comparison `x <= y`. -/
def le (x y : Dbl) : Bool :=
  match x, y with
  | ⟨s1, m1, k1⟩, ⟨s2, m2, k2⟩ =>
    strict (m1 * 2 ^ k2) fun A => strict (m2 * 2 ^ k1) fun B => decide (signed s1 A ≤ signed s2 B)

/-- The comparison `x == y`. -/
def eq (x y : Dbl) : Bool :=
  match x, y with
  | ⟨s1, m1, k1⟩, ⟨s2, m2, k2⟩ =>
    strict (m1 * 2 ^ k2) fun A => strict (m2 * 2 ^ k1) fun B => decide (signed s1 A = signed s2 B)

/-- The function `pow` for an exponent that is a non-negative integer, the
only kind the program passes (`2`, `abs(m)`, `abs(m + p)`): the power
`x ^ n` rounded once, which is `1` for `n = 0`, `x` for `n = 1` and the
rounded product `x * x` for `n = 2`.  Other exponents are outside the model
and give zero. -/
def pow (x y : Dbl) : Dbl :=
  match x, y with
  | ⟨s, m, k⟩, ⟨false, n, 0⟩ => round53 (s && decide (n % 2 = 1)) (m ^ n) false 0 (k * n)
  | _, _ => zero

end Dbl

instance : Add Dbl := ⟨Dbl.add⟩

instance : Sub Dbl := ⟨fun x y => Dbl.add x (Dbl.negate y)⟩

instance : Mul Dbl := ⟨Dbl.mul⟩

instance : Div Dbl := ⟨Dbl.div⟩

instance : Neg Dbl := ⟨Dbl.negate⟩

instance : OfScientific Dbl := ⟨Dbl.ofScientific⟩

/-- The functions of `math.h` whose results IEEE 754 does not fix: they are a
parameter of the binary64 carrier. -/
class Libm where
  sin : Dbl → Dbl
  cos : Dbl → Dbl
  exp : Dbl → Dbl
  log : Dbl → Dbl
  /-- the call `atan2(y, x)` -/
  atan2 : Dbl → Dbl → Dbl

/-- IEEE 754 binary64 arithmetic as the carrier of `double`. `M_PI` is the
literal `3.14159265358979323846` of `math.h`. -/
instance instFltDbl [Libm] : Flt Dbl where
  ofInt := Dbl.ofInt
  toInt := Dbl.toInt
  pi := Dbl.ofScientific 314159265358979323846 true 20
  sqrt := Dbl.sqrt
  sin := Libm.sin
  cos := Libm.cos
  exp := Libm.exp
  log := Libm.log
  atan2 := Libm.atan2
  pow := Dbl.pow
  floor := Dbl.floor
  ceil := Dbl.ceil
  eq := Dbl.eq
  lt := Dbl.lt
  le := Dbl.le

/-- A room `(4, 4, 2)` with the source `(4, 1, 1)` on the wall `x = L` and the
receiver `(0.31275, 1, 1)`, `c = 343`, `fs = 16000`, all reflection coefficients
`0.5`, order `2`, omnidirectional microphone, no high-pass filter,
nearest-sample injection, one thread, in binary64 arithmetic. -/
def wallRoom [Libm] (nsamples : Nat) : arg_s Dbl :=
  threadArgs 343.0 16000.0 (fun i => if i = 0 then 0.31275 else 1.0) 1
    (fun i => if i = 0 then 4.0 else 1.0) 1 (fun i => if i = 2 then 2.0 else 4.0) (fun _ => 0.5)
    nsamples 'o' 2 (fun _ => 1) (Flt.ofInt 0) 0 0 0.008 0 1

/-- A room `(102.39999999999999, 4, 4)` with `c = fs = 343` (so `cTs = 1` and
lengths in metres are lengths in samples), the source
`(102.39999999999999, 1, 1)` on the wall `x = L`, the receiver
`(102.39999999999999, 1.00000762939453125, 1)`, all reflection coefficients
`0.5`, order `-1`, omnidirectional microphone, no high-pass filter,
nearest-sample injection, one thread, in binary64 arithmetic. -/
def longRoom [Libm] (nsamples : Nat) : arg_s Dbl :=
  threadArgs 343.0 343.0 (fun i => if i = 0 then 102.39999999999999 else
      if i = 1 then 1.00000762939453125 else 1.0) 1
    (fun i => if i = 0 then 102.39999999999999 else 1.0) 1
    (fun i => if i = 0 then 102.39999999999999 else 4.0) (fun _ => 0.5)
    nsamples 'o' (-1) (fun _ => 1) (Flt.ofInt 0) 0 0 0.008 0 1

/-- A room `(4, 4, 2)` with the source `(2.02, 1, 1)` and the receiver
`(1, 1, 1)`, `c = 340`, `fs = 8000`, all reflection coefficients `0.5`, order
`0`, omnidirectional microphone, high-pass filter on, nearest-sample
injection, one thread, in binary64 arithmetic. -/
def roundedRoom [Libm] (nsamples : Nat) : arg_s Dbl :=
  threadArgs 340.0 8000.0 (fun _ => 1.0) 1 (fun i => if i = 0 then 2.02 else 1.0) 1
    (fun i => if i = 2 then 2.0 else 4.0) (fun _ => 0.5)
    nsamples 'o' 0 (fun _ => 1) (Flt.ofInt 0) 1 0 0.008 0 1

/-! ## The operations of the real carrier -/

theorem ofInt_real (i : Int) : (Flt.ofInt i : ℝ) = (i : ℝ) := rfl

theorem toInt_real (x : ℝ) : Flt.toInt x = if 0 ≤ x then ⌊x⌋ else ⌈x⌉ := rfl

theorem pi_real : (Flt.pi : ℝ) = Real.pi := rfl

theorem sqrt_real (x : ℝ) : Flt.sqrt x = Real.sqrt x := rfl

theorem sin_real (x : ℝ) : Flt.sin x = Real.sin x := rfl

theorem cos_real (x : ℝ) : Flt.cos x = Real.cos x := rfl

theorem log_real (x : ℝ) : Flt.log x = Real.log x := rfl

theorem atan2_real (y x : ℝ) : Flt.atan2 y x = Complex.arg ⟨x, y⟩ := rfl

theorem pow_real (x y : ℝ) : Flt.pow x y = x ^ y := rfl

theorem floor_real (x : ℝ) : Flt.floor x = ((⌊x⌋ : Int) : ℝ) := rfl

theorem ceil_real (x : ℝ) : Flt.ceil x = ((⌈x⌉ : Int) : ℝ) := rfl

theorem eq_real (x y : ℝ) : Flt.eq x y = decide (x = y) := rfl

theorem lt_real (x y : ℝ) : Flt.lt x y = decide (x < y) := rfl

theorem le_real (x y : ℝ) : Flt.le x y = decide (x ≤ y) := rfl

/-- The cast of an integral value gives that integer. -/
theorem toInt_intCast (i : Int) : Flt.toInt ((i : Int) : ℝ) = i := by
  rw [toInt_real]
  split <;> simp

/-- The statement `fdist = (int) floor(dist)` computes the floor. -/
theorem toInt_floor_real (x : ℝ) : Flt.toInt (Flt.floor x) = ⌊x⌋ := by
  rw [floor_real, toInt_intCast]

/-- A power with an integral exponent `|m|`, as the kernel calls `pow`. -/
theorem pow_abs_real (x : ℝ) (m : Int) : Flt.pow x (Flt.ofInt |m|) = x ^ m.natAbs := by
  rw [pow_real, ofInt_real, Int.abs_eq_natAbs, Int.cast_natCast, Real.rpow_natCast]

/-- The call `pow(x, 2)` is the square. -/
theorem pow_two_real (x : ℝ) : Flt.pow x (Flt.ofInt 2) = x ^ 2 := by
  rw [pow_real, ofInt_real]
  norm_num

/-- The image offset over the reals. -/
theorem imageOffset_real (a : arg_s ℝ) (s r : Nat → ℝ) (axis : Nat) (m p : Int) :
    imageOffset a s r axis m p =
      s axis - r axis + 2 * (p : ℝ) * r axis + 2 * (m : ℝ) * a.L axis := by
  simp only [imageOffset, ofInt_real]
  push_cast
  ring

/-- The attenuation of an axis over the reals. -/
theorem reflCoef_real (a : arg_s ℝ) (axis : Nat) (m p : Int) :
    reflCoef a axis m p =
      a.beta (2 * axis) ^ m.natAbs * a.beta (2 * axis + 1) ^ (m + p).natAbs := by
  unfold reflCoef
  rw [pow_abs_real, pow_abs_real]

/-- The path length over the reals. -/
theorem pathDist_real (a : arg_s ℝ) (s r : Nat → ℝ) (c : Int × Int × Int × Int × Int × Int) :
    pathDist a s r c =
      Real.sqrt (imageOffset a s r 0 c.1 c.2.2.2.1 ^ 2 + imageOffset a s r 1 c.2.1 c.2.2.2.2.1 ^ 2 +
        imageOffset a s r 2 c.2.2.1 c.2.2.2.2.2 ^ 2) := by
  simp only [pathDist, pow_two_real, sqrt_real]

/-- The arrival sample over the reals. -/
theorem pathFdist_real (a : arg_s ℝ) (s r : Nat → ℝ) (c : Int × Int × Int × Int × Int × Int) :
    pathFdist a s r c = ⌊pathDist a s r c⌋ :=
  toInt_floor_real _

/-- The lattice bound over the reals. -/
theorem latticeBound_real (a : arg_s ℝ) (axis : Nat) :
    latticeBound a axis = ⌈(a.nsamples : ℝ) / (2 * a.L axis)⌉ * a.dim_s axis := by
  unfold latticeBound
  rw [ceil_real, ofInt_real, ofInt_real, ofInt_real, ← Int.cast_mul, toInt_intCast]
  norm_num

/-- The image offsets of the concrete scenario are multiples of `16000/343`
samples (one metre). -/
theorem scenario_offset (n : Nat) (m p : Int) :
    imageOffset (scenario n) (srcPos (scenario n) 0) (micPos (scenario n) 0) 0 m p =
        16000 / 343 * ((1 + 2 * p + 8 * m : Int) : ℝ) ∧
      imageOffset (scenario n) (srcPos (scenario n) 0) (micPos (scenario n) 0) 1 m p =
        16000 / 343 * ((1 + 2 * p + 8 * m : Int) : ℝ) ∧
      imageOffset (scenario n) (srcPos (scenario n) 0) (micPos (scenario n) 0) 2 m p =
        16000 / 343 * ((2 * p + 4 * m : Int) : ℝ) := by
  simp only [imageOffset_real, srcPos, micPos, samplePos, scenario, threadArgs]
  push_cast
  refine ⟨?_, ?_, ?_⟩ <;> norm_num <;> ring

/-- Over the reals the arrival sample is never negative. -/
theorem fdistNonneg_real : FdistNonneg ℝ := by
  intro x
  rw [toInt_floor_real, sqrt_real]
  exact Int.floor_nonneg.mpr (Real.sqrt_nonneg x)

/-- The sizes of the concrete scenario. -/
theorem scenario_sizes (n : Nat) :
    (scenario n).nsamples = n ∧ (scenario n).nr_of_mics = 1 ∧ (scenario n).nr_of_louds = 1 :=
  ⟨rfl, rfl, rfl⟩

/-! ## The flat index and the cells a step touches -/

section Generic

variable {R : Type} [Add R] [Sub R] [Mul R] [Div R] [Neg R] [OfScientific R] [Flt R]

/-- A pair's slice ends inside the tensor. -/
theorem slice_end_le (ns M N mic loud : Nat) (hmic : mic < M) (hloud : loud < N) :
    ns * mic + ns * M * loud + ns ≤ ns * M * N := by
  have h3 : ns * mic + ns ≤ ns * M := by
    have := Nat.mul_le_mul_left ns (Nat.succ_le_of_lt hmic)
    simpa [Nat.mul_succ] using this
  have h4 : ns * M * loud + ns * M ≤ ns * M * N := by
    have := Nat.mul_le_mul_left (ns * M) (Nat.succ_le_of_lt hloud)
    simpa [Nat.mul_succ] using this
  omega

/-- Membership in a slice as two inequalities. -/
theorem ownSlice_iff (ns M mic loud i : Nat) :
    ownSlice ns M mic loud i ↔
      ns * mic + ns * M * loud ≤ i ∧ i < ns * mic + ns * M * loud + ns := by
  constructor
  · rintro ⟨k, hk, rfl⟩
    omega
  · rintro ⟨h1, h2⟩
    exact ⟨i - (ns * mic + ns * M * loud), by omega, by omega⟩

/-- When the tensor has fewer than `2 ^ 64` cells, the `uint64_t` index of a
sample `0 ≤ pos + n < nsamples` of a pair does not wrap around. -/
theorem abs_counter_eq (pos n : Int) (ns M N mic loud : Nat) (hmic : mic < M)
    (hloud : loud < N) (hfit : ns * M * N < 2 ^ 64) (h0 : 0 ≤ pos + n) (h1 : pos + n < ns) :
    abs_counter pos n ns M mic loud = (pos + n).toNat + ns * mic + ns * M * loud := by
  have hend := slice_end_le ns M N mic loud hmic hloud
  have hM : M ≤ ns * M := Nat.le_mul_of_pos_left M (by omega)
  have hns : ns ≤ ns * M := Nat.le_mul_of_pos_right ns (by omega)
  have hnsM : ns * M ≤ ns * M * N := Nat.le_mul_of_pos_right (ns * M) (by omega)
  have hN : N ≤ ns * M * N :=
    Nat.le_mul_of_pos_left N (Nat.mul_pos (by omega) (by omega))
  have e1 : u64 (ns : Int) = ns := by unfold u64; omega
  have e2 : u64 (mic : Int) = mic := by unfold u64; omega
  have e3 : u64 (M : Int) = M := by unfold u64; omega
  have e4 : u64 (loud : Int) = loud := by unfold u64; omega
  unfold abs_counter add64 mul64
  rw [e1, e2, e3, e4, Nat.mod_eq_of_lt (show ns * M < 2 ^ 64 by omega)]
  unfold u64
  generalize ns * M * loud = C at *
  generalize ns * mic = A at *
  omega

/-- The index of a sample of a pair is a cell of the pair's slice. -/
theorem abs_counter_mem (pos n : Int) (ns M N mic loud : Nat) (hmic : mic < M)
    (hloud : loud < N) (hfit : ns * M * N < 2 ^ 64) (h0 : 0 ≤ pos + n) (h1 : pos + n < ns) :
    ownSlice ns M mic loud (abs_counter pos n ns M mic loud) := by
  rw [abs_counter_eq pos n ns M N mic loud hmic hloud hfit h0 h1]
  exact ⟨(pos + n).toNat, by omega, rfl⟩

/-- A loop of guarded accumulating writes, seen from one cell. -/
theorem foldl_update_cell {X : Type} (P : X → Prop) [DecidablePred P] (idx : X → Nat)
    (v : X → R) (l : List X) (imp : Nat → R) (i : Nat) :
    (l.foldl (fun imp x =>
        if P x then Function.update imp (idx x) (imp (idx x) + v x) else imp) imp) i =
      l.foldl (fun w x => if P x ∧ idx x = i then w + v x else w) (imp i) := by
  induction l generalizing imp with
  | nil => rfl
  | cons x t ih =>
    rw [List.foldl_cons, List.foldl_cons, ih]
    congr 1
    by_cases hP : P x
    · by_cases hi : idx x = i
      · subst hi
        simp [hP]
      · simp [hP, hi, Function.update_noteq (Ne.symm hi)]
    · simp [hP]

/-- The step of the kernel acts cell by cell. -/
theorem imageStep_cell (a : arg_s R) (loud_nr mic_nr : Nat) (s r : Nat → R) (imp : Nat → R)
    (c : Int × Int × Int × Int × Int × Int) (i : Nat) :
    imageStep a loud_nr mic_nr s r imp c i = cellStep a loud_nr mic_nr s r i (imp i) c := by
  unfold imageStep cellStep
  by_cases ho : orderTest a.order c = true
  · by_cases hf : pathFdist a s r c < a.nsamples
    · by_cases hl : a.lp_filter = 1
      · simp only [ho, hf, hl, if_true]
        exact foldl_update_cell _ _ _ _ imp i
      · simp only [ho, hf, hl, if_true, if_false, injectNearest]
        by_cases hi : abs_counter (pathFdist a s r c) 0 a.nsamples a.nr_of_mics mic_nr loud_nr = i
        · subst hi
          simp
        · simp [hi, Function.update_noteq (Ne.symm hi)]
    · simp [ho, hf]
  · simp [ho]

/-- The six nested loops act cell by cell. -/
theorem imageSum_cell (a : arg_s R) (loud_nr mic_nr : Nat) (imp : Nat → R) (i : Nat) :
    imageSum a loud_nr mic_nr imp i =
      (lattice a).foldl (cellStep a loud_nr mic_nr (srcPos a loud_nr) (micPos a mic_nr) i)
        (imp i) := by
  unfold imageSum
  generalize lattice a = l
  induction l generalizing imp with
  | nil => rfl
  | cons c t ih => rw [List.foldl_cons, List.foldl_cons, ih, imageStep_cell]

/-- A step leaves a cell outside the pair's slice as it is. -/
theorem cellStep_frame (hR : FdistNonneg R) (a : arg_s R) (N loud_nr mic_nr : Nat)
    (hmic : mic_nr < a.nr_of_mics) (hloud : loud_nr < N)
    (hfit : a.nsamples * a.nr_of_mics * N < 2 ^ 64) (s r : Nat → R) (i : Nat) (w : R)
    (c : Int × Int × Int × Int × Int × Int)
    (hi : ¬ ownSlice a.nsamples a.nr_of_mics mic_nr loud_nr i) :
    cellStep a loud_nr mic_nr s r i w c = w := by
  unfold cellStep
  split
  · split
    · rename_i hf
      split
      · generalize List.range (a.Tw + 1).toNat = l
        induction l with
        | nil => rfl
        | cons n t ih =>
          rw [List.foldl_cons, if_neg, ih]
          rintro ⟨⟨h0, h1⟩, hidx⟩
          exact hi (hidx ▸ abs_counter_mem _ _ _ _ N _ _ hmic hloud hfit h0 h1)
      · rw [if_neg]
        intro hidx
        have h0 : 0 ≤ pathFdist a s r c + 0 := by
          have := hR (Flt.pow (imageOffset a s r 0 c.1 c.2.2.2.1) (Flt.ofInt 2) +
            Flt.pow (imageOffset a s r 1 c.2.1 c.2.2.2.2.1) (Flt.ofInt 2) +
            Flt.pow (imageOffset a s r 2 c.2.2.1 c.2.2.2.2.2) (Flt.ofInt 2))
          simpa [pathFdist, pathDist] using this
        exact hi (hidx ▸ abs_counter_mem _ _ _ _ N _ _ hmic hloud hfit h0 (by simpa using hf))
    · rfl
  · rfl

/-- The six nested loops leave a cell outside the pair's slice as it is. -/
theorem imageSum_frame (hR : FdistNonneg R) (a : arg_s R) (N loud_nr mic_nr : Nat)
    (hmic : mic_nr < a.nr_of_mics) (hloud : loud_nr < N)
    (hfit : a.nsamples * a.nr_of_mics * N < 2 ^ 64) (imp : Nat → R) (i : Nat)
    (hi : ¬ ownSlice a.nsamples a.nr_of_mics mic_nr loud_nr i) :
    imageSum a loud_nr mic_nr imp i = imp i := by
  rw [imageSum_cell]
  generalize lattice a = l
  induction l with
  | nil => rfl
  | cons c t ih =>
    rw [List.foldl_cons, cellStep_frame hR a N loud_nr mic_nr hmic hloud hfit _ _ i _ c hi, ih]

/-- The value the six nested loops leave in a cell depends on the tensor
through that cell only. -/
theorem imageSum_local (a : arg_s R) (loud_nr mic_nr : Nat) (imp imp2 : Nat → R) (i : Nat)
    (h : imp i = imp2 i) :
    imageSum a loud_nr mic_nr imp i = imageSum a loud_nr mic_nr imp2 i := by
  rw [imageSum_cell, imageSum_cell, h]

/-- The high-pass loop leaves a cell outside the pair's slice as it is. -/
theorem hpFold_frame (a : arg_s R) (N loud_nr mic_nr : Nat)
    (hmic : mic_nr < a.nr_of_mics) (hloud : loud_nr < N)
    (hfit : a.nsamples * a.nr_of_mics * N < 2 ^ 64) (i : Nat)
    (hi : ¬ ownSlice a.nsamples a.nr_of_mics mic_nr loud_nr i) (l : List Nat)
    (hl : ∀ idx ∈ l, idx < a.nsamples) (st : (Nat → R) × R × R × R) :
    (l.foldl (hpStep a loud_nr mic_nr) st).1 i = st.1 i := by
  induction l generalizing st with
  | nil => rfl
  | cons idx t ih =>
    rw [List.foldl_cons, ih (fun j hj => hl j (List.mem_cons_of_mem _ hj))]
    have hidx : idx < a.nsamples := hl idx (List.mem_cons_self _ _)
    have hmem := abs_counter_mem idx 0 a.nsamples a.nr_of_mics N mic_nr loud_nr hmic hloud hfit
      (by omega) (by omega)
    have hne : i ≠ abs_counter idx 0 a.nsamples a.nr_of_mics mic_nr loud_nr := by
      intro h
      exact hi (h ▸ hmem)
    simp only [hpStep]
    exact Function.update_noteq hne _ _

/-- The high-pass loop on two tensors that agree on the pair's slice gives
tensors that agree on the slice, and the same filter state. -/
theorem hpFold_local (a : arg_s R) (N loud_nr mic_nr : Nat)
    (hmic : mic_nr < a.nr_of_mics) (hloud : loud_nr < N)
    (hfit : a.nsamples * a.nr_of_mics * N < 2 ^ 64) (l : List Nat)
    (hl : ∀ idx ∈ l, idx < a.nsamples) (st st2 : (Nat → R) × R × R × R)
    (h1 : ∀ i, ownSlice a.nsamples a.nr_of_mics mic_nr loud_nr i → st.1 i = st2.1 i)
    (h2 : st.2 = st2.2) :
    (∀ i, ownSlice a.nsamples a.nr_of_mics mic_nr loud_nr i →
      (l.foldl (hpStep a loud_nr mic_nr) st).1 i =
        (l.foldl (hpStep a loud_nr mic_nr) st2).1 i) ∧
      (l.foldl (hpStep a loud_nr mic_nr) st).2 = (l.foldl (hpStep a loud_nr mic_nr) st2).2 := by
  induction l generalizing st st2 with
  | nil => exact ⟨h1, h2⟩
  | cons idx t ih =>
    rw [List.foldl_cons, List.foldl_cons]
    have hidx : idx < a.nsamples := hl idx (List.mem_cons_self _ _)
    have hmem := abs_counter_mem idx 0 a.nsamples a.nr_of_mics N mic_nr loud_nr hmic hloud hfit
      (by omega) (by omega)
    have hX := h1 _ hmem
    apply ih (fun j hj => hl j (List.mem_cons_of_mem _ hj))
    · intro i hi
      simp only [hpStep, h2, hX]
      by_cases hc : i = abs_counter idx 0 a.nsamples a.nr_of_mics mic_nr loud_nr
      · rw [hc, Function.update_same, Function.update_same]
      · rw [Function.update_noteq hc, Function.update_noteq hc]
        exact h1 i hi
    · simp only [hpStep, h2, hX]

/-- Frame property of the work for one pair: a cell outside the pair's slice
keeps its value. -/
theorem pairComp_frame (hR : FdistNonneg R) (a : arg_s R) (N loud_nr mic_nr : Nat)
    (hmic : mic_nr < a.nr_of_mics) (hloud : loud_nr < N)
    (hfit : a.nsamples * a.nr_of_mics * N < 2 ^ 64) (imp : Nat → R) (i : Nat)
    (hi : ¬ ownSlice a.nsamples a.nr_of_mics mic_nr loud_nr i) :
    pairComp a loud_nr mic_nr imp i = imp i := by
  unfold pairComp
  split
  · unfold highPass
    rw [hpFold_frame a N loud_nr mic_nr hmic hloud hfit i hi _
      (fun idx h => List.mem_range.mp h)]
    exact imageSum_frame hR a N loud_nr mic_nr hmic hloud hfit imp i hi
  · exact imageSum_frame hR a N loud_nr mic_nr hmic hloud hfit imp i hi

/-- The work for one pair reads the tensor on the pair's slice only. -/
theorem pairComp_local (a : arg_s R) (N loud_nr mic_nr : Nat)
    (hmic : mic_nr < a.nr_of_mics) (hloud : loud_nr < N)
    (hfit : a.nsamples * a.nr_of_mics * N < 2 ^ 64) (imp imp2 : Nat → R)
    (h : ∀ i, ownSlice a.nsamples a.nr_of_mics mic_nr loud_nr i → imp i = imp2 i) (i : Nat)
    (hi : ownSlice a.nsamples a.nr_of_mics mic_nr loud_nr i) :
    pairComp a loud_nr mic_nr imp i = pairComp a loud_nr mic_nr imp2 i := by
  unfold pairComp
  split
  · unfold highPass
    exact (hpFold_local a N loud_nr mic_nr hmic hloud hfit _ (fun idx h => List.mem_range.mp h)
      (imageSum a loud_nr mic_nr imp, Flt.ofInt 0, Flt.ofInt 0, Flt.ofInt 0)
      (imageSum a loud_nr mic_nr imp2, Flt.ofInt 0, Flt.ofInt 0, Flt.ofInt 0)
      (fun j hj => imageSum_local a loud_nr mic_nr imp imp2 j (h j hj)) rfl).1 i hi
  · exact imageSum_local a loud_nr mic_nr imp imp2 i (h i hi)

/-- Two pairs whose slices share a cell are the same pair. -/
theorem ownSlice_disjoint (ns M mic loud mic2 loud2 i : Nat) (hmic : mic < M) (hmic2 : mic2 < M)
    (h1 : ownSlice ns M mic loud i) (h2 : ownSlice ns M mic2 loud2 i) :
    mic = mic2 ∧ loud = loud2 := by
  rw [ownSlice_iff] at h1 h2
  have a1 : ns * mic + ns ≤ ns * M := by
    have := Nat.mul_le_mul_left ns (Nat.succ_le_of_lt hmic)
    simpa [Nat.mul_succ] using this
  have a2 : ns * mic2 + ns ≤ ns * M := by
    have := Nat.mul_le_mul_left ns (Nat.succ_le_of_lt hmic2)
    simpa [Nat.mul_succ] using this
  have hl : loud = loud2 := by
    rcases Nat.lt_trichotomy loud loud2 with h | h | h
    · have := Nat.mul_le_mul_left (ns * M) (Nat.succ_le_of_lt h)
      rw [Nat.mul_succ] at this
      omega
    · exact h
    · have := Nat.mul_le_mul_left (ns * M) (Nat.succ_le_of_lt h)
      rw [Nat.mul_succ] at this
      omega
  subst hl
  refine ⟨?_, rfl⟩
  rcases Nat.lt_trichotomy mic mic2 with h | h | h
  · have := Nat.mul_le_mul_left ns (Nat.succ_le_of_lt h)
    rw [Nat.mul_succ] at this
    omega
  · exact h
  · have := Nat.mul_le_mul_left ns (Nat.succ_le_of_lt h)
    rw [Nat.mul_succ] at this
    omega

/-! ## The receiver loop and the pairs of a thread -/

/-- The receivers the loop of line 207 visits with `fuel` iterations. -/
theorem mem_micLoop (T M : Nat) (fuel start m : Nat) :
    m ∈ micLoop T M fuel start ↔ m < M ∧ ∃ k, k < fuel ∧ m = start + k * T := by
  induction fuel generalizing start with
  | zero => simp [micLoop]
  | succ n ih =>
    simp only [micLoop]
    split
    · rename_i hs
      rw [List.mem_cons, ih]
      constructor
      · rintro (rfl | ⟨hm, k, hk, rfl⟩)
        · exact ⟨hs, 0, by omega, by simp⟩
        · exact ⟨hm, k + 1, by omega, by ring⟩
      · rintro ⟨hm, k, hk, rfl⟩
        cases k with
        | zero => left; simp
        | succ k => right; exact ⟨hm, k, by omega, by ring⟩
    · rename_i hs
      simp only [List.not_mem_nil, false_iff, not_and, not_exists]
      intro hm k _ h
      omega

/-- With a positive thread count the loop of line 207 ends before its fuel
does: thread `t` visits exactly the receivers `t, t + T, t + 2 T, ...` below
`M`. -/
theorem mem_workerMics (t T M m : Nat) (hT : 0 < T) :
    m ∈ workerMics t T M ↔ m < M ∧ ∃ k, m = t + k * T := by
  unfold workerMics
  rw [mem_micLoop]
  constructor
  · rintro ⟨hm, k, _, h⟩
    exact ⟨hm, k, h⟩
  · rintro ⟨hm, k, h⟩
    have := Nat.le_mul_of_pos_right k hT
    exact ⟨hm, k, by omega, h⟩

/-- For a thread number below the thread count, the receivers of the thread
are those congruent to it modulo the count. -/
theorem mem_workerMics_mod (t T M m : Nat) (ht : t < T) :
    m ∈ workerMics t T M ↔ m < M ∧ m % T = t := by
  rw [mem_workerMics t T M m (by omega)]
  constructor
  · rintro ⟨hm, k, rfl⟩
    exact ⟨hm, by rw [Nat.add_mul_mod_self_right, Nat.mod_eq_of_lt ht]⟩
  · rintro ⟨hm, rfl⟩
    refine ⟨hm, m / T, ?_⟩
    have := Nat.mod_add_div m T
    rw [Nat.mul_comm] at this
    omega

/-- The loop of line 207 visits no receiver twice. -/
theorem nodup_micLoop (T M : Nat) (hT : 0 < T) (fuel start : Nat) :
    (micLoop T M fuel start).Nodup := by
  induction fuel generalizing start with
  | zero => simp [micLoop]
  | succ n ih =>
    simp only [micLoop]
    split
    · rw [List.nodup_cons]
      refine ⟨?_, ih _⟩
      rw [mem_micLoop]
      rintro ⟨_, k, _, h⟩
      have : 0 ≤ k * T := Nat.zero_le _
      omega
    · exact List.nodup_nil

/-- The pairs of a thread. -/
theorem mem_workerPairs (t T N M : Nat) (p : Nat × Nat) :
    p ∈ workerPairs t T N M ↔ p.1 < N ∧ p.2 ∈ workerMics t T M := by
  obtain ⟨l, m⟩ := p
  simp [workerPairs, List.mem_product]

/-- A thread visits no pair twice. -/
theorem nodup_workerPairs (t T N M : Nat) (hT : 0 < T) : (workerPairs t T N M).Nodup :=
  List.Nodup.product (List.nodup_range N) (nodup_micLoop T M hT M t)

/-- Threads with different numbers below the thread count have no receiver in
common. -/
theorem workerMics_disjoint (T M t1 t2 m : Nat) (h1 : t1 < T) (h2 : t2 < T) (hne : t1 ≠ t2)
    (hm1 : m ∈ workerMics t1 T M) (hm2 : m ∈ workerMics t2 T M) : False := by
  rw [mem_workerMics_mod t1 T M m h1] at hm1
  rw [mem_workerMics_mod t2 T M m h2] at hm2
  omega

/-- The pairs visited by the threads `0, ..., T - 1`, run in any order, are the
pairs `(loud_nr, mic_nr)` with `loud_nr < N` and `mic_nr < M`, each once. -/
theorem threadPairs_spec (T N M : Nat) (hT : 0 < T) (ts : List Nat)
    (hperm : ts.Perm (List.range T)) :
    (threadPairs T N M ts).Nodup ∧
      ∀ p, p ∈ threadPairs T N M ts ↔ p.1 < N ∧ p.2 < M := by
  have hlt : ∀ t ∈ ts, t < T := fun t ht => List.mem_range.mp (hperm.mem_iff.mp ht)
  have hnd : ts.Nodup := hperm.nodup_iff.mpr (List.nodup_range T)
  constructor
  · unfold threadPairs
    rw [List.nodup_flatMap]
    refine ⟨fun t _ => nodup_workerPairs t T N M hT, ?_⟩
    apply List.Nodup.pairwise_of_forall_ne hnd
    intro t1 h1 t2 h2 hne p hp1 hp2
    rw [mem_workerPairs] at hp1 hp2
    exact workerMics_disjoint T M t1 t2 p.2 (hlt t1 h1) (hlt t2 h2) hne hp1.2 hp2.2
  · intro p
    unfold threadPairs
    rw [List.mem_flatMap]
    constructor
    · rintro ⟨t, ht, hp⟩
      rw [mem_workerPairs, mem_workerMics_mod t T M p.2 (hlt t ht)] at hp
      exact ⟨hp.1, hp.2.1⟩
    · rintro ⟨h1, h2⟩
      refine ⟨p.2 % T, hperm.mem_iff.mpr (List.mem_range.mpr (Nat.mod_lt _ hT)), ?_⟩
      rw [mem_workerPairs, mem_workerMics_mod _ T M p.2 (Nat.mod_lt _ hT)]
      exact ⟨h1, h2, rfl⟩

/-- A loop over a product list is the two nested loops. -/
theorem foldl_product {α β γ : Type} (f : γ → α × β → γ) (l1 : List α) (l2 : List β) (b : γ) :
    (List.product l1 l2).foldl f b =
      l1.foldl (fun b x => l2.foldl (fun b y => f b (x, y)) b) b := by
  unfold List.product
  induction l1 generalizing b with
  | nil => rfl
  | cons x t ih =>
    rw [List.flatMap_cons, List.foldl_append, List.foldl_map, ih, List.foldl_cons]

/-- The thread body is the work for the pairs of the thread, in order. -/
theorem impComp_eq_foldl (a : arg_s R) (imp : Nat → R) :
    impComp a imp =
      (workerPairs a.tNum a.tTot a.nr_of_louds a.nr_of_mics).foldl
        (fun imp p => pairComp a p.1 p.2 imp) imp := by
  unfold impComp workerPairs
  rw [foldl_product]

/-- The work for a pair does not read the thread number or the thread count. -/
theorem pairComp_thread (a : arg_s R) (t T : Nat) :
    pairComp { a with tNum := t, tTot := T } = pairComp a := rfl

/-- The threads run one after the other do the work for the pairs of
`threadPairs`, in order. -/
theorem runThreads_eq_foldl (a : arg_s R) (T : Nat) (ts : List Nat) (imp : Nat → R) :
    runThreads a T ts imp =
      (threadPairs T a.nr_of_louds a.nr_of_mics ts).foldl
        (fun imp p => pairComp a p.1 p.2 imp) imp := by
  unfold runThreads threadPairs
  induction ts generalizing imp with
  | nil => rfl
  | cons t rest ih =>
    rw [List.foldl_cons, List.flatMap_cons, List.foldl_append, ih, impComp_eq_foldl]
    simp only [pairComp_thread]

/-- Work for pairs none of which owns the cell `i` leaves the cell as it is. -/
theorem foldl_pairs_frame (hR : FdistNonneg R) (a : arg_s R)
    (hfit : a.nsamples * a.nr_of_mics * a.nr_of_louds < 2 ^ 64) (ps : List (Nat × Nat))
    (hps : ∀ p ∈ ps, p.1 < a.nr_of_louds ∧ p.2 < a.nr_of_mics) (imp : Nat → R) (i : Nat)
    (hi : ∀ p ∈ ps, ¬ ownSlice a.nsamples a.nr_of_mics p.2 p.1 i) :
    (ps.foldl (fun imp p => pairComp a p.1 p.2 imp) imp) i = imp i := by
  induction ps generalizing imp with
  | nil => rfl
  | cons q t ih =>
    rw [List.foldl_cons, ih (fun p hp => hps p (List.mem_cons_of_mem _ hp)) _
      (fun p hp => hi p (List.mem_cons_of_mem _ hp))]
    exact pairComp_frame hR a a.nr_of_louds q.1 q.2 (hps q (List.mem_cons_self _ _)).2
      (hps q (List.mem_cons_self _ _)).1 hfit imp i (hi q (List.mem_cons_self _ _))

/-- Work for a list of distinct pairs leaves in a cell of the pair `p` what
the work for `p` alone leaves there. -/
theorem foldl_pairs_own (hR : FdistNonneg R) (a : arg_s R)
    (hfit : a.nsamples * a.nr_of_mics * a.nr_of_louds < 2 ^ 64) (ps : List (Nat × Nat))
    (hps : ∀ p ∈ ps, p.1 < a.nr_of_louds ∧ p.2 < a.nr_of_mics) (hnd : ps.Nodup)
    (imp : Nat → R) (i : Nat) (p : Nat × Nat) (hp : p ∈ ps)
    (hi : ownSlice a.nsamples a.nr_of_mics p.2 p.1 i) :
    (ps.foldl (fun imp p => pairComp a p.1 p.2 imp) imp) i = pairComp a p.1 p.2 imp i := by
  induction ps generalizing imp with
  | nil => exact absurd hp (List.not_mem_nil _)
  | cons q t ih =>
    rw [List.foldl_cons]
    rw [List.nodup_cons] at hnd
    have hq := hps q (List.mem_cons_self _ _)
    have ht : ∀ p ∈ t, p.1 < a.nr_of_louds ∧ p.2 < a.nr_of_mics :=
      fun p hp => hps p (List.mem_cons_of_mem _ hp)
    by_cases hpq : p = q
    · subst hpq
      apply foldl_pairs_frame hR a hfit t ht
      intro p2 hp2 h2
      have := ownSlice_disjoint _ _ _ _ _ _ i hq.2 (ht p2 hp2).2 hi h2
      exact hnd.1 (by rw [Prod.ext this.2 this.1]; exact hp2)
    · have hpt : p ∈ t := by
        rcases List.mem_cons.mp hp with h | h
        · exact absurd h hpq
        · exact h
      rw [ih ht hnd.2 _ hpt]
      apply pairComp_local a a.nr_of_louds p.1 p.2 (ht p hpt).2 (ht p hpt).1 hfit _ _ _ i hi
      intro j hj
      apply pairComp_frame hR a a.nr_of_louds q.1 q.2 hq.2 hq.1 hfit imp j
      intro hjq
      have := ownSlice_disjoint _ _ _ _ _ _ j (ht p hpt).2 hq.2 hj hjq
      exact hpq (Prod.ext this.2 this.1)

/-- Two lists of distinct pairs with the same members give the same tensor. -/
theorem foldl_pairs_congr (hR : FdistNonneg R) (a : arg_s R)
    (hfit : a.nsamples * a.nr_of_mics * a.nr_of_louds < 2 ^ 64) (ps qs : List (Nat × Nat))
    (hps : ∀ p ∈ ps, p.1 < a.nr_of_louds ∧ p.2 < a.nr_of_mics) (hnd : ps.Nodup)
    (hnd2 : qs.Nodup) (hmem : ∀ p, p ∈ ps ↔ p ∈ qs) (imp : Nat → R) :
    ps.foldl (fun imp p => pairComp a p.1 p.2 imp) imp =
      qs.foldl (fun imp p => pairComp a p.1 p.2 imp) imp := by
  have hqs : ∀ p ∈ qs, p.1 < a.nr_of_louds ∧ p.2 < a.nr_of_mics :=
    fun p hp => hps p ((hmem p).mpr hp)
  funext i
  by_cases h : ∃ p ∈ ps, ownSlice a.nsamples a.nr_of_mics p.2 p.1 i
  · obtain ⟨p, hp, hi⟩ := h
    rw [foldl_pairs_own hR a hfit ps hps hnd imp i p hp hi,
      foldl_pairs_own hR a hfit qs hqs hnd2 imp i p ((hmem p).mp hp) hi]
  · have h1 : ∀ p ∈ ps, ¬ ownSlice a.nsamples a.nr_of_mics p.2 p.1 i :=
      fun p hp hi => h ⟨p, hp, hi⟩
    rw [foldl_pairs_frame hR a hfit ps hps imp i h1,
      foldl_pairs_frame hR a hfit qs hqs imp i (fun p hp => h1 p ((hmem p).mpr hp))]

/-! ## The lattice of index tuples -/

/-- The values a loop `for (i = lo; i <= hi; i++)` runs through. -/
theorem mem_rangeInt (lo hi x : Int) : x ∈ rangeInt lo hi ↔ lo ≤ x ∧ x ≤ hi := by
  unfold rangeInt
  rw [List.mem_map]
  constructor
  · rintro ⟨i, hi, rfl⟩
    rw [List.mem_range] at hi
    omega
  · rintro ⟨h1, h2⟩
    exact ⟨(x - lo).toNat, List.mem_range.mpr (by omega), by omega⟩

/-- A loop `for (i = lo; i <= hi; i++)` takes no value twice. -/
theorem nodup_rangeInt (lo hi : Int) : (rangeInt lo hi).Nodup := by
  unfold rangeInt
  apply List.Nodup.map _ (List.nodup_range _)
  intro i j h
  simpa using h

/-- The six nested loops visit no index tuple twice. -/
theorem nodup_lattice (a : arg_s R) : (lattice a).Nodup := by
  unfold lattice
  exact List.Nodup.product (nodup_rangeInt _ _) (List.Nodup.product (nodup_rangeInt _ _)
    (List.Nodup.product (nodup_rangeInt _ _) (List.Nodup.product (nodup_rangeInt _ _)
      (List.Nodup.product (nodup_rangeInt _ _) (nodup_rangeInt _ _)))))

/-- The index tuples the six nested loops visit. -/
theorem mem_lattice (a : arg_s R) (mx my mz q j k : Int) :
    (mx, my, mz, q, j, k) ∈ lattice a ↔
      (-(latticeBound a 0) ≤ mx ∧ mx ≤ latticeBound a 0) ∧
      (-(latticeBound a 1) ≤ my ∧ my ≤ latticeBound a 1) ∧
      (-(latticeBound a 2) ≤ mz ∧ mz ≤ latticeBound a 2) ∧
      (0 ≤ q ∧ q ≤ 1 * a.dim_s 0) ∧ (0 ≤ j ∧ j ≤ 1 * a.dim_s 1) ∧
      (0 ≤ k ∧ k ≤ 1 * a.dim_s 2) := by
  simp [lattice, List.mem_product, mem_rangeInt]

/-- A loop in which every element but `d` leaves the state as it is does what
the element `d` does. -/
theorem foldl_single {W C : Type} (f : W → C → W) (l : List C) (d : C) (hnd : l.Nodup)
    (hd : d ∈ l) (hf : ∀ c ∈ l, c ≠ d → ∀ w, f w c = w) (w : W) :
    l.foldl f w = f w d := by
  obtain ⟨s, t, rfl⟩ := List.append_of_mem hd
  have hskip : ∀ (u : List C), (∀ c ∈ u, ∀ w, f w c = w) → ∀ w, u.foldl f w = w := by
    intro u
    induction u with
    | nil => intro _ w; rfl
    | cons c u ih =>
      intro h w
      rw [List.foldl_cons, h c (List.mem_cons_self _ _),
        ih (fun c hc => h c (List.mem_cons_of_mem _ hc))]
  rw [List.nodup_append] at hnd
  obtain ⟨_, hnd2, hdis⟩ := hnd
  rw [List.nodup_cons] at hnd2
  have hs : ∀ c ∈ s, ∀ w, f w c = w := by
    intro c hc
    apply hf c (List.mem_append_left _ hc)
    rintro rfl
    exact hdis hc (List.mem_cons_self _ _)
  have ht : ∀ c ∈ t, ∀ w, f w c = w := by
    intro c hc
    apply hf c (List.mem_append_right _ (List.mem_cons_of_mem _ hc))
    rintro rfl
    exact hnd2.1 hc
  rw [List.foldl_append, List.foldl_cons, hskip s hs, hskip t ht]

/-- A loop in which every element leaves the state as it is does nothing. -/
theorem foldl_skip {W C : Type} (f : W → C → W) (l : List C)
    (hf : ∀ c ∈ l, ∀ w, f w c = w) (w : W) : l.foldl f w = w := by
  induction l with
  | nil => rfl
  | cons c u ih =>
    rw [List.foldl_cons, hf c (List.mem_cons_self _ _),
      ih (fun c hc => hf c (List.mem_cons_of_mem _ hc))]

/-! ## C1: the concrete scenario -/

/-- The path lengths of the concrete scenario. -/
theorem scenario_dist (n : Nat) (mx my mz q j k : Int) :
    pathDist (scenario n) (srcPos (scenario n) 0) (micPos (scenario n) 0)
        (mx, my, mz, q, j, k) =
      Real.sqrt ((16000 / 343) ^ 2 *
        (((1 + 2 * q + 8 * mx) ^ 2 + (1 + 2 * j + 8 * my) ^ 2 + (2 * k + 4 * mz) ^ 2 : Int) : ℝ)) := by
  rw [pathDist_real]
  dsimp only
  rw [(scenario_offset n mx q).1, (scenario_offset n my j).2.1, (scenario_offset n mz k).2.2]
  congr 1
  push_cast
  ring

/-- In the concrete scenario no path arrives before sample 65. -/
theorem scenario_fdist_ge (n : Nat) (mx my mz q j k : Int) :
    65 ≤ pathFdist (scenario n) (srcPos (scenario n) 0) (micPos (scenario n) 0)
      (mx, my, mz, q, j, k) := by
  rw [pathFdist_real, scenario_dist, Int.le_floor]
  have hX : 1 ≤ (1 + 2 * q + 8 * mx) ^ 2 := by
    have : 1 + 2 * q + 8 * mx ≤ -1 ∨ 1 ≤ 1 + 2 * q + 8 * mx := by omega
    rcases this with h | h <;> nlinarith
  have hY : 1 ≤ (1 + 2 * j + 8 * my) ^ 2 := by
    have : 1 + 2 * j + 8 * my ≤ -1 ∨ 1 ≤ 1 + 2 * j + 8 * my := by omega
    rcases this with h | h <;> nlinarith
  have hZ : 0 ≤ (2 * k + 4 * mz) ^ 2 := sq_nonneg _
  have hN : (2 : ℝ) ≤
      (((1 + 2 * q + 8 * mx) ^ 2 + (1 + 2 * j + 8 * my) ^ 2 + (2 * k + 4 * mz) ^ 2 : Int) : ℝ) := by
    exact_mod_cast (by omega :
      (2 : Int) ≤ (1 + 2 * q + 8 * mx) ^ 2 + (1 + 2 * j + 8 * my) ^ 2 + (2 * k + 4 * mz) ^ 2)
  rw [Real.le_sqrt (by norm_num) (by positivity)]
  push_cast at hN ⊢
  nlinarith

/-- In the concrete scenario every path but the direct one arrives at sample
66 or later. -/
theorem scenario_fdist_other (n : Nat) (mx my mz q j k : Int) (hq : 0 ≤ q ∧ q ≤ 1)
    (hj : 0 ≤ j ∧ j ≤ 1) (hk : 0 ≤ k ∧ k ≤ 1)
    (hne : (mx, my, mz, q, j, k) ≠ (0, 0, 0, 0, 0, 0)) :
    66 ≤ pathFdist (scenario n) (srcPos (scenario n) 0) (micPos (scenario n) 0)
      (mx, my, mz, q, j, k) := by
  rw [pathFdist_real, scenario_dist, Int.le_floor]
  have hX : 1 ≤ (1 + 2 * q + 8 * mx) ^ 2 := by
    have : 1 + 2 * q + 8 * mx ≤ -1 ∨ 1 ≤ 1 + 2 * q + 8 * mx := by omega
    rcases this with h | h <;> nlinarith
  have hY : 1 ≤ (1 + 2 * j + 8 * my) ^ 2 := by
    have : 1 + 2 * j + 8 * my ≤ -1 ∨ 1 ≤ 1 + 2 * j + 8 * my := by omega
    rcases this with h | h <;> nlinarith
  have hZ : 0 ≤ (2 * k + 4 * mz) ^ 2 := sq_nonneg _
  have hX9 : ¬ (q = 0 ∧ mx = 0) → 9 ≤ (1 + 2 * q + 8 * mx) ^ 2 := by
    intro h
    have : 1 + 2 * q + 8 * mx ≤ -3 ∨ 3 ≤ 1 + 2 * q + 8 * mx := by omega
    rcases this with h | h <;> nlinarith
  have hY9 : ¬ (j = 0 ∧ my = 0) → 9 ≤ (1 + 2 * j + 8 * my) ^ 2 := by
    intro h
    have : 1 + 2 * j + 8 * my ≤ -3 ∨ 3 ≤ 1 + 2 * j + 8 * my := by omega
    rcases this with h | h <;> nlinarith
  have hZ4 : ¬ (k = 0 ∧ mz = 0) → 4 ≤ (2 * k + 4 * mz) ^ 2 := by
    intro h
    have : 2 * k + 4 * mz ≤ -2 ∨ 2 ≤ 2 * k + 4 * mz := by omega
    rcases this with h | h <;> nlinarith
  have hN6 : (6 : Int) ≤
      (1 + 2 * q + 8 * mx) ^ 2 + (1 + 2 * j + 8 * my) ^ 2 + (2 * k + 4 * mz) ^ 2 := by
    by_cases h1 : q = 0 ∧ mx = 0
    · by_cases h2 : j = 0 ∧ my = 0
      · by_cases h3 : k = 0 ∧ mz = 0
        · exfalso
          apply hne
          rw [h1.1, h1.2, h2.1, h2.2, h3.1, h3.2]
        · have := hZ4 h3
          omega
      · have := hY9 h2
        omega
    · have := hX9 h1
      omega
  have hN : (6 : ℝ) ≤
      (((1 + 2 * q + 8 * mx) ^ 2 + (1 + 2 * j + 8 * my) ^ 2 + (2 * k + 4 * mz) ^ 2 : Int) : ℝ) := by
    exact_mod_cast hN6
  rw [Real.le_sqrt (by norm_num) (by positivity)]
  push_cast at hN ⊢
  nlinarith

/-- In the concrete scenario the direct path arrives at sample 65. -/
theorem scenario_fdist_direct (n : Nat) :
    pathFdist (scenario n) (srcPos (scenario n) 0) (micPos (scenario n) 0)
      (0, 0, 0, 0, 0, 0) = 65 := by
  rw [pathFdist_real, scenario_dist, Int.floor_eq_iff]
  constructor
  · rw [Real.le_sqrt (by norm_num) (by positivity)]
    norm_num
  · rw [Real.sqrt_lt' (by norm_num)]
    norm_num

/-- In the concrete scenario the strength of the direct path is
`1 / (4 π √2)`. -/
theorem scenario_strength_direct (n : Nat) :
    pathStrength (scenario n) (srcPos (scenario n) 0) (micPos (scenario n) 0)
      (0, 0, 0, 0, 0, 0) = 1 / (4 * Real.pi * Real.sqrt 2) := by
  have hd := scenario_dist n 0 0 0 0 0 0
  have hsq : Real.sqrt ((16000 / 343) ^ 2 * (((1 + 2 * 0 + 8 * 0) ^ 2 + (1 + 2 * 0 + 8 * 0) ^ 2 +
      (2 * 0 + 4 * 0) ^ 2 : Int) : ℝ)) = 16000 / 343 * Real.sqrt 2 := by
    rw [Real.sqrt_mul (by positivity), Real.sqrt_sq (by norm_num)]
    norm_num
  rw [hsq] at hd
  unfold pathStrength
  rw [hd]
  simp only [reflCoef_real, sim_microphone, polarPattern, ofInt_real, pi_real, cos_real]
  have h2 : Real.sqrt 2 ≠ 0 := by positivity
  simp [scenario, threadArgs]
  field_simp
  ring

/-- The thread of the concrete scenario does the work for the only pair,
without the high-pass filter. -/
theorem scenario_impComp (n : Nat) (imp : Nat → ℝ) :
    impComp (scenario n) imp = imageSum (scenario n) 0 0 imp := by
  rw [impComp_eq_foldl]
  have hp : workerPairs (scenario n).tNum (scenario n).tTot (scenario n).nr_of_louds
      (scenario n).nr_of_mics = [(0, 0)] := by
    show workerPairs 0 1 1 1 = [(0, 0)]
    decide
  rw [hp]
  simp [pairComp, scenario, threadArgs]

/-- The effect of a step of the concrete scenario on a cell. -/
theorem scenario_cellStep (n : Nat) (hn : n < 2 ^ 32) (i : Nat) (w : ℝ)
    (c : Int × Int × Int × Int × Int × Int) :
    cellStep (scenario n) 0 0 (srcPos (scenario n) 0) (micPos (scenario n) 0) i w c =
      if orderTest 2 c = true ∧
          pathFdist (scenario n) (srcPos (scenario n) 0) (micPos (scenario n) 0) c < n ∧
          (pathFdist (scenario n) (srcPos (scenario n) 0) (micPos (scenario n) 0) c).toNat = i
      then w + pathStrength (scenario n) (srcPos (scenario n) 0) (micPos (scenario n) 0) c
      else w := by
  obtain ⟨mx, my, mz, q, j, k⟩ := c
  have hge := scenario_fdist_ge n mx my mz q j k
  have hlp : (scenario n).lp_filter = 0 := rfl
  have hord : (scenario n).order = 2 := rfl
  have hns : (scenario n).nsamples = n := rfl
  have hM : (scenario n).nr_of_mics = 1 := rfl
  unfold cellStep
  rw [hlp, hord, hns, hM]
  by_cases h1 : orderTest 2 (mx, my, mz, q, j, k) = true
  · by_cases h2 : pathFdist (scenario n) (srcPos (scenario n) 0) (micPos (scenario n) 0)
        (mx, my, mz, q, j, k) < n
    · have hidx := abs_counter_eq (pathFdist (scenario n) (srcPos (scenario n) 0)
        (micPos (scenario n) 0) (mx, my, mz, q, j, k)) 0 n 1 1 0 0 (by omega) (by omega) (by omega) (by omega)
        (by omega)
      simp only [h1, h2, hidx]
      simp
    · simp [h1, h2]
  · simp [h1]

/-- The direct path is among the tuples the loops of the concrete scenario
visit. -/
theorem scenario_direct_mem (n : Nat) : (0, 0, 0, 0, 0, 0) ∈ lattice (scenario n) := by
  have hb : ∀ axis, 0 ≤ latticeBound (scenario n) axis := by
    intro axis
    rw [latticeBound_real]
    have h1 : (scenario n).dim_s axis = 1 := rfl
    have hL : 0 < (scenario n).L axis := by
      show 0 < (if axis = 2 then (2 : ℝ) else 4) / (343 / 16000)
      split <;> norm_num
    rw [h1, mul_one]
    exact Int.ceil_nonneg (by positivity)
  rw [mem_lattice]
  have h0 := hb 0
  have h1 := hb 1
  have h2 := hb 2
  have d0 : (scenario n).dim_s 0 = 1 := rfl
  have d1 : (scenario n).dim_s 1 = 1 := rfl
  have d2 : (scenario n).dim_s 2 = 1 := rfl
  rw [d0, d1, d2]
  omega

/-- The response of the concrete scenario up to sample 65: zero before sample
65 and `1 / (4 π √2)` at sample 65. -/
theorem scenario_response (n : Nat) (h65 : 65 < n) (hn : n < 2 ^ 32) :
    (∀ i, i < 65 → impComp (scenario n) (fun _ => 0) i = 0) ∧
      impComp (scenario n) (fun _ => 0) 65 = 1 / (4 * Real.pi * Real.sqrt 2) := by
  constructor
  · intro i hi
    rw [scenario_impComp, imageSum_cell]
    apply foldl_skip
    rintro ⟨mx, my, mz, q, j, k⟩ _ w
    rw [scenario_cellStep n hn, if_neg]
    rintro ⟨_, _, h⟩
    have := scenario_fdist_ge n mx my mz q j k
    omega
  · rw [scenario_impComp, imageSum_cell,
      foldl_single _ _ (0, 0, 0, 0, 0, 0) (nodup_lattice _) (scenario_direct_mem n)]
    · rw [scenario_cellStep n hn, scenario_fdist_direct, scenario_strength_direct, if_pos]
      · simp
      · exact ⟨by decide, by omega, by decide⟩
    · rintro ⟨mx, my, mz, q, j, k⟩ hc hne w
      rw [mem_lattice] at hc
      have d0 : (scenario n).dim_s 0 = 1 := rfl
      have d1 : (scenario n).dim_s 1 = 1 := rfl
      have d2 : (scenario n).dim_s 2 = 1 := rfl
      rw [d0, d1, d2] at hc
      have := scenario_fdist_other n mx my mz q j k (by omega) (by omega) (by omega) hne
      rw [scenario_cellStep n hn, if_neg]
      rintro ⟨_, _, h⟩
      omega

/-- The distance of the concrete scenario in samples, `16000 * √2 / 343`. -/
theorem scenario_distance :
    (16000 : ℝ) * Real.sqrt ((2 - 1) ^ 2 + (2 - 1) ^ 2 + (1 - 1) ^ 2) / 343 =
      Real.sqrt ((16000 / 343) ^ 2 * 2) := by
  rw [Real.sqrt_mul (by positivity), Real.sqrt_sq (by norm_num)]
  norm_num
  ring

/-- C1 as stated fails on the code: in the concrete scenario with the default
2048 samples, `round(fs * distance / c)` is `66`, and sample `66` is not the
first non-zero sample of the response, because sample `65` is not zero. -/
theorem scenario_first_arrival_not_round :
    ROUND ((16000 : ℝ) * Real.sqrt ((2 - 1) ^ 2 + (2 - 1) ^ 2 + (1 - 1) ^ 2) / 343) = 66 ∧
      ¬ FirstNonzeroAt (impComp (scenario 2048) (fun _ => 0))
        (ROUND ((16000 : ℝ) * Real.sqrt ((2 - 1) ^ 2 + (2 - 1) ^ 2 + (1 - 1) ^ 2) / 343)).toNat := by
  have hR : ROUND ((16000 : ℝ) * Real.sqrt ((2 - 1) ^ 2 + (2 - 1) ^ 2 + (1 - 1) ^ 2) / 343) = 66 := by
    rw [scenario_distance]
    unfold ROUND
    have hle : Flt.le (Flt.ofInt 0) (Real.sqrt ((16000 / 343) ^ 2 * 2)) = true := by
      rw [le_real, ofInt_real, decide_eq_true_eq, Int.cast_zero]
      exact Real.sqrt_nonneg _
    rw [hle, if_pos rfl, toInt_real, if_pos (by positivity), Int.floor_eq_iff]
    constructor
    · have : (65.5 : ℝ) ≤ Real.sqrt ((16000 / 343) ^ 2 * 2) := by
        rw [Real.le_sqrt (by norm_num) (by positivity)]
        norm_num
      norm_num at this ⊢
      linarith
    · have : Real.sqrt ((16000 / 343) ^ 2 * 2) < 66.5 := by
        rw [Real.sqrt_lt' (by norm_num)]
        norm_num
      norm_num at this ⊢
      linarith
  refine ⟨hR, ?_⟩
  rw [hR]
  rintro ⟨_, h⟩
  have h65 := (scenario_response 2048 (by norm_num) (by norm_num)).2
  have hz := h 65 (by decide)
  rw [h65, ofInt_real] at hz
  have hpos : 0 < 1 / (4 * Real.pi * Real.sqrt 2) := by positivity
  simp only [Int.cast_zero] at hz
  linarith

/-- C1, amended.  In the concrete scenario with any number of samples above
65 (and below `2 ^ 32`, the range of `unsigned int`), the first non-zero sample
of the response has index `65 = floor(fs * distance / c)` and the value
`1 / (4 π distance)`, where `distance = √2` is the distance from the source to
the receiver. -/
theorem scenario_first_arrival (n : Nat) (h65 : 65 < n) (hn : n < 2 ^ 32) :
    FirstNonzeroAt (impComp (scenario n) (fun _ => 0)) 65 ∧
      ⌊(16000 : ℝ) * Real.sqrt ((2 - 1) ^ 2 + (2 - 1) ^ 2 + (1 - 1) ^ 2) / 343⌋ = 65 ∧
      impComp (scenario n) (fun _ => 0) 65 =
        1 / (4 * Real.pi * Real.sqrt ((2 - 1) ^ 2 + (2 - 1) ^ 2 + (1 - 1) ^ 2)) := by
  have hresp := scenario_response n h65 hn
  have hpos : 0 < 1 / (4 * Real.pi * Real.sqrt 2) := by positivity
  have h2 : ((2 : ℝ) - 1) ^ 2 + (2 - 1) ^ 2 + (1 - 1) ^ 2 = 2 := by norm_num
  refine ⟨⟨?_, ?_⟩, ?_, ?_⟩
  · rw [hresp.2, ofInt_real]
    simp only [Int.cast_zero]
    exact ne_of_gt hpos
  · intro i hi
    rw [hresp.1 i hi, ofInt_real]
    simp
  · rw [scenario_distance, Int.floor_eq_iff]
    constructor
    · rw [Real.le_sqrt (by norm_num) (by positivity)]
      norm_num
    · rw [Real.sqrt_lt' (by norm_num)]
      norm_num
  · rw [hresp.2, h2]

/-- Witness of C1, amended: the default length of 2048 samples. -/
theorem scenario_first_arrival_witness :
    FirstNonzeroAt (impComp (scenario 2048) (fun _ => 0)) 65 :=
  (scenario_first_arrival 2048 (by norm_num) (by norm_num)).1

/-! ## C9: the strength of a path -/

/-- C9 as stated fails on the code: for the direct path of the concrete
scenario the strength handed to the injection is not the directivity times the
attenuations divided by `4 π dist` with `dist` the path length in samples. -/
theorem path_strength_not_per_sample :
    pathStrength (scenario 2048) (srcPos (scenario 2048) 0) (micPos (scenario 2048) 0)
        (0, 0, 0, 0, 0, 0) ≠
      sim_microphone
          (imageOffset (scenario 2048) (srcPos (scenario 2048) 0) (micPos (scenario 2048) 0) 0 0 0)
          (imageOffset (scenario 2048) (srcPos (scenario 2048) 0) (micPos (scenario 2048) 0) 1 0 0)
          (scenario 2048).angle (scenario 2048).mtype *
        (reflCoef (scenario 2048) 0 0 0 * reflCoef (scenario 2048) 1 0 0 *
          reflCoef (scenario 2048) 2 0 0) /
        (4 * Real.pi * pathDist (scenario 2048) (srcPos (scenario 2048) 0)
          (micPos (scenario 2048) 0) (0, 0, 0, 0, 0, 0)) := by
  have hd := scenario_dist 2048 0 0 0 0 0 0
  have hsq : Real.sqrt ((16000 / 343) ^ 2 * (((1 + 2 * 0 + 8 * 0) ^ 2 + (1 + 2 * 0 + 8 * 0) ^ 2 +
      (2 * 0 + 4 * 0) ^ 2 : Int) : ℝ)) = 16000 / 343 * Real.sqrt 2 := by
    rw [Real.sqrt_mul (by positivity), Real.sqrt_sq (by norm_num)]
    norm_num
  rw [hsq] at hd
  rw [scenario_strength_direct, hd]
  simp only [reflCoef_real, sim_microphone, polarPattern, ofInt_real]
  have h2 : 0 < Real.sqrt 2 := by positivity
  have hpi := Real.pi_pos
  simp [scenario, threadArgs]
  field_simp
  exact ⟨by norm_num, ne_of_gt hpi⟩

/-- C9, amended.  Over the reals, for every index tuple that passes the order
test and the arrival test, the kernel hands to the injection the strength
`directivity(X, Y, angle, pattern) * (product of the three axis attenuations)
/ (4 π dist cTs)`, where `X, Y, Z` are the image offsets, `dist = √(X² + Y² +
Z²)` is the path length in samples, `dist * cTs` is the path length in metres
and the attenuation of an axis is `beta[2 axis]^|m| * beta[2 axis + 1]^|m + p|`. -/
theorem path_strength (a : arg_s ℝ) (loud_nr mic_nr : Nat) (s r imp : Nat → ℝ)
    (mx my mz q j k : Int) (hord : orderTest a.order (mx, my, mz, q, j, k) = true)
    (hfd : pathFdist a s r (mx, my, mz, q, j, k) < a.nsamples) :
    imageStep a loud_nr mic_nr s r imp (mx, my, mz, q, j, k) =
        (if a.lp_filter = 1 then
          injectLowPass a loud_nr mic_nr (pathStrength a s r (mx, my, mz, q, j, k))
            (pathDist a s r (mx, my, mz, q, j, k)) (pathFdist a s r (mx, my, mz, q, j, k)) imp
        else
          injectNearest a loud_nr mic_nr (pathStrength a s r (mx, my, mz, q, j, k))
            (pathFdist a s r (mx, my, mz, q, j, k)) imp) ∧
      pathDist a s r (mx, my, mz, q, j, k) =
        Real.sqrt ((s 0 - r 0 + 2 * q * r 0 + 2 * mx * a.L 0) ^ 2 +
          (s 1 - r 1 + 2 * j * r 1 + 2 * my * a.L 1) ^ 2 +
          (s 2 - r 2 + 2 * k * r 2 + 2 * mz * a.L 2) ^ 2) ∧
      pathStrength a s r (mx, my, mz, q, j, k) =
        sim_microphone (s 0 - r 0 + 2 * q * r 0 + 2 * mx * a.L 0)
            (s 1 - r 1 + 2 * j * r 1 + 2 * my * a.L 1) a.angle a.mtype *
          ((a.beta 0 ^ mx.natAbs * a.beta 1 ^ (mx + q).natAbs) *
            (a.beta 2 ^ my.natAbs * a.beta 3 ^ (my + j).natAbs) *
            (a.beta 4 ^ mz.natAbs * a.beta 5 ^ (mz + k).natAbs)) /
          (4 * Real.pi * (pathDist a s r (mx, my, mz, q, j, k) * a.cTs)) := by
  refine ⟨?_, ?_, ?_⟩
  · unfold imageStep
    rw [if_pos hord, if_pos hfd]
  · rw [pathDist_real]
    simp only [imageOffset_real]
  · unfold pathStrength
    simp only [reflCoef_real, imageOffset_real, ofInt_real, pi_real]
    push_cast
    ring

/-- Witness of C9, amended: the direct path of the concrete scenario. -/
theorem path_strength_witness :
    imageStep (scenario 2048) 0 0 (srcPos (scenario 2048) 0) (micPos (scenario 2048) 0)
        (fun _ => 0) (0, 0, 0, 0, 0, 0) =
      injectNearest (scenario 2048) 0 0
        (pathStrength (scenario 2048) (srcPos (scenario 2048) 0) (micPos (scenario 2048) 0)
          (0, 0, 0, 0, 0, 0))
        (pathFdist (scenario 2048) (srcPos (scenario 2048) 0) (micPos (scenario 2048) 0)
          (0, 0, 0, 0, 0, 0)) (fun _ => 0) :=
  (path_strength (scenario 2048) 0 0 (srcPos (scenario 2048) 0) (micPos (scenario 2048) 0)
    (fun _ => 0) 0 0 0 0 0 0 (by show orderTest 2 _ = true; decide)
    (by rw [scenario_fdist_direct]; show (65 : Int) < ((2048 : Nat) : Int); norm_num)).1.trans
    (if_neg (by show ¬ (0 : Int) = 1; decide))

/-! ## Path lengths inside the room -/

/-- Inside the room the image offset of an axis is at least as large as the
direct offset: `|s - r + 2 p r + 2 m L| ≥ |s - r|` for every integer `m` and
parity `p`. -/
theorem imageOffset_abs_ge (s r L : ℝ) (m p : Int) (hp : p = 0 ∨ p = 1) (hs : 0 ≤ s ∧ s ≤ L)
    (hr : 0 ≤ r ∧ r ≤ L) : |s - r| ≤ |s - r + 2 * (p : ℝ) * r + 2 * (m : ℝ) * L| := by
  have hL : 0 ≤ L := le_trans hs.1 hs.2
  have hsr : |s - r| ≤ L := by
    rw [abs_le]
    constructor <;> linarith [hs.1, hs.2, hr.1, hr.2]
  have habs := abs_le.mp hsr
  rcases lt_trichotomy m 0 with hm | hm | hm
  · have hm1 : (m : ℝ) ≤ -1 := by exact_mod_cast (by omega : m ≤ -1)
    have hmL : (m : ℝ) * L ≤ -L := by nlinarith
    rw [le_abs]
    right
    rcases hp with rfl | rfl
    · push_cast
      rw [abs_le]
      constructor <;> nlinarith
    · push_cast
      rw [abs_le]
      constructor <;> nlinarith [hs.1, hs.2, hr.1, hr.2]
  · subst hm
    rcases hp with rfl | rfl
    · simp
    · push_cast
      rw [le_abs]
      left
      rw [abs_le]
      constructor <;> nlinarith [hs.1, hs.2, hr.1, hr.2]
  · have hm1 : (1 : ℝ) ≤ m := by exact_mod_cast (by omega : 1 ≤ m)
    have hmL : L ≤ (m : ℝ) * L := by nlinarith
    rw [le_abs]
    left
    rcases hp with rfl | rfl
    · push_cast
      rw [abs_le]
      constructor <;> nlinarith
    · push_cast
      rw [abs_le]
      constructor <;> nlinarith [hs.1, hs.2, hr.1, hr.2]

/-- Inside the room no image path is shorter than the direct path. -/
theorem pathDist_ge_direct (a : arg_s ℝ) (s r : Nat → ℝ) (mx my mz q j k : Int)
    (hq : q = 0 ∨ q = 1) (hj : j = 0 ∨ j = 1) (hk : k = 0 ∨ k = 1)
    (hs : ∀ axis, axis < 3 → 0 ≤ s axis ∧ s axis ≤ a.L axis)
    (hr : ∀ axis, axis < 3 → 0 ≤ r axis ∧ r axis ≤ a.L axis) :
    pathDist a s r (0, 0, 0, 0, 0, 0) ≤ pathDist a s r (mx, my, mz, q, j, k) := by
  rw [pathDist_real, pathDist_real]
  apply Real.sqrt_le_sqrt
  simp only [imageOffset_real]
  have h0 := sq_le_sq.mpr (imageOffset_abs_ge (s 0) (r 0) (a.L 0) mx q hq (hs 0 (by omega))
    (hr 0 (by omega)))
  have h1 := sq_le_sq.mpr (imageOffset_abs_ge (s 1) (r 1) (a.L 1) my j hj (hs 1 (by omega))
    (hr 1 (by omega)))
  have h2 := sq_le_sq.mpr (imageOffset_abs_ge (s 2) (r 2) (a.L 2) mz k hk (hs 2 (by omega))
    (hr 2 (by omega)))
  push_cast
  simp only [mul_zero, zero_mul, add_zero]
  linarith

/-- The direct path length in samples is the distance in metres divided by
`cTs = c / fs`. -/
theorem pathDist_direct (a : arg_s ℝ) (loud_nr mic_nr : Nat) (hcTs : 0 < a.cTs) :
    pathDist a (srcPos a loud_nr) (micPos a mic_nr) (0, 0, 0, 0, 0, 0) =
      Real.sqrt ((a.ss (loud_nr + 0 * a.nr_of_louds) - a.rr (mic_nr + 0 * a.nr_of_mics)) ^ 2 +
        (a.ss (loud_nr + 1 * a.nr_of_louds) - a.rr (mic_nr + 1 * a.nr_of_mics)) ^ 2 +
        (a.ss (loud_nr + 2 * a.nr_of_louds) - a.rr (mic_nr + 2 * a.nr_of_mics)) ^ 2) / a.cTs := by
  rw [pathDist_real]
  simp only [imageOffset_real, srcPos, micPos, samplePos]
  push_cast
  simp only [mul_zero, zero_mul, add_zero]
  rw [← Real.sqrt_sq hcTs.le, ← Real.sqrt_div (by positivity)]
  congr 1
  field_simp

/-! ## C6: reflection order 0 -/

/-- With order 0 and parities in `{0, 1}` only the direct path passes the
order test. -/
theorem orderTest_zero (mx my mz q j k : Int) (hq : 0 ≤ q ∧ q ≤ 1) (hj : 0 ≤ j ∧ j ≤ 1)
    (hk : 0 ≤ k ∧ k ≤ 1) :
    orderTest 0 (mx, my, mz, q, j, k) = true ↔
      (mx, my, mz, q, j, k) = (0, 0, 0, 0, 0, 0) := by
  simp only [orderTest, pathOrder, Bool.or_eq_true, decide_eq_true_eq, Prod.mk.injEq]
  have a1 := abs_nonneg (2 * mx + q)
  have a2 := abs_nonneg (2 * my + j)
  have a3 := abs_nonneg (2 * mz + k)
  constructor
  · rintro (h | h)
    · have e1 : 2 * mx + q = 0 := abs_eq_zero.mp (by omega)
      have e2 : 2 * my + j = 0 := abs_eq_zero.mp (by omega)
      have e3 : 2 * mz + k = 0 := abs_eq_zero.mp (by omega)
      omega
    · omega
  · rintro ⟨rfl, rfl, rfl, rfl, rfl, rfl⟩
    left
    simp

/-- The parities the loops visit are `0` and `1` when the dimension mask
consists of zeros and ones. -/
theorem lattice_parity (a : arg_s R)
    (hdim : ∀ axis, axis < 3 → a.dim_s axis = 0 ∨ a.dim_s axis = 1) (mx my mz q j k : Int)
    (hc : (mx, my, mz, q, j, k) ∈ lattice a) :
    (0 ≤ q ∧ q ≤ 1) ∧ (0 ≤ j ∧ j ≤ 1) ∧ (0 ≤ k ∧ k ≤ 1) := by
  rw [mem_lattice] at hc
  have d0 := hdim 0 (by omega)
  have d1 := hdim 1 (by omega)
  have d2 := hdim 2 (by omega)
  omega

/-- The direct path is among the tuples the loops visit when the lattice
bounds are not negative. -/
theorem direct_mem_lattice (a : arg_s R) (hb : ∀ axis, axis < 3 → 0 ≤ latticeBound a axis)
    (hdim : ∀ axis, axis < 3 → a.dim_s axis = 0 ∨ a.dim_s axis = 1) :
    (0, 0, 0, 0, 0, 0) ∈ lattice a := by
  rw [mem_lattice]
  have b0 := hb 0 (by omega)
  have b1 := hb 1 (by omega)
  have b2 := hb 2 (by omega)
  have d0 := hdim 0 (by omega)
  have d1 := hdim 1 (by omega)
  have d2 := hdim 2 (by omega)
  omega

/-- Over the reals the lattice bound of an axis of positive length is not
negative. -/
theorem latticeBound_nonneg (a : arg_s ℝ) (axis : Nat) (hL : 0 < a.L axis)
    (hdim : a.dim_s axis = 0 ∨ a.dim_s axis = 1) : 0 ≤ latticeBound a axis := by
  rw [latticeBound_real]
  have : 0 ≤ ⌈(a.nsamples : ℝ) / (2 * a.L axis)⌉ := Int.ceil_nonneg (by positivity)
  rcases hdim with h | h <;> rw [h] <;> omega

/-- A list without repetition in which `d` is the only member satisfying `p`
is filtered by `p` to `[d]`. -/
theorem filter_eq_singleton {C : Type} (p : C → Bool) (l : List C) (d : C) (hnd : l.Nodup)
    (hd : d ∈ l) (hp : ∀ c ∈ l, p c = true ↔ c = d) : l.filter p = [d] := by
  obtain ⟨s, t, rfl⟩ := List.append_of_mem hd
  rw [List.nodup_append] at hnd
  obtain ⟨_, hnd2, hdis⟩ := hnd
  rw [List.nodup_cons] at hnd2
  have hs : s.filter p = [] := by
    rw [List.filter_eq_nil_iff]
    intro c hc hpc
    have := (hp c (List.mem_append_left _ hc)).mp hpc
    subst this
    exact hdis hc (List.mem_cons_self _ _)
  have ht : t.filter p = [] := by
    rw [List.filter_eq_nil_iff]
    intro c hc hpc
    have := (hp c (List.mem_append_right _ (List.mem_cons_of_mem _ hc))).mp hpc
    subst this
    exact hnd2.1 hc
  have hpd : p d = true := (hp d hd).mpr rfl
  rw [List.filter_append, hs, List.filter_cons_of_pos hpd, ht]
  rfl

/-- With order 0 exactly one of the visited tuples passes the order test, the
direct path. -/
theorem lattice_filter_order_zero (a : arg_s R)
    (hb : ∀ axis, axis < 3 → 0 ≤ latticeBound a axis)
    (hdim : ∀ axis, axis < 3 → a.dim_s axis = 0 ∨ a.dim_s axis = 1) :
    (lattice a).filter (orderTest 0) = [(0, 0, 0, 0, 0, 0)] := by
  apply filter_eq_singleton _ _ _ (nodup_lattice a) (direct_mem_lattice a hb hdim)
  rintro ⟨mx, my, mz, q, j, k⟩ hc
  obtain ⟨hq, hj, hk⟩ := lattice_parity a hdim mx my mz q j k hc
  exact orderTest_zero mx my mz q j k hq hj hk

/-- With order 0 the six loops do to a cell what the step of the direct path
does. -/
theorem imageSum_order_zero (a : arg_s R) (hord : a.order = 0)
    (hb : ∀ axis, axis < 3 → 0 ≤ latticeBound a axis)
    (hdim : ∀ axis, axis < 3 → a.dim_s axis = 0 ∨ a.dim_s axis = 1)
    (loud_nr mic_nr : Nat) (imp : Nat → R) (i : Nat) :
    imageSum a loud_nr mic_nr imp i =
      cellStep a loud_nr mic_nr (srcPos a loud_nr) (micPos a mic_nr) i (imp i)
        (0, 0, 0, 0, 0, 0) := by
  rw [imageSum_cell]
  apply foldl_single _ _ _ (nodup_lattice a) (direct_mem_lattice a hb hdim)
  rintro ⟨mx, my, mz, q, j, k⟩ hc hne w
  obtain ⟨hq, hj, hk⟩ := lattice_parity a hdim mx my mz q j k hc
  have hnot : ¬ orderTest a.order (mx, my, mz, q, j, k) = true := by
    rw [hord, orderTest_zero mx my mz q j k hq hj hk]
    exact hne
  unfold cellStep
  rw [if_neg hnot]

/-- The function `sinc` over the reals. -/
theorem sinc_real (x : ℝ) : sinc x = if x = 0 then 1 else Real.sin x / x := by
  unfold sinc
  rw [eq_real, ofInt_real, sin_real]
  by_cases h : x = 0
  · simp [h]
    norm_num
  · simp [h]

/-- The interpolation kernel over the reals for `Fc = 1`. -/
theorem LPI_real (a : arg_s ℝ) (hFc : a.Fc = 1) (dist : ℝ) (fdist : Int) (n : Nat) :
    LPI a dist fdist n =
      a.hanning_window n *
        sinc (Real.pi * ((n : ℝ) - (dist - (fdist : ℝ)) - ((Int.tdiv a.Tw 2 : Int) : ℝ))) := by
  unfold LPI
  rw [hFc, pi_real, ofInt_real, ofInt_real, ofInt_real]
  simp

/-- The interpolating injection of an accepted path adds `strength * LPI[n]`
to the cell of sample `fdist - Tw/2 + n`. -/
theorem cellStep_lowPass_hit (a : arg_s ℝ) (N loud_nr mic_nr : Nat)
    (hmic : mic_nr < a.nr_of_mics) (hloud : loud_nr < N)
    (hfit : a.nsamples * a.nr_of_mics * N < 2 ^ 64) (s r : Nat → ℝ) (w : ℝ)
    (c : Int × Int × Int × Int × Int × Int) (hord : orderTest a.order c = true)
    (hf : pathFdist a s r c < a.nsamples) (hlp : a.lp_filter = 1) (n0 : Nat)
    (hn0 : (n0 : Int) ≤ a.Tw) (h0 : 0 ≤ pathFdist a s r c - Int.tdiv a.Tw 2 + (n0 : Int))
    (h1 : pathFdist a s r c - Int.tdiv a.Tw 2 + (n0 : Int) < a.nsamples) :
    cellStep a loud_nr mic_nr s r
        ((pathFdist a s r c - Int.tdiv a.Tw 2 + (n0 : Int)).toNat + a.nsamples * mic_nr +
          a.nsamples * a.nr_of_mics * loud_nr) w c =
      w + pathStrength a s r c * LPI a (pathDist a s r c) (pathFdist a s r c) n0 := by
  unfold cellStep
  rw [if_pos hord, if_pos hf, if_pos hlp,
    foldl_single _ _ n0 (List.nodup_range _) (List.mem_range.mpr (by omega))]
  · rw [if_pos]
    exact ⟨⟨h0, h1⟩, abs_counter_eq _ _ _ _ N _ _ hmic hloud hfit h0 h1⟩
  · intro n _ hne w2
    rw [if_neg]
    rintro ⟨⟨g0, g1⟩, hidx⟩
    rw [abs_counter_eq _ _ _ _ N _ _ hmic hloud hfit g0 g1] at hidx
    omega

/-- The interpolating injection of an accepted path leaves every cell that is
none of the samples `fdist - Tw/2 + n`, `0 ≤ n ≤ Tw`, inside the sequence as
it is. -/
theorem cellStep_lowPass_miss (a : arg_s ℝ) (N loud_nr mic_nr : Nat)
    (hmic : mic_nr < a.nr_of_mics) (hloud : loud_nr < N)
    (hfit : a.nsamples * a.nr_of_mics * N < 2 ^ 64) (s r : Nat → ℝ) (w : ℝ)
    (c : Int × Int × Int × Int × Int × Int) (hlp : a.lp_filter = 1) (i : Nat)
    (hi : ∀ n : Nat, (n : Int) ≤ a.Tw → 0 ≤ pathFdist a s r c - Int.tdiv a.Tw 2 + (n : Int) →
      pathFdist a s r c - Int.tdiv a.Tw 2 + (n : Int) < a.nsamples →
      i ≠ (pathFdist a s r c - Int.tdiv a.Tw 2 + (n : Int)).toNat + a.nsamples * mic_nr +
        a.nsamples * a.nr_of_mics * loud_nr) :
    cellStep a loud_nr mic_nr s r i w c = w := by
  unfold cellStep
  split
  · split
    · apply foldl_skip
      intro n hn w2
      rw [List.mem_range] at hn
      rw [if_neg]
      rintro ⟨⟨g0, g1⟩, hidx⟩
      rw [abs_counter_eq _ _ _ _ N _ _ hmic hloud hfit g0 g1] at hidx
      exact hi n (by omega) g0 g1 hidx.symm
    · rfl
  · rfl

/-! ## The fully absorbing 1 m cube -/

/-- The window length of the cube example is `Tw = 4`. -/
theorem degenerateRoom_Tw (n : Nat) : (degenerateRoom n).Tw = 4 := by
  show windowTw (1 : ℝ) 4 = 4
  have hR : ROUND ((1 : ℝ) * 4) = 4 := by
    unfold ROUND
    rw [le_real, ofInt_real, toInt_real, toInt_real]
    norm_num
  unfold windowTw
  rw [hR]
  decide

/-- The direct path of the cube example is 2.5 samples long. -/
theorem degenerateRoom_dist (n : Nat) :
    pathDist (degenerateRoom n) (srcPos (degenerateRoom n) 0) (micPos (degenerateRoom n) 0)
      (0, 0, 0, 0, 0, 0) = 5 / 2 := by
  rw [pathDist_real]
  simp only [imageOffset_real, srcPos, micPos, samplePos, degenerateRoom, threadArgs]
  rw [Real.sqrt_eq_iff_mul_self_eq (by positivity) (by norm_num)]
  norm_num

/-- The direct path of the cube example arrives at sample 2. -/
theorem degenerateRoom_fdist (n : Nat) :
    pathFdist (degenerateRoom n) (srcPos (degenerateRoom n) 0) (micPos (degenerateRoom n) 0)
      (0, 0, 0, 0, 0, 0) = 2 := by
  rw [pathFdist_real, degenerateRoom_dist, Int.floor_eq_iff]
  norm_num

/-- The strength of the direct path of the cube example is `2 / (5 π)`. -/
theorem degenerateRoom_strength (n : Nat) :
    pathStrength (degenerateRoom n) (srcPos (degenerateRoom n) 0) (micPos (degenerateRoom n) 0)
      (0, 0, 0, 0, 0, 0) = 2 / (5 * Real.pi) := by
  unfold pathStrength
  rw [degenerateRoom_dist]
  simp only [reflCoef_real, sim_microphone, polarPattern, ofInt_real, pi_real]
  have hpi := Real.pi_pos
  simp [degenerateRoom, threadArgs]
  field_simp
  ring

/-- The entry 1 of the interpolation kernel of the direct path of the cube
example is `1 / (3 π)` in absolute value and negative. -/
theorem degenerateRoom_LPI (n : Nat) :
    LPI (degenerateRoom n) (5 / 2) 2 1 = -(1 / (3 * Real.pi)) := by
  have hFc : (degenerateRoom n).Fc = 1 := by
    show ((1 : Int) : ℝ) = 1
    norm_num
  have hw : (degenerateRoom n).hanning_window 1 = 1 / 2 := by
    show (hanningWindow (windowTw (1 : ℝ) 4) 1 : ℝ) = 1 / 2
    have hT : windowTw (1 : ℝ) 4 = 4 := degenerateRoom_Tw n
    have hdiv : Int.tdiv 4 2 = 2 := by decide
    rw [hT]
    simp only [hanningWindow, ofInt_real, cos_real, pi_real, hdiv]
    have hcos : ∀ x : ℝ, x = Real.pi + Real.pi / 2 → Real.cos x = 0 := by
      intro x hx
      rw [hx, Real.cos_add, Real.cos_pi, Real.sin_pi, Real.cos_pi_div_two]
      ring
    rw [hcos _ (by push_cast; ring)]
    norm_num
  have hdiv : Int.tdiv (degenerateRoom n).Tw 2 = 2 := by
    rw [degenerateRoom_Tw]
    decide
  rw [LPI_real _ hFc, hw, hdiv, sinc_real]
  have hpi := Real.pi_pos
  have harg : Real.pi * (((1 : Nat) : ℝ) - (5 / 2 - ((2 : Int) : ℝ)) - ((2 : Int) : ℝ)) =
      -(Real.pi + Real.pi / 2) := by
    push_cast
    ring
  rw [harg, if_neg (by linarith), Real.sin_neg, Real.sin_add, Real.cos_pi, Real.sin_pi,
    Real.sin_pi_div_two]
  have h3 : -(Real.pi + Real.pi / 2) = -(3 * Real.pi / 2) := by ring
  rw [h3]
  have hne : Real.pi ≠ 0 := ne_of_gt hpi
  field_simp

/-- With order 0 the work for the only pair of the cube example is the step of
the direct path. -/
theorem degenerateRoom_pairComp (n : Nat) (imp : Nat → ℝ) (i : Nat) :
    pairComp (degenerateRoom n) 0 0 imp i =
      cellStep (degenerateRoom n) 0 0 (srcPos (degenerateRoom n) 0)
        (micPos (degenerateRoom n) 0) i (imp i) (0, 0, 0, 0, 0, 0) := by
  have hhp : ¬ (degenerateRoom n).hp_filter = 1 := by
    show ¬ (0 : Int) = 1
    decide
  unfold pairComp
  rw [if_neg hhp]
  apply imageSum_order_zero (degenerateRoom n) rfl _ (fun _ _ => Or.inr rfl)
  intro axis _
  apply latticeBound_nonneg _ _ _ (Or.inr rfl)
  show (0 : ℝ) < 1 / (1 / 4)
  norm_num

/-- The thread of the cube example does the work for the only pair. -/
theorem degenerateRoom_impComp (n : Nat) (imp : Nat → ℝ) :
    impComp (degenerateRoom n) imp = pairComp (degenerateRoom n) 0 0 imp := by
  rw [impComp_eq_foldl]
  have hp : workerPairs (degenerateRoom n).tNum (degenerateRoom n).tTot
      (degenerateRoom n).nr_of_louds (degenerateRoom n).nr_of_mics = [(0, 0)] := by
    show workerPairs 0 1 1 1 = [(0, 0)]
    decide
  rw [hp, List.foldl_cons, List.foldl_nil]

/-- The value the interpolation formula gives for sample 1 of the cube
example, `strength * hanning_window[1] * sinc(π (1 - (dist - floor(dist)) -
Tw/2))`, is not zero. -/
theorem degenerateRoom_kernel_ne_zero (n : Nat) :
    pathStrength (degenerateRoom n) (srcPos (degenerateRoom n) 0) (micPos (degenerateRoom n) 0)
        (0, 0, 0, 0, 0, 0) *
      LPI (degenerateRoom n)
        (pathDist (degenerateRoom n) (srcPos (degenerateRoom n) 0) (micPos (degenerateRoom n) 0)
          (0, 0, 0, 0, 0, 0))
        (pathFdist (degenerateRoom n) (srcPos (degenerateRoom n) 0)
          (micPos (degenerateRoom n) 0) (0, 0, 0, 0, 0, 0)) 1 ≠ 0 := by
  rw [degenerateRoom_strength, degenerateRoom_dist, degenerateRoom_fdist, degenerateRoom_LPI]
  have hpi := Real.pi_pos
  have h1 : (2 : ℝ) / (5 * Real.pi) ≠ 0 := by positivity
  have h2 : -(1 / (3 * Real.pi)) ≠ 0 := neg_ne_zero.mpr (by positivity)
  exact mul_ne_zero h1 h2

/-- C6 as stated fails on the code: in the cube example with `nsamples = 2`
the direct path arrives at sample `2 = nsamples`, so the kernel skips it and
sample `1` of the pair's sequence stays zero, while the interpolation formula
`strength * hanning_window[1] * sinc(...)` for sample
`floor(dist) - Tw/2 + 1 = 1`, which lies inside `[0, nsamples)`, is not zero. -/
theorem order_zero_late_arrival :
    (pathFdist (degenerateRoom 2) (srcPos (degenerateRoom 2) 0) (micPos (degenerateRoom 2) 0)
        (0, 0, 0, 0, 0, 0) - Int.tdiv (degenerateRoom 2).Tw 2 + 1 = 1 ∧
      (1 : Int) < (degenerateRoom 2).nsamples) ∧
    pathStrength (degenerateRoom 2) (srcPos (degenerateRoom 2) 0) (micPos (degenerateRoom 2) 0)
        (0, 0, 0, 0, 0, 0) *
      LPI (degenerateRoom 2)
        (pathDist (degenerateRoom 2) (srcPos (degenerateRoom 2) 0) (micPos (degenerateRoom 2) 0)
          (0, 0, 0, 0, 0, 0))
        (pathFdist (degenerateRoom 2) (srcPos (degenerateRoom 2) 0)
          (micPos (degenerateRoom 2) 0) (0, 0, 0, 0, 0, 0)) 1 ≠ 0 ∧
    pairComp (degenerateRoom 2) 0 0 (fun _ => 0) 1 = 0 := by
  refine ⟨⟨?_, ?_⟩, degenerateRoom_kernel_ne_zero 2, ?_⟩
  · rw [degenerateRoom_fdist, degenerateRoom_Tw]
    decide
  · show (1 : Int) < ((2 : Nat) : Int)
    decide
  · rw [degenerateRoom_pairComp]
    unfold cellStep
    rw [degenerateRoom_fdist]
    have hns : ¬ ((2 : Int) < ((degenerateRoom 2).nsamples : Int)) := by
      show ¬ ((2 : Int) < ((2 : Nat) : Int))
      decide
    rw [if_neg hns]
    simp

/-- C6, amended.  Over the reals, with order 0, interpolation on, high-pass
off, `Fc = 1`, positive room dimensions and a dimension mask of zeros and
ones: exactly one visited tuple passes the order test, the direct path, and
its attenuation product is 1.  When the direct path arrives inside the
sequence (`floor(dist) < nsamples`), the pair's sequence computed on a zero
tensor is `strength * hanning_window[n] * sinc(π (n - (dist - floor(dist)) -
Tw/2))` at sample `floor(dist) - Tw/2 + n` for `0 ≤ n ≤ Tw` (samples outside
`[0, nsamples)` dropped) and zero in every other cell; when it does not
(`floor(dist) ≥ nsamples`), the kernel skips the path and every cell stays
zero. -/
theorem order_zero_response (a : arg_s ℝ) (loud_nr mic_nr : Nat) (hord : a.order = 0)
    (hlp : a.lp_filter = 1) (hhp : a.hp_filter ≠ 1) (hFc : a.Fc = 1)
    (hL : ∀ axis, axis < 3 → 0 < a.L axis)
    (hdim : ∀ axis, axis < 3 → a.dim_s axis = 0 ∨ a.dim_s axis = 1)
    (hmic : mic_nr < a.nr_of_mics) (hloud : loud_nr < a.nr_of_louds)
    (hfit : a.nsamples * a.nr_of_mics * a.nr_of_louds < 2 ^ 64) :
    (lattice a).filter (orderTest a.order) = [(0, 0, 0, 0, 0, 0)] ∧
    reflCoef a 0 0 0 * reflCoef a 1 0 0 * reflCoef a 2 0 0 = 1 ∧
    pathFdist a (srcPos a loud_nr) (micPos a mic_nr) (0, 0, 0, 0, 0, 0) =
      ⌊pathDist a (srcPos a loud_nr) (micPos a mic_nr) (0, 0, 0, 0, 0, 0)⌋ ∧
    (pathFdist a (srcPos a loud_nr) (micPos a mic_nr) (0, 0, 0, 0, 0, 0) < a.nsamples →
      (∀ n : Nat, (n : Int) ≤ a.Tw →
        0 ≤ pathFdist a (srcPos a loud_nr) (micPos a mic_nr) (0, 0, 0, 0, 0, 0) -
          Int.tdiv a.Tw 2 + (n : Int) →
        pathFdist a (srcPos a loud_nr) (micPos a mic_nr) (0, 0, 0, 0, 0, 0) -
          Int.tdiv a.Tw 2 + (n : Int) < a.nsamples →
        pairComp a loud_nr mic_nr (fun _ => 0)
            ((pathFdist a (srcPos a loud_nr) (micPos a mic_nr) (0, 0, 0, 0, 0, 0) -
              Int.tdiv a.Tw 2 + (n : Int)).toNat + a.nsamples * mic_nr +
              a.nsamples * a.nr_of_mics * loud_nr) =
          pathStrength a (srcPos a loud_nr) (micPos a mic_nr) (0, 0, 0, 0, 0, 0) *
            a.hanning_window n *
            sinc (Real.pi * ((n : ℝ) -
              (pathDist a (srcPos a loud_nr) (micPos a mic_nr) (0, 0, 0, 0, 0, 0) -
                (⌊pathDist a (srcPos a loud_nr) (micPos a mic_nr) (0, 0, 0, 0, 0, 0)⌋ : ℝ)) -
              ((Int.tdiv a.Tw 2 : Int) : ℝ)))) ∧
      (∀ i : Nat,
        (∀ n : Nat, (n : Int) ≤ a.Tw →
          0 ≤ pathFdist a (srcPos a loud_nr) (micPos a mic_nr) (0, 0, 0, 0, 0, 0) -
            Int.tdiv a.Tw 2 + (n : Int) →
          pathFdist a (srcPos a loud_nr) (micPos a mic_nr) (0, 0, 0, 0, 0, 0) -
            Int.tdiv a.Tw 2 + (n : Int) < a.nsamples →
          i ≠ (pathFdist a (srcPos a loud_nr) (micPos a mic_nr) (0, 0, 0, 0, 0, 0) -
            Int.tdiv a.Tw 2 + (n : Int)).toNat + a.nsamples * mic_nr +
            a.nsamples * a.nr_of_mics * loud_nr) →
        pairComp a loud_nr mic_nr (fun _ => 0) i = 0)) ∧
    ((a.nsamples : Int) ≤ pathFdist a (srcPos a loud_nr) (micPos a mic_nr) (0, 0, 0, 0, 0, 0) →
      ∀ i : Nat, pairComp a loud_nr mic_nr (fun _ => 0) i = 0) := by
  have hb : ∀ axis, axis < 3 → 0 ≤ latticeBound a axis :=
    fun axis h => latticeBound_nonneg a axis (hL axis h) (hdim axis h)
  have hpc : ∀ i, pairComp a loud_nr mic_nr (fun _ => 0) i =
      cellStep a loud_nr mic_nr (srcPos a loud_nr) (micPos a mic_nr) i 0 (0, 0, 0, 0, 0, 0) := by
    intro i
    unfold pairComp
    rw [if_neg hhp]
    exact imageSum_order_zero a hord hb hdim loud_nr mic_nr _ i
  have hacc : orderTest a.order (0, 0, 0, 0, 0, 0) = true := by
    rw [hord]
    decide
  refine ⟨?_, ?_, pathFdist_real _ _ _ _, ?_, ?_⟩
  · rw [hord]
    exact lattice_filter_order_zero a hb hdim
  · simp [reflCoef_real]
  · intro hf
    constructor
    · intro n hn h0 h1
      rw [hpc, cellStep_lowPass_hit a a.nr_of_louds loud_nr mic_nr hmic hloud hfit _ _ 0 _ hacc
        hf hlp n hn h0 h1, LPI_real a hFc, pathFdist_real]
      ring
    · intro i hi
      rw [hpc]
      exact cellStep_lowPass_miss a a.nr_of_louds loud_nr mic_nr hmic hloud hfit _ _ 0 _ hlp i hi
  · intro hlate i
    rw [hpc]
    unfold cellStep
    rw [if_pos hacc, if_neg (by omega)]

/-- Witness of C6, amended: the cube example with 8 samples. -/
theorem order_zero_response_witness :
    (lattice (degenerateRoom 8)).filter (orderTest (degenerateRoom 8).order) =
      [(0, 0, 0, 0, 0, 0)] :=
  (order_zero_response (degenerateRoom 8) 0 0 rfl rfl (by show ¬ (0 : Int) = 1; decide)
    (by show ((1 : Int) : ℝ) = 1; norm_num)
    (fun _ _ => by show (0 : ℝ) < 1 / (1 / 4); norm_num) (fun _ _ => Or.inr rfl)
    Nat.zero_lt_one Nat.zero_lt_one (by show 8 * 1 * 1 < 2 ^ 64; norm_num)).1

/-! ## C2: the interpolation before the direct-path arrival -/

/-- C2 as stated fails on the code: in a 1 m cube with `c = 1`, `fs = 4`, an
interpolation window of `Tw = 4` samples and order 0, the direct path arrives
at sample `2 = floor(2.5)`, and sample `1` of the response is not zero. -/
theorem interpolation_not_causal :
    (1 : Int) < ⌊Real.sqrt ((0.75 - 0.125) ^ 2 + (0.5 - 0.5) ^ 2 + (0.5 - 0.5) ^ 2) /
      (degenerateRoom 8).cTs⌋ ∧
      impComp (degenerateRoom 8) (fun _ => 0) 1 ≠ 0 := by
  constructor
  · have hs : Real.sqrt (((0.75 : ℝ) - 0.125) ^ 2 + (0.5 - 0.5) ^ 2 + (0.5 - 0.5) ^ 2) = 0.625 := by
      rw [Real.sqrt_eq_iff_mul_self_eq (by positivity) (by norm_num)]
      norm_num
    have hc : (degenerateRoom 8).cTs = 1 / 4 := rfl
    rw [hs, hc, Int.lt_iff_add_one_le, Int.le_floor]
    norm_num
  · rw [degenerateRoom_impComp, degenerateRoom_pairComp]
    have hhit := cellStep_lowPass_hit (degenerateRoom 8) 1 0 0 Nat.zero_lt_one Nat.zero_lt_one
      (by show 8 * 1 * 1 < 2 ^ 64; norm_num) (srcPos (degenerateRoom 8) 0)
      (micPos (degenerateRoom 8) 0) 0 (0, 0, 0, 0, 0, 0) (by show orderTest 0 _ = true; decide)
      (by rw [degenerateRoom_fdist]; show (2 : Int) < ((8 : Nat) : Int); decide) rfl 1
      (by rw [degenerateRoom_Tw]; decide)
      (by rw [degenerateRoom_fdist, degenerateRoom_Tw]; decide)
      (by rw [degenerateRoom_fdist, degenerateRoom_Tw]; show (_ : Int) < ((8 : Nat) : Int); decide)
    have hidx : (pathFdist (degenerateRoom 8) (srcPos (degenerateRoom 8) 0)
        (micPos (degenerateRoom 8) 0) (0, 0, 0, 0, 0, 0) -
        Int.tdiv (degenerateRoom 8).Tw 2 + ((1 : Nat) : Int)).toNat +
        (degenerateRoom 8).nsamples * 0 + (degenerateRoom 8).nsamples *
        (degenerateRoom 8).nr_of_mics * 0 = 1 := by
      rw [degenerateRoom_fdist, degenerateRoom_Tw]
      decide
    rw [hidx] at hhit
    rw [hhit, zero_add]
    exact degenerateRoom_kernel_ne_zero 8

/-- The source and the receiver of the concrete scenario are inside the room. -/
theorem scenario_inside (n : Nat) (axis : Nat) :
    (0 ≤ srcPos (scenario n) 0 axis ∧ srcPos (scenario n) 0 axis ≤ (scenario n).L axis) ∧
      (0 ≤ micPos (scenario n) 0 axis ∧ micPos (scenario n) 0 axis ≤ (scenario n).L axis) := by
  simp only [srcPos, micPos, samplePos, scenario, threadArgs]
  by_cases h : axis = 2
  · subst h
    norm_num
  · have h2 : ¬ (0 + axis * 1 = 2) := by omega
    simp only [h, h2, if_false]
    norm_num

/-! ## C3 and C4: the work partition and the write footprint -/

/-- C3 (worker-count independence).  In every carrier with non-negative
arrival samples, for a tensor of fewer than `2 ^ 64` cells, every thread count
`T ≥ 1` and every order `ts` of the threads `0, ..., T - 1`: running the
threads one after the other on any tensor `imp` (the zero tensor in
particular) gives the tensor a single thread with `tNum = 0`, `tTot = 1`
gives; every receiver below `nr_of_mics` belongs to exactly one thread, every
pair `(loud_nr, mic_nr)` is worked on, and no pair is worked on twice. -/
theorem worker_count_independent (hR : FdistNonneg R) (a : arg_s R)
    (hfit : a.nsamples * a.nr_of_mics * a.nr_of_louds < 2 ^ 64) (T : Nat) (hT : 1 ≤ T)
    (ts : List Nat) (hperm : ts.Perm (List.range T)) (imp : Nat → R) :
    runThreads a T ts imp = impComp { a with tNum := 0, tTot := 1 } imp ∧
    (threadPairs T a.nr_of_louds a.nr_of_mics ts).Nodup ∧
    (∀ loud_nr mic_nr, loud_nr < a.nr_of_louds → mic_nr < a.nr_of_mics →
      (∃! t, t < T ∧ mic_nr ∈ workerMics t T a.nr_of_mics) ∧
      (loud_nr, mic_nr) ∈ threadPairs T a.nr_of_louds a.nr_of_mics ts) := by
  have hspec := threadPairs_spec T a.nr_of_louds a.nr_of_mics hT ts hperm
  refine ⟨?_, hspec.1, ?_⟩
  · rw [runThreads_eq_foldl, impComp_eq_foldl]
    simp only [pairComp_thread]
    apply foldl_pairs_congr hR a hfit _ _ (fun p hp => (hspec.2 p).mp hp) hspec.1
      (nodup_workerPairs 0 1 _ _ (by omega))
    intro p
    rw [hspec.2 p, mem_workerPairs, mem_workerMics_mod 0 1 _ _ (by omega)]
    constructor
    · rintro ⟨h1, h2⟩
      exact ⟨h1, h2, Nat.mod_one _⟩
    · rintro ⟨h1, h2, _⟩
      exact ⟨h1, h2⟩
  · intro loud_nr mic_nr hloud hmic
    constructor
    · refine ⟨mic_nr % T, ⟨Nat.mod_lt _ hT, ?_⟩, ?_⟩
      · rw [mem_workerMics_mod _ T _ _ (Nat.mod_lt _ hT)]
        exact ⟨hmic, rfl⟩
      · rintro t ⟨ht, hm⟩
        rw [mem_workerMics_mod t T _ _ ht] at hm
        exact hm.2.symm
    · exact (hspec.2 (loud_nr, mic_nr)).mpr ⟨hloud, hmic⟩

/-- Witness of C3: the concrete scenario with two threads run in the order
`1, 0`. -/
theorem worker_count_independent_witness :
    (2048 * 1 * 1 < 2 ^ 64) ∧ [1, 0].Perm (List.range 2) ∧
      runThreads (scenario 2048) 2 [1, 0] (fun _ => 0) =
        impComp { scenario 2048 with tNum := 0, tTot := 1 } (fun _ => 0) :=
  ⟨by norm_num, List.Perm.swap 0 1 [],
    (worker_count_independent fdistNonneg_real (scenario 2048) (by norm_num [scenario_sizes])
      2 (by norm_num) [1, 0] (List.Perm.swap 0 1 []) (fun _ => 0)).1⟩

/-- C4 (disjoint writes).  In every carrier with non-negative arrival samples
and for a tensor of fewer than `2 ^ 64` cells, the work for the pair
`(mic_nr, loud_nr)` with `mic_nr < nr_of_mics`, `loud_nr < nr_of_louds` (each
step of the kernel with either injection, the six loops, the high-pass filter,
and all of them together) leaves every cell outside the pair's slice as it
is; the slice lies below `nsamples * nr_of_mics * nr_of_louds`; the slices of
two different pairs have no cell in common; and the pairs of two threads with
different numbers below the thread count have no cell in common. -/
theorem disjoint_writes (hR : FdistNonneg R) (a : arg_s R) (loud_nr mic_nr : Nat)
    (hmic : mic_nr < a.nr_of_mics) (hloud : loud_nr < a.nr_of_louds)
    (hfit : a.nsamples * a.nr_of_mics * a.nr_of_louds < 2 ^ 64) :
    (∀ imp i, ¬ ownSlice a.nsamples a.nr_of_mics mic_nr loud_nr i →
      (∀ s r c, imageStep a loud_nr mic_nr s r imp c i = imp i) ∧
      imageSum a loud_nr mic_nr imp i = imp i ∧
      highPass a loud_nr mic_nr imp i = imp i ∧
      pairComp a loud_nr mic_nr imp i = imp i) ∧
    (∀ i, ownSlice a.nsamples a.nr_of_mics mic_nr loud_nr i →
      i < a.nsamples * a.nr_of_mics * a.nr_of_louds) ∧
    (∀ mic2 loud2 i, mic2 < a.nr_of_mics → (mic2, loud2) ≠ (mic_nr, loud_nr) →
      ownSlice a.nsamples a.nr_of_mics mic_nr loud_nr i →
      ¬ ownSlice a.nsamples a.nr_of_mics mic2 loud2 i) ∧
    (∀ T t1 t2, t1 < T → t2 < T → t1 ≠ t2 →
      ∀ p1 ∈ workerPairs t1 T a.nr_of_louds a.nr_of_mics,
      ∀ p2 ∈ workerPairs t2 T a.nr_of_louds a.nr_of_mics,
      ∀ i, ownSlice a.nsamples a.nr_of_mics p1.2 p1.1 i →
        ¬ ownSlice a.nsamples a.nr_of_mics p2.2 p2.1 i) := by
  refine ⟨?_, ?_, ?_, ?_⟩
  · intro imp i hi
    refine ⟨?_, imageSum_frame hR a _ loud_nr mic_nr hmic hloud hfit imp i hi, ?_,
      pairComp_frame hR a _ loud_nr mic_nr hmic hloud hfit imp i hi⟩
    · intro s r c
      rw [imageStep_cell]
      exact cellStep_frame hR a _ loud_nr mic_nr hmic hloud hfit s r i _ c hi
    · exact hpFold_frame a _ loud_nr mic_nr hmic hloud hfit i hi _
        (fun idx h => List.mem_range.mp h) _
  · intro i hi
    rw [ownSlice_iff] at hi
    have := slice_end_le a.nsamples a.nr_of_mics a.nr_of_louds mic_nr loud_nr hmic hloud
    omega
  · intro mic2 loud2 i hmic2 hne h1 h2
    have := ownSlice_disjoint _ _ _ _ _ _ i hmic hmic2 h1 h2
    exact hne (Prod.ext this.1.symm this.2.symm)
  · intro T t1 t2 h1 h2 hne p1 hp1 p2 hp2 i hi1 hi2
    rw [mem_workerPairs] at hp1 hp2
    have hm1 := (mem_workerMics_mod t1 T _ _ h1).mp hp1.2
    have hm2 := (mem_workerMics_mod t2 T _ _ h2).mp hp2.2
    have := ownSlice_disjoint _ _ _ _ _ _ i hm1.1 hm2.1 hi1 hi2
    exact hne (by rw [← hm1.2, ← hm2.2, this.1])

/-- Witness of C4: in the concrete scenario with 2048 samples the work for the
only pair leaves cell 2048, the first one behind its slice, at zero. -/
theorem disjoint_writes_witness :
    (2048 * 1 * 1 < 2 ^ 64) ∧ pairComp (scenario 2048) 0 0 (fun _ => 0) 2048 = 0 :=
  ⟨by norm_num,
    ((disjoint_writes fdistNonneg_real (scenario 2048) 0 0 Nat.zero_lt_one Nat.zero_lt_one
      (by norm_num [scenario_sizes])).1 (fun _ => 0) 2048 (by
        rw [ownSlice_iff]
        norm_num [scenario_sizes])).2.2.2⟩

/-! ## C5: the reflection-order test -/

/-- C5 (order monotonicity).  For orders `0 ≤ o1 ≤ o2`, every index tuple that
passes the order test with `o1` passes it with `o2`, and every tuple that
passes with `o2` passes with `-1`; with a non-negative order the tuples that
pass are those whose bounce sum is at most the order.  The enumerated lattice,
the arrival sample and the strength of a path do not depend on the order, and
the kernel's step for a tuple under order `o1` is its step under order `-1`
when the bounce sum is at most `o1` and leaves the tensor as it is otherwise. -/
theorem order_monotone (a : arg_s R) (o1 o2 : Int) (h1 : 0 ≤ o1) (h12 : o1 ≤ o2) :
    (∀ c, orderTest o1 c = true → orderTest o2 c = true) ∧
    (∀ c, orderTest o2 c = true → orderTest (-1) c = true) ∧
    (∀ c, orderTest o1 c = true ↔ pathOrder c ≤ o1) ∧
    lattice { a with order := o1 } = lattice { a with order := -1 } ∧
    (∀ s r c, pathFdist { a with order := o1 } s r c = pathFdist { a with order := -1 } s r c ∧
      pathStrength { a with order := o1 } s r c = pathStrength { a with order := -1 } s r c) ∧
    (∀ loud_nr mic_nr s r imp c,
      imageStep { a with order := o1 } loud_nr mic_nr s r imp c =
        if pathOrder c ≤ o1 then imageStep { a with order := -1 } loud_nr mic_nr s r imp c
        else imp) := by
  refine ⟨?_, ?_, ?_, rfl, fun _ _ _ => ⟨rfl, rfl⟩, ?_⟩
  · intro c hc
    simp only [orderTest, Bool.or_eq_true, decide_eq_true_eq] at hc ⊢
    omega
  · intro c _
    simp [orderTest]
  · intro c
    simp only [orderTest, Bool.or_eq_true, decide_eq_true_eq]
    omega
  · intro loud_nr mic_nr s r imp c
    have hne : o1 ≠ -1 := by omega
    by_cases hc : pathOrder c ≤ o1
    · simp [imageStep, orderTest, hc]
      rfl
    · simp [imageStep, orderTest, hc, hne]

/-- Witness of C5 on the concrete scenario with orders `0 ≤ 2`. -/
theorem order_monotone_witness :
    orderTest 2 (0, 0, 0, 0, 0, 0) = true ∧
      lattice { scenario 2048 with order := 0 } = lattice { scenario 2048 with order := -1 } :=
  ⟨(order_monotone (scenario 2048) 0 2 (by decide) (by decide)).1 _ (by decide),
    (order_monotone (scenario 2048) 0 2 (by decide) (by decide)).2.2.2.1⟩

end Generic

/-! ## C7: microphone directivity -/

/-- C7 (directivity).  Over the reals `sim_microphone` returns
`P + PG * cos(atan2(y, x) - angle)` with the pair `(P, PG)` of the pattern
letter, `(1, 0)` for a letter that is none of `o s c h b`; the omnidirectional
and the unrecognised gain are `1` for every direction, the bidirectional gain
is the cosine of the incidence angle and is the same for two directions whose
incidence angles are opposite. -/
theorem sim_microphone_directivity (x y angle : ℝ) :
    sim_microphone x y angle 'o' = 1 + 0 * Real.cos (Complex.arg ⟨x, y⟩ - angle) ∧
    sim_microphone x y angle 's' = 0.75 + 0.25 * Real.cos (Complex.arg ⟨x, y⟩ - angle) ∧
    sim_microphone x y angle 'c' = 0.5 + 0.5 * Real.cos (Complex.arg ⟨x, y⟩ - angle) ∧
    sim_microphone x y angle 'h' = 0.25 + 0.75 * Real.cos (Complex.arg ⟨x, y⟩ - angle) ∧
    sim_microphone x y angle 'b' = 0 + 1 * Real.cos (Complex.arg ⟨x, y⟩ - angle) ∧
    (∀ mtype : Char, mtype ≠ 'o' → mtype ≠ 's' → mtype ≠ 'c' → mtype ≠ 'h' → mtype ≠ 'b' →
      sim_microphone x y angle mtype = 1 + 0 * Real.cos (Complex.arg ⟨x, y⟩ - angle)) ∧
    sim_microphone x y angle 'o' = 1 ∧
    (∀ mtype : Char, mtype ≠ 'o' → mtype ≠ 's' → mtype ≠ 'c' → mtype ≠ 'h' → mtype ≠ 'b' →
      sim_microphone x y angle mtype = 1) ∧
    sim_microphone x y angle 'b' = Real.cos (Complex.arg ⟨x, y⟩ - angle) ∧
    (∀ x2 y2 angle2 : ℝ,
      Complex.arg ⟨x2, y2⟩ - angle2 = -(Complex.arg ⟨x, y⟩ - angle) →
        sim_microphone x2 y2 angle2 'b' = sim_microphone x y angle 'b') := by
  have hb : ∀ x y angle : ℝ,
      sim_microphone x y angle 'b' = Real.cos (Complex.arg ⟨x, y⟩ - angle) := by
    intro x y angle
    simp [sim_microphone, polarPattern, ofInt_real, cos_real, atan2_real]
  refine ⟨?_, ?_, ?_, ?_, ?_, ?_, ?_, ?_, hb x y angle, ?_⟩
  · simp [sim_microphone, polarPattern, ofInt_real, cos_real, atan2_real]
  · simp [sim_microphone, polarPattern, ofInt_real, cos_real, atan2_real]
  · simp [sim_microphone, polarPattern, ofInt_real, cos_real, atan2_real]
  · simp [sim_microphone, polarPattern, ofInt_real, cos_real, atan2_real]
  · simp [sim_microphone, polarPattern, ofInt_real, cos_real, atan2_real]
  · intro mtype ho hs hc hh hb
    simp [sim_microphone, polarPattern, ofInt_real, cos_real, atan2_real, ho, hs, hc, hh, hb]
  · simp [sim_microphone, polarPattern, ofInt_real, cos_real, atan2_real]
  · intro mtype ho hs hc hh hb
    simp [sim_microphone, polarPattern, ofInt_real, cos_real, atan2_real, ho, hs, hc, hh, hb]
  · intro x2 y2 angle2 h
    rw [hb, hb, h, Real.cos_neg]

/-! ## C8: reverberation time, in exact arithmetic -/

/-- C8, amended.  Over the reals (exact arithmetic), for positive room
dimensions, `c > 0` and `T60 > 0` with `24 V ln 10 / (c S T60) ≤ 1`, the
derivation of lines 433-443 does not fail, returns
`beta_hat = sqrt(1 - 24 V ln 10 / (c S T60))`, and the reverberation-time
formula of lines 569-574 evaluated with all six coefficients equal to
`beta_hat` gives `T60`, and `max T60 0.128` after the floor of line 575. -/
theorem reverb_round_trip (c T60 : ℝ) (LL : Nat → ℝ) (hc : 0 < c) (hT : 0 < T60)
    (h0 : 0 < LL 0) (h1 : 0 < LL 1) (h2 : 0 < LL 2)
    (halfa : 24 * (LL 0 * LL 1 * LL 2) * Real.log 10 /
      (c * (2 * (LL 0 * LL 2 + LL 1 * LL 2 + LL 0 * LL 1)) * T60) ≤ 1) :
    betaHat c LL T60 = Except.ok (Real.sqrt (1 - 24 * (LL 0 * LL 1 * LL 2) * Real.log 10 /
      (c * (2 * (LL 0 * LL 2 + LL 1 * LL 2 + LL 0 * LL 1)) * T60))) ∧
    (∀ beta_hat, betaHat c LL T60 = Except.ok beta_hat →
      reverbTime c LL (fun _ => beta_hat) = T60 ∧
      reverbTimeFloored c LL (fun _ => beta_hat) = max T60 0.128) := by
  have halfa_eq : alfaOf c LL T60 = 24 * (LL 0 * LL 1 * LL 2) * Real.log 10 /
      (c * (2 * (LL 0 * LL 2 + LL 1 * LL 2 + LL 0 * LL 1)) * T60) := by
    simp only [alfaOf, ofInt_real, log_real]
    norm_num
  have hbeta : betaHat c LL T60 = Except.ok (Real.sqrt (1 - 24 * (LL 0 * LL 1 * LL 2) *
      Real.log 10 / (c * (2 * (LL 0 * LL 2 + LL 1 * LL 2 + LL 0 * LL 1)) * T60))) := by
    simp only [betaHat, halfa_eq, lt_real, ofInt_real, sqrt_real, Int.cast_one]
    rw [if_neg]
    simpa using halfa
  refine ⟨hbeta, ?_⟩
  intro beta_hat hb
  rw [hbeta] at hb
  have hbv := (Except.ok.inj hb).symm
  have hS : 0 < LL 0 * LL 2 + LL 1 * LL 2 + LL 0 * LL 1 := by positivity
  have hV : 0 < LL 0 * LL 1 * LL 2 := by positivity
  have hlog : 0 < Real.log 10 := Real.log_pos (by norm_num)
  have hsq : beta_hat ^ 2 = 1 - 24 * (LL 0 * LL 1 * LL 2) * Real.log 10 /
      (c * (2 * (LL 0 * LL 2 + LL 1 * LL 2 + LL 0 * LL 1)) * T60) := by
    rw [hbv, Real.sq_sqrt]
    linarith
  have hTR : reverbTime c LL (fun _ => beta_hat) = T60 := by
    simp only [reverbTime, pow_two_real]
    simp only [ofInt_real, log_real, hsq]
    norm_num
    field_simp
    ring
  refine ⟨hTR, ?_⟩
  unfold reverbTimeFloored
  rw [hTR, lt_real]
  by_cases h : T60 < 0.128
  · rw [decide_eq_true h, if_pos rfl, max_eq_right h.le]
  · rw [decide_eq_false h, if_neg (by simp), max_eq_left (not_lt.mp h)]

/-- Witness of C8, amended: the unit cube, `c = 343`, `T60 = 1`, over the reals. -/
theorem reverb_round_trip_witness :
    reverbTime 343 (fun _ => 1)
        (fun _ => Real.sqrt (1 - 24 * ((1 : ℝ) * 1 * 1) * Real.log 10 /
          (343 * (2 * ((1 : ℝ) * 1 + 1 * 1 + 1 * 1)) * 1))) = 1 := by
  have hlog : Real.log 10 ≤ 10 - 1 := Real.log_le_sub_one_of_pos (by norm_num)
  have h := reverb_round_trip 343 1 (fun _ => 1) (by norm_num) (by norm_num) (by norm_num)
    (by norm_num) (by norm_num) (by
      rw [div_le_one (by norm_num)]
      norm_num
      linarith)
  exact (h.2 _ h.1).1

/-! ## C10: the Hanning window -/

/-- C10 (window symmetry), evaluation of the code at an odd window length.
Over the reals `window_l = 0.003` and `fs = 1000` give `Tw = 3`, and the window
of line 613 for `Tw = 3` has `hanning_window[1] = 1/4` and
`hanning_window[2] = 1`: it is not symmetric, because `Tw/2` is an integer
division. -/
theorem hanning_window_odd_asymmetric :
    windowTw (0.003 : ℝ) 1000 = 3 ∧
    (hanningWindow 3 1 : ℝ) = 1 / 4 ∧ (hanningWindow 3 2 : ℝ) = 1 ∧
    (hanningWindow 3 1 : ℝ) ≠ hanningWindow 3 (3 - 1) := by
  have hdiv : Int.tdiv 3 2 = 1 := by decide
  have h1 : (hanningWindow 3 1 : ℝ) = 1 / 4 := by
    simp only [hanningWindow, ofInt_real, cos_real, pi_real, hdiv]
    norm_num
    have : 2 * Real.pi * 2 / 3 = Real.pi + Real.pi / 3 := by ring
    rw [this, Real.cos_add, Real.cos_pi, Real.sin_pi, Real.cos_pi_div_three]
    norm_num
  have h2 : (hanningWindow 3 2 : ℝ) = 1 := by
    simp only [hanningWindow, ofInt_real, cos_real, pi_real, hdiv]
    norm_num
  refine ⟨?_, h1, h2, ?_⟩
  · have hR : ROUND ((0.003 : ℝ) * 1000) = 3 := by
      unfold ROUND
      rw [le_real, ofInt_real, toInt_real, toInt_real]
      norm_num
    simp [windowTw, hR]
  · rw [h1]
    norm_num [h2]

/-! ## C12: the bounce count -/

/-- The bounce count of one axis: `|2 m + p| = |m| + |m + p|` for every mirror
index `m` and parity `p` in `{0, 1}`. -/
theorem abs_two_mul_add_parity (m p : Int) (hp : p = 0 ∨ p = 1) :
    |2 * m + p| = |m| + |m + p| := by
  rcases le_or_lt 0 m with hm | hm
  · rw [abs_of_nonneg (by omega : 0 ≤ 2 * m + p), abs_of_nonneg hm,
      abs_of_nonneg (by omega : 0 ≤ m + p)]
    ring
  · rw [abs_of_nonpos (by omega : 2 * m + p ≤ 0), abs_of_nonpos (by omega : m ≤ 0),
      abs_of_nonpos (by omega : m + p ≤ 0)]
    ring

/-- C12 (bounce count).  For every mirror index `m` and parity `p` in `{0, 1}`,
`|2 m + p| = |m| + |m + p|`.  Hence, for an index tuple with parities in
`{0, 1}`, the sum `|2mx+q| + |2my+j| + |2mz+k|` the kernel compares with the
reflection order is the sum of the six exponents `|mx|, |mx+q|, |my|, |my+j|,
|mz|, |mz+k|` the kernel passes to `pow` for the six reflection coefficients;
over the reals the attenuation product is the product of the six coefficients
raised to these exponents. -/
theorem bounce_count (a : arg_s ℝ) (mx my mz q j k : Int) (hq : q = 0 ∨ q = 1)
    (hj : j = 0 ∨ j = 1) (hk : k = 0 ∨ k = 1) :
    (∀ m p : Int, p = 0 ∨ p = 1 → |2 * m + p| = |m| + |m + p|) ∧
    pathOrder (mx, my, mz, q, j, k) =
      |mx| + |mx + q| + (|my| + |my + j|) + (|mz| + |mz + k|) ∧
    (∀ axis m p, reflCoef a axis m p =
      Flt.pow (a.beta (2 * axis)) (Flt.ofInt |m|) *
        Flt.pow (a.beta (2 * axis + 1)) (Flt.ofInt |m + p|)) ∧
    reflCoef a 0 mx q * reflCoef a 1 my j * reflCoef a 2 mz k =
      a.beta 0 ^ mx.natAbs * a.beta 1 ^ (mx + q).natAbs *
        (a.beta 2 ^ my.natAbs * a.beta 3 ^ (my + j).natAbs) *
        (a.beta 4 ^ mz.natAbs * a.beta 5 ^ (mz + k).natAbs) ∧
    pathOrder (mx, my, mz, q, j, k) =
      ((mx.natAbs + (mx + q).natAbs + (my.natAbs + (my + j).natAbs) +
        (mz.natAbs + (mz + k).natAbs) : Nat) : Int) := by
  have hsum : pathOrder (mx, my, mz, q, j, k) =
      |mx| + |mx + q| + (|my| + |my + j|) + (|mz| + |mz + k|) := by
    simp only [pathOrder]
    rw [abs_two_mul_add_parity mx q hq, abs_two_mul_add_parity my j hj,
      abs_two_mul_add_parity mz k hk]
  refine ⟨abs_two_mul_add_parity, hsum, fun _ _ _ => rfl, ?_, ?_⟩
  · simp only [reflCoef_real]
  · rw [hsum]
    simp only [Int.abs_eq_natAbs]
    push_cast
    ring

/-- Witness of C12: the tuple `(-1, 0, 2, 1, 0, 1)` in the concrete scenario has
bounce sum `6`. -/
theorem bounce_count_witness :
    pathOrder (-1, 0, 2, 1, 0, 1) =
      (((-1 : Int).natAbs + (-1 + 1 : Int).natAbs + ((0 : Int).natAbs + (0 + 0 : Int).natAbs) +
        ((2 : Int).natAbs + (2 + 1 : Int).natAbs) : Nat) : Int) :=
  (bounce_count (scenario 2048) (-1) 0 2 1 0 1 (Or.inr rfl) (Or.inl rfl) (Or.inr rfl)).2.2.2.2

/-! ## C11: the lattice bounds, in exact arithmetic -/

/-- Inside an axis of positive length `L`, an image whose mirror index lies
outside `[-n, n]` with `nsamples ≤ 2 n L` is at least `nsamples` away on that
axis, for both parities. -/
theorem imageOffset_abs_ge_of_outside (s r L ns : ℝ) (n m p : Int) (hp : p = 0 ∨ p = 1)
    (hL : 0 < L) (hs : 0 ≤ s ∧ s ≤ L) (hr : 0 ≤ r ∧ r ≤ L) (hn : ns ≤ 2 * (n : ℝ) * L)
    (hm : m < -n ∨ n < m) : ns ≤ |s - r + 2 * (p : ℝ) * r + 2 * (m : ℝ) * L| := by
  rcases hm with hm | hm
  · have hm1 : (m : ℝ) ≤ -(n : ℝ) - 1 := by exact_mod_cast (by omega : m ≤ -n - 1)
    have hmL : (m : ℝ) * L ≤ (-(n : ℝ) - 1) * L := mul_le_mul_of_nonneg_right hm1 hL.le
    rw [le_abs]
    right
    rcases hp with rfl | rfl
    · push_cast
      nlinarith [hs.1, hs.2, hr.1, hr.2]
    · push_cast
      nlinarith [hs.1, hs.2, hr.1, hr.2]
  · have hm1 : (n : ℝ) + 1 ≤ (m : ℝ) := by exact_mod_cast (by omega : n + 1 ≤ m)
    have hmL : ((n : ℝ) + 1) * L ≤ (m : ℝ) * L := mul_le_mul_of_nonneg_right hm1 hL.le
    rw [le_abs]
    left
    rcases hp with rfl | rfl
    · push_cast
      nlinarith [hs.1, hs.2, hr.1, hr.2]
    · push_cast
      nlinarith [hs.1, hs.2, hr.1, hr.2]

/-- A path is at least as long as its image offset on each axis. -/
theorem abs_imageOffset_le_pathDist (a : arg_s ℝ) (s r : Nat → ℝ)
    (c : Int × Int × Int × Int × Int × Int) (axis : Nat) (hax : axis < 3) :
    |imageOffset a s r axis (tupleMirror c axis) (tupleParity c axis)| ≤ pathDist a s r c := by
  rw [pathDist_real]
  apply Real.abs_le_sqrt
  have h0 := sq_nonneg (imageOffset a s r 0 c.1 c.2.2.2.1)
  have h1 := sq_nonneg (imageOffset a s r 1 c.2.1 c.2.2.2.2.1)
  have h2 := sq_nonneg (imageOffset a s r 2 c.2.2.1 c.2.2.2.2.2)
  interval_cases axis
  · simp only [tupleMirror, tupleParity, if_true]
    linarith
  · simp only [tupleMirror, tupleParity]
    norm_num
    linarith
  · simp only [tupleMirror, tupleParity]
    norm_num
    linarith

/-- On an axis with `dim = 1`, positive length and source and receiver inside,
a tuple whose mirror index lies outside the lattice bound arrives at sample
`nsamples` or later. -/
theorem pathFdist_ge_of_outside (a : arg_s ℝ) (s r : Nat → ℝ) (axis : Nat) (hax : axis < 3)
    (hd : a.dim_s axis = 1) (hL : 0 < a.L axis) (hs : 0 ≤ s axis ∧ s axis ≤ a.L axis)
    (hr : 0 ≤ r axis ∧ r axis ≤ a.L axis) (c : Int × Int × Int × Int × Int × Int)
    (hp : tupleParity c axis = 0 ∨ tupleParity c axis = 1)
    (hm : tupleMirror c axis < -latticeBound a axis ∨ latticeBound a axis < tupleMirror c axis) :
    (a.nsamples : Int) ≤ pathFdist a s r c := by
  rw [latticeBound_real, hd, mul_one] at hm
  have hceil := Int.le_ceil ((a.nsamples : ℝ) / (2 * a.L axis))
  rw [div_le_iff₀ (by positivity)] at hceil
  have hoff := imageOffset_abs_ge_of_outside (s axis) (r axis) (a.L axis) (a.nsamples : ℝ)
    ⌈(a.nsamples : ℝ) / (2 * a.L axis)⌉ (tupleMirror c axis) (tupleParity c axis) hp hL hs hr
    (by linarith) hm
  rw [← imageOffset_real] at hoff
  have hdist := abs_imageOffset_le_pathDist a s r c axis hax
  rw [pathFdist_real, Int.le_floor]
  push_cast
  linarith

/-- C11, amended.  Over the reals (exact arithmetic), with a dimension mask
of zeros and ones and, on every axis with `dim = 1`, a positive room length
and source and receiver between `0` and `L` (in samples): on such an axis the
lattice bound is `n = ceil(nsamples / (2 L))`, and an image whose mirror index
lies outside `[-n, n]` has an offset of at least `nsamples` in absolute value
for both parities; a tuple with such a mirror index has
`floor(dist) ≥ nsamples` and the kernel's step for it leaves the tensor as it
is.  Hence with order `-1`, among all integer tuples with parities between `0`
and `dim` and mirror index `0` on the axes with `dim = 0`, those that pass the
order test and the arrival test are exactly the visited tuples that arrive
before `nsamples`. -/
theorem lattice_bounds_complete (a : arg_s ℝ) (s r : Nat → ℝ)
    (hdim : ∀ axis, axis < 3 → a.dim_s axis = 0 ∨ a.dim_s axis = 1)
    (hin : ∀ axis, axis < 3 → a.dim_s axis = 1 →
      0 < a.L axis ∧ (0 ≤ s axis ∧ s axis ≤ a.L axis) ∧ (0 ≤ r axis ∧ r axis ≤ a.L axis)) :
    (∀ axis, axis < 3 → a.dim_s axis = 1 →
      latticeBound a axis = ⌈(a.nsamples : ℝ) / (2 * a.L axis)⌉ ∧
      ∀ m p : Int, p = 0 ∨ p = 1 → m < -latticeBound a axis ∨ latticeBound a axis < m →
        (a.nsamples : ℝ) ≤ |imageOffset a s r axis m p|) ∧
    (∀ c axis, axis < 3 → a.dim_s axis = 1 →
      tupleParity c axis = 0 ∨ tupleParity c axis = 1 →
      tupleMirror c axis < -latticeBound a axis ∨ latticeBound a axis < tupleMirror c axis →
      pathFdist a s r c = ⌊pathDist a s r c⌋ ∧ (a.nsamples : Int) ≤ pathFdist a s r c ∧
      ∀ loud_nr mic_nr imp, imageStep a loud_nr mic_nr s r imp c = imp) ∧
    (a.order = -1 →
      ∀ c, (∀ axis, axis < 3 → 0 ≤ tupleParity c axis ∧ tupleParity c axis ≤ a.dim_s axis ∧
          (a.dim_s axis = 0 → tupleMirror c axis = 0)) →
        (orderTest a.order c = true ∧ pathFdist a s r c < a.nsamples ↔
          c ∈ lattice a ∧ pathFdist a s r c < a.nsamples)) := by
  refine ⟨?_, ?_, ?_⟩
  · intro axis hax hd
    obtain ⟨hL, hs, hr⟩ := hin axis hax hd
    have hlb : latticeBound a axis = ⌈(a.nsamples : ℝ) / (2 * a.L axis)⌉ := by
      rw [latticeBound_real, hd, mul_one]
    refine ⟨hlb, ?_⟩
    intro m p hp hm
    rw [hlb] at hm
    have hceil := Int.le_ceil ((a.nsamples : ℝ) / (2 * a.L axis))
    rw [div_le_iff₀ (by positivity)] at hceil
    rw [imageOffset_real]
    exact imageOffset_abs_ge_of_outside _ _ _ _ _ m p hp hL hs hr (by linarith) hm
  · intro c axis hax hd hp hm
    obtain ⟨hL, hs, hr⟩ := hin axis hax hd
    have hge := pathFdist_ge_of_outside a s r axis hax hd hL hs hr c hp hm
    refine ⟨pathFdist_real _ _ _ _, hge, ?_⟩
    intro loud_nr mic_nr imp
    unfold imageStep
    split
    · rw [if_neg (by omega)]
    · rfl
  · intro hord c hc
    have hpass : orderTest a.order c = true := by
      rw [hord]
      simp [orderTest]
    constructor
    · rintro ⟨_, hf⟩
      refine ⟨?_, hf⟩
      have hbound : ∀ axis, axis < 3 →
          (-(latticeBound a axis) ≤ tupleMirror c axis ∧
            tupleMirror c axis ≤ latticeBound a axis) ∧
          (0 ≤ tupleParity c axis ∧ tupleParity c axis ≤ 1 * a.dim_s axis) := by
        intro axis hax
        obtain ⟨hp0, hp1, hm0⟩ := hc axis hax
        refine ⟨?_, hp0, by omega⟩
        rcases hdim axis hax with hd | hd
        · have hlb : latticeBound a axis = 0 := by
            rw [latticeBound_real, hd, mul_zero]
          rw [hlb, hm0 hd]
          omega
        · obtain ⟨hL, hs, hr⟩ := hin axis hax hd
          by_contra hout
          have hge := pathFdist_ge_of_outside a s r axis hax hd hL hs hr c (by omega)
            (by omega)
          omega
      obtain ⟨mx, my, mz, q, j, k⟩ := c
      rw [mem_lattice]
      have b0 := hbound 0 (by omega)
      have b1 := hbound 1 (by omega)
      have b2 := hbound 2 (by omega)
      simp only [tupleMirror, tupleParity] at b0 b1 b2
      norm_num at b0 b1 b2
      exact ⟨b0.1, b1.1, b2.1, by simpa using b0.2, by simpa using b1.2, by simpa using b2.2⟩
    · rintro ⟨_, hf⟩
      exact ⟨hpass, hf⟩

/-- The rooms of the concrete scenario have positive length on every axis. -/
theorem scenario_L_pos (n : Nat) (axis : Nat) : 0 < (scenario n).L axis := by
  show (0 : ℝ) < (if axis = 2 then (2 : ℝ) else 4) / (343 / 16000)
  split <;> norm_num

/-- Witness of C11, amended: over the reals, in the concrete scenario with
2048 samples the lattice bound of the x axis is at most 6, and the tuple with `mx = 7` arrives at sample
2048 or later. -/
theorem lattice_bounds_complete_witness :
    (2048 : Int) ≤ pathFdist (scenario 2048) (srcPos (scenario 2048) 0)
      (micPos (scenario 2048) 0) (7, 0, 0, 0, 0, 0) :=
  ((lattice_bounds_complete (scenario 2048) (srcPos (scenario 2048) 0)
    (micPos (scenario 2048) 0) (fun _ _ => Or.inr rfl)
    (fun axis _ _ => ⟨scenario_L_pos 2048 axis, (scenario_inside 2048 axis).1,
      (scenario_inside 2048 axis).2⟩)).2.1 (7, 0, 0, 0, 0, 0) 0 (by norm_num) rfl (Or.inl rfl)
    (Or.inr (by
      rw [latticeBound_real]
      show ⌈((2048 : Nat) : ℝ) / (2 * ((if (0 : Nat) = 2 then (2 : ℝ) else 4) / (343 / 16000)))⌉ *
        1 < 7
      have h : ⌈((2048 : Nat) : ℝ) /
          (2 * ((if (0 : Nat) = 2 then (2 : ℝ) else 4) / (343 / 16000)))⌉ ≤ 6 := by
        rw [Int.ceil_le]
        norm_num
      omega))).2.1

/-! ## Causality from the arrival samples the kernel computes -/

section Arrival

variable {R : Type} [Add R] [Sub R] [Mul R] [Div R] [Neg R] [OfScientific R] [Flt R]

/-- In every carrier: a step whose arrival sample, when the step is accepted,
is `K` or later leaves the samples below `K` as they are with the
nearest-sample injection, and the samples below `K - Tw/2` with the
interpolation. -/
theorem cellStep_before_arrival (a : arg_s R) (loud_nr mic_nr : Nat) (s r : Nat → R)
    (hmic : mic_nr < a.nr_of_mics) (hloud : loud_nr < a.nr_of_louds)
    (hfit : a.nsamples * a.nr_of_mics * a.nr_of_louds < 2 ^ 64) (K : Nat)
    (c : Int × Int × Int × Int × Int × Int)
    (hK : orderTest a.order c = true → pathFdist a s r c < a.nsamples →
      (K : Int) ≤ pathFdist a s r c)
    (sample : Nat)
    (hlt : (sample : Int) < (K : Int) - (if a.lp_filter = 1 then Int.tdiv a.Tw 2 else 0))
    (w : R) :
    cellStep a loud_nr mic_nr s r
      (sample + a.nsamples * mic_nr + a.nsamples * a.nr_of_mics * loud_nr) w c = w := by
  unfold cellStep
  by_cases ho : orderTest a.order c = true
  · by_cases hf : pathFdist a s r c < a.nsamples
    · have hge := hK ho hf
      by_cases hl : a.lp_filter = 1
      · simp only [ho, hf, hl, if_true]
        rw [if_pos hl] at hlt
        apply foldl_skip
        intro n _ w
        rw [if_neg]
        rintro ⟨⟨h0, h1⟩, hidx⟩
        rw [abs_counter_eq _ _ a.nsamples a.nr_of_mics a.nr_of_louds mic_nr loud_nr hmic hloud
          hfit h0 h1] at hidx
        generalize Int.tdiv a.Tw 2 = t at *
        omega
      · simp only [ho, hf, hl, if_true, if_false]
        rw [if_neg hl] at hlt
        rw [if_neg]
        intro hidx
        rw [abs_counter_eq _ 0 a.nsamples a.nr_of_mics a.nr_of_louds mic_nr loud_nr hmic hloud
          hfit (by omega) (by omega)] at hidx
        omega
    · simp [ho, hf]
  · simp [ho]

/-- In every carrier: when `K` is at most the arrival sample of every accepted
path, the six loops leave the samples below `K` (below `K - Tw/2` with the
interpolation) as they are. -/
theorem imageSum_before_arrival (a : arg_s R) (loud_nr mic_nr : Nat)
    (hmic : mic_nr < a.nr_of_mics) (hloud : loud_nr < a.nr_of_louds)
    (hfit : a.nsamples * a.nr_of_mics * a.nr_of_louds < 2 ^ 64) (K : Nat)
    (hK : ∀ c, c ∈ lattice a → orderTest a.order c = true →
      pathFdist a (srcPos a loud_nr) (micPos a mic_nr) c < a.nsamples →
      (K : Int) ≤ pathFdist a (srcPos a loud_nr) (micPos a mic_nr) c)
    (sample : Nat)
    (hlt : (sample : Int) < (K : Int) - (if a.lp_filter = 1 then Int.tdiv a.Tw 2 else 0))
    (imp : Nat → R) :
    imageSum a loud_nr mic_nr imp
        (sample + a.nsamples * mic_nr + a.nsamples * a.nr_of_mics * loud_nr) =
      imp (sample + a.nsamples * mic_nr + a.nsamples * a.nr_of_mics * loud_nr) := by
  rw [imageSum_cell]
  apply foldl_skip
  intro c hc w
  exact cellStep_before_arrival a loud_nr mic_nr _ _ hmic hloud hfit K c (hK c hc) sample hlt w

/-- In every carrier with the two laws of zero: the high-pass filter, started
from a zero state, keeps leading zeros. -/
theorem highPass_keeps_zeros (hZ : ZeroLaws R) (a : arg_s R) (N loud_nr mic_nr : Nat)
    (hmic : mic_nr < a.nr_of_mics) (hloud : loud_nr < N)
    (hfit : a.nsamples * a.nr_of_mics * N < 2 ^ 64) (imp : Nat → R) (K : Nat)
    (hz : ∀ k, k < K → k < a.nsamples →
      imp (k + a.nsamples * mic_nr + a.nsamples * a.nr_of_mics * loud_nr) = Flt.ofInt 0) :
    ∀ k, k < K → k < a.nsamples →
      highPass a loud_nr mic_nr imp
        (k + a.nsamples * mic_nr + a.nsamples * a.nr_of_mics * loud_nr) = Flt.ofInt 0 := by
  obtain ⟨hmul, hadd⟩ := hZ
  have key : ∀ m, m ≤ a.nsamples →
      (∀ k, k < K → k < a.nsamples →
        ((List.range m).foldl (hpStep a loud_nr mic_nr)
          (imp, Flt.ofInt 0, Flt.ofInt 0, Flt.ofInt 0)).1
          (k + a.nsamples * mic_nr + a.nsamples * a.nr_of_mics * loud_nr) = Flt.ofInt 0) ∧
      (m ≤ K →
        ((List.range m).foldl (hpStep a loud_nr mic_nr)
          (imp, Flt.ofInt 0, Flt.ofInt 0, Flt.ofInt 0)).2 =
          (Flt.ofInt 0, Flt.ofInt 0, Flt.ofInt 0)) := by
    intro m
    induction m with
    | zero =>
      intro _
      exact ⟨fun k hk hkn => hz k hk hkn, fun _ => rfl⟩
    | succ m ih =>
      intro hm
      obtain ⟨ih1, ih2⟩ := ih (by omega)
      have hidx : abs_counter (m : Int) 0 a.nsamples a.nr_of_mics mic_nr loud_nr =
          m + a.nsamples * mic_nr + a.nsamples * a.nr_of_mics * loud_nr := by
        rw [abs_counter_eq m 0 a.nsamples a.nr_of_mics N mic_nr loud_nr hmic hloud hfit
          (by omega) (by omega)]
        simp
      rw [List.range_succ, List.foldl_append, List.foldl_cons, List.foldl_nil]
      generalize (List.range m).foldl (hpStep a loud_nr mic_nr)
        (imp, Flt.ofInt 0, Flt.ofInt 0, Flt.ofInt 0) = st at ih1 ih2
      by_cases hmK : m < K
      · have hst := ih2 (by omega)
        have hX := ih1 m hmK (by omega)
        constructor
        · intro k hk hkn
          simp only [hpStep, hidx, hst, hX]
          by_cases hkm : k = m
          · subst hkm
            rw [Function.update_same]
            simp only [hmul, hadd]
          · rw [Function.update_noteq (by omega)]
            exact ih1 k hk hkn
        · intro _
          simp only [hpStep, hidx, hst, hX, hmul, hadd]
      · constructor
        · intro k hk hkn
          simp only [hpStep, hidx]
          rw [Function.update_noteq (by omega)]
          exact ih1 k hk hkn
        · intro h
          omega
  intro k hk hkn
  exact (key a.nsamples le_rfl).1 k hk hkn

/-- In every carrier with the two laws of zero: when `K` is at most the
arrival sample of every accepted path, the samples of the pair below `K`
(below `K - Tw/2` with the interpolation), computed on a zero tensor, are
zero, with the high-pass filter on or off. -/
theorem pairComp_before_arrival (hZ : ZeroLaws R) (a : arg_s R) (loud_nr mic_nr : Nat)
    (hmic : mic_nr < a.nr_of_mics) (hloud : loud_nr < a.nr_of_louds)
    (hfit : a.nsamples * a.nr_of_mics * a.nr_of_louds < 2 ^ 64) (K : Nat)
    (hK : ∀ c, c ∈ lattice a → orderTest a.order c = true →
      pathFdist a (srcPos a loud_nr) (micPos a mic_nr) c < a.nsamples →
      (K : Int) ≤ pathFdist a (srcPos a loud_nr) (micPos a mic_nr) c)
    (sample : Nat) (hsample : sample < a.nsamples)
    (hlt : (sample : Int) < (K : Int) - (if a.lp_filter = 1 then Int.tdiv a.Tw 2 else 0)) :
    pairComp a loud_nr mic_nr (fun _ => Flt.ofInt 0)
      (sample + a.nsamples * mic_nr + a.nsamples * a.nr_of_mics * loud_nr) = Flt.ofInt 0 := by
  unfold pairComp
  split
  · apply highPass_keeps_zeros hZ a a.nr_of_louds loud_nr mic_nr hmic hloud hfit _ (sample + 1)
    · intro k hk _
      rw [imageSum_before_arrival a loud_nr mic_nr hmic hloud hfit K hK k (by omega)]
    · omega
    · exact hsample
  · rw [imageSum_before_arrival a loud_nr mic_nr hmic hloud hfit K hK sample hlt]

end Arrival

/-- The reals satisfy the two laws of zero. -/
theorem zeroLaws_real : ZeroLaws ℝ := by
  constructor
  · intro x
    simp [ofInt_real]
  · simp [ofInt_real]

/-- Over the reals, with source and receiver inside the room, the arrival
sample of the direct path is at most the arrival sample of every visited
path. -/
theorem pathFdist_ge_direct (a : arg_s ℝ) (loud_nr mic_nr : Nat)
    (hdim : ∀ axis, axis < 3 → a.dim_s axis = 0 ∨ a.dim_s axis = 1)
    (hs : ∀ axis, axis < 3 → 0 ≤ srcPos a loud_nr axis ∧ srcPos a loud_nr axis ≤ a.L axis)
    (hr : ∀ axis, axis < 3 → 0 ≤ micPos a mic_nr axis ∧ micPos a mic_nr axis ≤ a.L axis)
    (c : Int × Int × Int × Int × Int × Int) (hc : c ∈ lattice a) :
    ((⌊pathDist a (srcPos a loud_nr) (micPos a mic_nr) (0, 0, 0, 0, 0, 0)⌋.toNat : Nat) : Int) ≤
      pathFdist a (srcPos a loud_nr) (micPos a mic_nr) c := by
  obtain ⟨mx, my, mz, q, j, k⟩ := c
  obtain ⟨hq, hj, hk⟩ := lattice_parity a hdim mx my mz q j k hc
  have hge := Int.floor_le_floor (pathDist_ge_direct a (srcPos a loud_nr) (micPos a mic_nr)
    mx my mz q j k (by omega) (by omega) (by omega) hs hr)
  rw [← pathFdist_real a _ _ (mx, my, mz, q, j, k)] at hge
  have h0 : 0 ≤ ⌊pathDist a (srcPos a loud_nr) (micPos a mic_nr) (0, 0, 0, 0, 0, 0)⌋ := by
    rw [pathDist_real]
    exact Int.floor_nonneg.mpr (Real.sqrt_nonneg _)
  omega

/-! ## Rounded arithmetic: the binary64 carrier -/

section Rounded

set_option maxRecDepth 100000

variable [Libm]

/-- Zero times a binary64 value is zero. -/
theorem dbl_zero_mul (y : Dbl) : Dbl.mul Dbl.zero y = Dbl.zero := by
  obtain ⟨s, m, k⟩ := y
  show Dbl.round53 (xor false s) (0 * m) false 0 (0 + k) = Dbl.zero
  rw [Nat.zero_mul]
  rfl

/-- A binary64 value times zero is zero. -/
theorem dbl_mul_zero (x : Dbl) : Dbl.mul x Dbl.zero = Dbl.zero := by
  obtain ⟨s, m, k⟩ := x
  show Dbl.round53 (xor s false) (m * 0) false 0 (k + 0) = Dbl.zero
  rw [Nat.mul_zero]
  rfl

/-- Binary64 arithmetic satisfies the two laws of zero. -/
theorem zeroLaws_dbl : ZeroLaws Dbl :=
  ⟨fun x => dbl_mul_zero x, rfl⟩

/-- The strict application is the application. -/
theorem strict_eq {α : Type} (n : Nat) (f : Nat → α) : Dbl.strict n f = f n := by
  cases n <;> rfl

/-- Putting a value in lowest terms keeps its sign. -/
theorem norm_neg (neg : Bool) (k m : Nat) : (Dbl.norm neg m k).neg = neg := by
  induction k generalizing m with
  | zero => rfl
  | succ k ih =>
    unfold Dbl.norm
    split
    · rw [strict_eq]
      exact ih _
    · rfl

/-- A scaled value without the sign bit has no sign bit. -/
theorem scale_neg (q p K : Nat) : (Dbl.scale false q p K).neg = false := by
  unfold Dbl.scale
  split
  · rfl
  · split
    · rw [strict_eq]
    · exact norm_neg _ _ _

/-- A rounded value without the sign bit has no sign bit. -/
theorem round53_neg (Q : Nat) (sticky : Bool) (p K : Nat) :
    (Dbl.round53 false Q sticky p K).neg = false := by
  unfold Dbl.round53
  simp only [strict_eq]
  split
  · exact scale_neg _ _ _
  · split <;> exact scale_neg _ _ _

/-- In binary64 arithmetic the arrival sample `(int) floor(sqrt(x))` is never
negative. -/
theorem fdistNonneg_dbl : FdistNonneg Dbl := by
  intro x
  have hs : (Dbl.sqrt x).neg = false := by
    obtain ⟨s, m, k⟩ := x
    unfold Dbl.sqrt
    simp only [strict_eq]
    split
    · rfl
    · split <;> exact round53_neg _ _ _ _
  have hf : (Dbl.floor (Dbl.sqrt x)).neg = false := by
    generalize Dbl.sqrt x = y at hs
    obtain ⟨s, m, k⟩ := y
    simp only at hs
    subst hs
    exact scale_neg _ _ _
  show 0 ≤ Dbl.toInt (Dbl.floor (Dbl.sqrt x))
  generalize Dbl.floor (Dbl.sqrt x) = y at hf
  obtain ⟨s, m, k⟩ := y
  simp only at hf
  subst hf
  show (0 : Int) ≤ ((m / 2 ^ k : Nat) : Int)
  exact Int.ofNat_nonneg _

/-- Known binary64 values: the literal `0.1`; `0.1 + 0.2 = 0.30000000000000004`;
`1.0 - 0.9 = 0.09999999999999998`; `1.1 * 1.1 = 1.2100000000000002`, also as
`pow(1.1, 2)`; `1.0 / 3.0`; `sqrt(2.0) = 1.4142135623730951`; the integer
`2 ^ 53 + 1` converts to `2 ^ 53` and `2 ^ 53 + 3` to `2 ^ 53 + 4` (ties to
even); `floor(-7.5) = -8`, `ceil(-7.5) = -7`, `(int)(-7.5) = -7`. -/
theorem dbl_known_values :
    (0.1 : Dbl) = ⟨false, 3602879701896397, 55⟩ ∧
      (0.1 : Dbl) + 0.2 = ⟨false, 1351079888211149, 52⟩ ∧
      (1.0 : Dbl) - 0.9 = ⟨false, 900719925474099, 53⟩ ∧
      (1.1 : Dbl) * 1.1 = ⟨false, 5449355549118301, 52⟩ ∧
      Dbl.pow 1.1 2.0 = ⟨false, 5449355549118301, 52⟩ ∧
      (1.0 : Dbl) / 3.0 = ⟨false, 6004799503160661, 54⟩ ∧
      Dbl.sqrt 2.0 = ⟨false, 6369051672525773, 52⟩ ∧
      Dbl.ofInt 9007199254740993 = ⟨false, 9007199254740992, 0⟩ ∧
      Dbl.ofInt 9007199254740995 = ⟨false, 9007199254740996, 0⟩ ∧
      Dbl.floor (-7.5) = ⟨true, 8, 0⟩ ∧ Dbl.ceil (-7.5) = ⟨true, 7, 0⟩ ∧
      Dbl.toInt (-7.5) = -7 := by
  decide

/-- The wall example: the direct path is computed as `172.0` samples long, the
image `mx = -1`, `q = 1` as `171.99999999999997` samples long. -/
theorem wallRoom_dist :
    pathDist (wallRoom 2048) (srcPos (wallRoom 2048) 0) (micPos (wallRoom 2048) 0)
        (0, 0, 0, 0, 0, 0) = ⟨false, 172, 0⟩ ∧
      pathDist (wallRoom 2048) (srcPos (wallRoom 2048) 0) (micPos (wallRoom 2048) 0)
        (-1, 0, 0, 1, 0, 0) = ⟨false, 6051711999279103, 45⟩ :=
  ⟨rfl, rfl⟩

/-- The wall example: the arrival samples of the direct path and of the image
`mx = -1`, `q = 1` are 172 and 171. -/
theorem wallRoom_fdist :
    pathFdist (wallRoom 2048) (srcPos (wallRoom 2048) 0) (micPos (wallRoom 2048) 0)
        (0, 0, 0, 0, 0, 0) = 172 ∧
      pathFdist (wallRoom 2048) (srcPos (wallRoom 2048) 0) (micPos (wallRoom 2048) 0)
        (-1, 0, 0, 1, 0, 0) = 171 :=
  ⟨rfl, rfl⟩

/-- The wall example: the lattice bounds are 6, 6 and 11, and the loops visit
the image `mx = -1`, `q = 1`. -/
theorem wallRoom_mem : (-1, 0, 0, 1, 0, 0) ∈ lattice (wallRoom 2048) := by
  rw [mem_lattice]
  have b0 : latticeBound (wallRoom 2048) 0 = 6 := rfl
  have b1 : latticeBound (wallRoom 2048) 1 = 6 := rfl
  have b2 : latticeBound (wallRoom 2048) 2 = 11 := rfl
  rw [b0, b1, b2]
  show (-6 ≤ (-1 : Int) ∧ (-1 : Int) ≤ 6) ∧ (-6 ≤ (0 : Int) ∧ (0 : Int) ≤ 6) ∧
    (-11 ≤ (0 : Int) ∧ (0 : Int) ≤ 11) ∧ (0 ≤ (1 : Int) ∧ (1 : Int) ≤ 1 * 1) ∧
    (0 ≤ (0 : Int) ∧ (0 : Int) ≤ 1 * 1) ∧ 0 ≤ (0 : Int) ∧ (0 : Int) ≤ 1 * 1
  decide

/-- The omnidirectional microphone has gain 1 in binary64 arithmetic, whatever
`atan2` and `cos` return. -/
theorem sim_microphone_omni_dbl (x y angle : Dbl) :
    sim_microphone x y angle 'o' = ⟨false, 1, 0⟩ := by
  show Dbl.add (Dbl.ofInt 1) (Dbl.mul (Dbl.ofInt 0) _) = _
  have h0 : Dbl.ofInt 0 = Dbl.zero := rfl
  rw [h0, dbl_zero_mul]
  rfl

/-- The wall example: the strength of the image `mx = -1`, `q = 1`. -/
theorem wallRoom_strength :
    pathStrength (wallRoom 2048) (srcPos (wallRoom 2048) 0) (micPos (wallRoom 2048) 0)
      (-1, 0, 0, 1, 0, 0) = ⟨false, 3110264364620061, 58⟩ := by
  have hm : (wallRoom 2048).mtype = 'o' := rfl
  unfold pathStrength
  rw [hm, sim_microphone_omni_dbl]
  rfl

/-- The wall example: the step of the image `mx = -1`, `q = 1` adds its
strength to sample 171. -/
theorem wallRoom_step (imp : Nat → Dbl) :
    imageStep (wallRoom 2048) 0 0 (srcPos (wallRoom 2048) 0) (micPos (wallRoom 2048) 0) imp
        (-1, 0, 0, 1, 0, 0) 171 = imp 171 + ⟨false, 3110264364620061, 58⟩ := by
  rw [imageStep_cell, ← wallRoom_strength]
  rfl

/-- The wall example: source and receiver are inside the room, the source on
the wall `x = L`. -/
theorem wallRoom_inside (axis : Nat) (hax : axis < 3) :
    (Flt.le (Flt.ofInt 0) (srcPos (wallRoom 2048) 0 axis) = true ∧
      Flt.le (srcPos (wallRoom 2048) 0 axis) ((wallRoom 2048).L axis) = true) ∧
    (Flt.le (Flt.ofInt 0) (micPos (wallRoom 2048) 0 axis) = true ∧
      Flt.le (micPos (wallRoom 2048) 0 axis) ((wallRoom 2048).L axis) = true) := by
  interval_cases axis <;> exact ⟨⟨rfl, rfl⟩, ⟨rfl, rfl⟩⟩

/-- The long room: `cTs` is 1, the length of the x axis is `102.39999999999999`
samples, and the quotient `nsamples / (2 L)` is computed as `10.0`, so the
lattice bound of the x axis is 10. -/
theorem longRoom_bound :
    (longRoom 2048).cTs = ⟨false, 1, 0⟩ ∧
      (longRoom 2048).L 0 = ⟨false, 7205759403792793, 46⟩ ∧
      (Flt.ofInt (longRoom 2048).nsamples / (Flt.ofInt 2 * (longRoom 2048).L 0) : Dbl) =
        ⟨false, 10, 0⟩ ∧
      latticeBound (longRoom 2048) 0 = 10 :=
  ⟨rfl, rfl, rfl, rfl⟩

/-- The long room: the image `mx = -11`, `q = 1` is computed as
`2047.9999999999998` samples long and arrives at sample 2047. -/
theorem longRoom_fdist :
    pathDist (longRoom 2048) (srcPos (longRoom 2048) 0) (micPos (longRoom 2048) 0)
        (-11, 0, 0, 1, 0, 0) = ⟨false, 9007199254740991, 42⟩ ∧
      pathFdist (longRoom 2048) (srcPos (longRoom 2048) 0) (micPos (longRoom 2048) 0)
        (-11, 0, 0, 1, 0, 0) = 2047 :=
  ⟨rfl, rfl⟩

/-- The long room: source and receiver are inside the room on every axis, and
the room has a positive length on every axis. -/
theorem longRoom_inside (axis : Nat) (hax : axis < 3) :
    Flt.lt (Flt.ofInt 0) ((longRoom 2048).L axis) = true ∧
    (Flt.le (Flt.ofInt 0) (srcPos (longRoom 2048) 0 axis) = true ∧
      Flt.le (srcPos (longRoom 2048) 0 axis) ((longRoom 2048).L axis) = true) ∧
    (Flt.le (Flt.ofInt 0) (micPos (longRoom 2048) 0 axis) = true ∧
      Flt.le (micPos (longRoom 2048) 0 axis) ((longRoom 2048).L axis) = true) := by
  interval_cases axis <;> exact ⟨rfl, ⟨rfl, rfl⟩, ⟨rfl, rfl⟩⟩

/-- The long room: the image `mx = -11`, `q = 1` passes the order test and the
arrival test, and the loops do not visit it. -/
theorem longRoom_not_visited :
    orderTest (longRoom 2048).order (-11, 0, 0, 1, 0, 0) = true ∧
      pathFdist (longRoom 2048) (srcPos (longRoom 2048) 0) (micPos (longRoom 2048) 0)
        (-11, 0, 0, 1, 0, 0) < (longRoom 2048).nsamples ∧
      (-11, 0, 0, 1, 0, 0) ∉ lattice (longRoom 2048) := by
  refine ⟨rfl, ?_, ?_⟩
  · rw [longRoom_fdist.2]
    show (2047 : Int) < ((2048 : Nat) : Int)
    decide
  · rw [mem_lattice, longRoom_bound.2.2.2]
    intro h
    exact absurd h.1.1 (by decide)

/-- The unit cube with `c = 343` and a requested `T60` of 1 s, when
`log(10.0)` is the binary64 value nearest to `ln 10`: the derivation returns
`beta_hat = 0.9864824862654806`, and the reverberation-time formula evaluated
with it gives `0.999999999999999`, that is `1 - 9 * 2 ^ (-53)`. -/
theorem unitCube_reverb (hlog : Libm.log (10.0 : Dbl) = ⟨false, 2592480341699211, 50⟩) :
    betaHat (343.0 : Dbl) (fun _ => 1.0) 1.0 = Except.ok ⟨false, 4442722157552739, 52⟩ ∧
      reverbTime (343.0 : Dbl) (fun _ => 1.0) (fun _ => ⟨false, 4442722157552739, 52⟩) =
        ⟨false, 9007199254740983, 53⟩ := by
  have hl : Flt.log (10.0 : Dbl) = ⟨false, 2592480341699211, 50⟩ := hlog
  constructor
  · have ha : alfaOf (343.0 : Dbl) (fun _ => 1.0) 1.0 = ⟨false, 967456220809035, 55⟩ := by
      unfold alfaOf
      rw [hl]
      rfl
    unfold betaHat
    rw [ha]
    rfl
  · unfold reverbTime
    rw [hl]
    rfl

/-- The example with the rounded direct path: the exact quotient of the
distance `2.02 - 1` by `cTs = 340 / 8000` is above 24, the kernel computes
`dist = 23.999999999999996` and the arrival sample 23. -/
theorem roundedRoom_fdist :
    pathDist (roundedRoom 64) (srcPos (roundedRoom 64) 0) (micPos (roundedRoom 64) 0)
        (0, 0, 0, 0, 0, 0) = ⟨false, 6755399441055743, 48⟩ ∧
      pathFdist (roundedRoom 64) (srcPos (roundedRoom 64) 0) (micPos (roundedRoom 64) 0)
        (0, 0, 0, 0, 0, 0) = 23 :=
  ⟨rfl, rfl⟩

end Rounded

/-! ## C13: the direct path and the images, in rounded arithmetic -/

/-- C13 as stated fails on the code.  In binary64 arithmetic, whatever the
functions of `math.h` return, in the room `(4, 4, 2)` with the source
`(4, 1, 1)` and the receiver `(0.31275, 1, 1)` (`c = 343`, `fs = 16000`), both
inside the room: the visited image `mx = -1`, `q = 1` is computed shorter
(`171.99999999999997`) than the direct path (`172.0`), and its step makes
sample 171, below `floor(direct dist) = 172`, non-zero. -/
theorem wall_image_before_direct :
    ¬ ∃ lm : Libm, ∀ c, c ∈ lattice (wallRoom 2048) →
      Flt.le
          (pathDist (wallRoom 2048) (srcPos (wallRoom 2048) 0) (micPos (wallRoom 2048) 0)
            (0, 0, 0, 0, 0, 0))
          (pathDist (wallRoom 2048) (srcPos (wallRoom 2048) 0) (micPos (wallRoom 2048) 0) c) =
          true ∨
        ∀ sample : Nat,
          (sample : Int) <
            pathFdist (wallRoom 2048) (srcPos (wallRoom 2048) 0) (micPos (wallRoom 2048) 0)
              (0, 0, 0, 0, 0, 0) →
          imageStep (wallRoom 2048) 0 0 (srcPos (wallRoom 2048) 0) (micPos (wallRoom 2048) 0)
            (fun _ => Flt.ofInt 0) c sample = Flt.ofInt 0 := by
  rintro ⟨lm, h⟩
  rcases h _ wallRoom_mem with h1 | h2
  · rw [wallRoom_dist.1, wallRoom_dist.2] at h1
    have hle : (Flt.le (⟨false, 172, 0⟩ : Dbl) ⟨false, 6051711999279103, 45⟩) = false := rfl
    rw [hle] at h1
    exact Bool.false_ne_true h1
  · have h := h2 171 (by rw [wallRoom_fdist.1]; decide)
    rw [wallRoom_step] at h
    have h3 : (⟨false, 3110264364620061, 58⟩ : Dbl) = ⟨false, 0, 0⟩ := h
    exact absurd h3 (by decide)

/-! ## C11: the lattice bound, in rounded arithmetic -/

/-- C11 as stated fails on the code.  In binary64 arithmetic, whatever the
functions of `math.h` return, in a room whose x axis is `102.39999999999999`
samples long, with 2048 samples and source and receiver on the wall `x = L`:
the bound `ceil(2048 / (2 L))` is computed as 10 (the exact quotient is above
10), and the image `mx = -11`, `q = 1`, outside `[-10, 10]`, has
`floor(dist) = 2047 < 2048`. -/
theorem lattice_bound_rounded_down :
    ¬ ∃ lm : Libm, ∀ c : Int × Int × Int × Int × Int × Int,
      tupleParity c 0 = 0 ∨ tupleParity c 0 = 1 →
      tupleMirror c 0 < -latticeBound (longRoom 2048) 0 ∨
        latticeBound (longRoom 2048) 0 < tupleMirror c 0 →
      ((longRoom 2048).nsamples : Int) ≤
        pathFdist (longRoom 2048) (srcPos (longRoom 2048) 0) (micPos (longRoom 2048) 0) c := by
  rintro ⟨lm, h⟩
  have h1 := h (-11, 0, 0, 1, 0, 0) (Or.inr rfl) (Or.inl (by
    rw [longRoom_bound.2.2.2]
    decide))
  rw [longRoom_fdist.2] at h1
  exact absurd h1 (by show ¬ (((2048 : Nat) : Int) ≤ 2047); decide)

/-! ## C8: the reverberation time, in rounded arithmetic -/

/-- C8 as stated fails on the code.  In binary64 arithmetic with `log(10.0)`
the binary64 value nearest to `ln 10`, for the unit cube, `c = 343` and a
requested `T60` of 1 s, the derivation does not fail and the
reverberation-time formula evaluated with the returned `beta_hat` gives
`0.999999999999999`, not 1. -/
theorem reverb_round_trip_rounded :
    ¬ ∃ lm : Libm, Libm.log (10.0 : Dbl) = ⟨false, 2592480341699211, 50⟩ ∧
      ∀ beta_hat, betaHat (343.0 : Dbl) (fun _ => 1.0) 1.0 = Except.ok beta_hat →
        reverbTime (343.0 : Dbl) (fun _ => 1.0) (fun _ => beta_hat) = 1.0 := by
  rintro ⟨lm, hlog, h⟩
  have hv := unitCube_reverb hlog
  have h1 := h _ hv.1
  rw [hv.2] at h1
  exact absurd h1 (by decide)

/-! ## C2 and C13: what holds of the samples before the first arrival -/

/-- The interpolation window of the concrete scenario is 128 samples long. -/
theorem scenario_Tw (n : Nat) : (scenario n).Tw = 128 := by
  show windowTw (0.008 : ℝ) 16000 = 128
  have hR : ROUND ((0.008 : ℝ) * 16000) = 128 := by
    unfold ROUND
    rw [le_real, ofInt_real, toInt_real, toInt_real]
    norm_num
  unfold windowTw
  rw [hR]
  decide

/-- C2, amended.  First part, in every carrier of `double` with the two laws
of zero (binary64 arithmetic and the reals among them), for a tensor of fewer
than `2 ^ 64` cells, either injection and the high-pass filter on or off:
when `K` is at most the arrival sample `floor(dist)` the kernel computes for
every visited path that passes the order test and the arrival test, every
sample of the pair, computed on a zero tensor, whose index is below `K`
(nearest-sample injection) or below `K - Tw/2` (interpolation) is zero.
Second part, over the reals (exact arithmetic), with a positive `cTs`, a
dimension mask of zeros and ones and source and receiver inside the room:
the direct-path arrival sample `floor(|source - receiver| / cTs)` is such a
`K`, so every sample below it (below it minus `Tw/2` with the interpolation)
is zero. -/
theorem arrival_causality :
    (∀ (R : Type) [Add R] [Sub R] [Mul R] [Div R] [Neg R] [OfScientific R] [Flt R],
      ZeroLaws R → ∀ (a : arg_s R) (loud_nr mic_nr K : Nat),
      mic_nr < a.nr_of_mics → loud_nr < a.nr_of_louds →
      a.nsamples * a.nr_of_mics * a.nr_of_louds < 2 ^ 64 →
      (∀ c, c ∈ lattice a → orderTest a.order c = true →
        pathFdist a (srcPos a loud_nr) (micPos a mic_nr) c < a.nsamples →
        (K : Int) ≤ pathFdist a (srcPos a loud_nr) (micPos a mic_nr) c) →
      ∀ sample : Nat, sample < a.nsamples →
        (sample : Int) < (K : Int) - (if a.lp_filter = 1 then Int.tdiv a.Tw 2 else 0) →
        pairComp a loud_nr mic_nr (fun _ => Flt.ofInt 0)
          (sample + a.nsamples * mic_nr + a.nsamples * a.nr_of_mics * loud_nr) = Flt.ofInt 0) ∧
    (∀ (a : arg_s ℝ) (loud_nr mic_nr : Nat), 0 < a.cTs →
      (∀ axis, axis < 3 → a.dim_s axis = 0 ∨ a.dim_s axis = 1) →
      (∀ axis, axis < 3 → 0 ≤ srcPos a loud_nr axis ∧ srcPos a loud_nr axis ≤ a.L axis) →
      (∀ axis, axis < 3 → 0 ≤ micPos a mic_nr axis ∧ micPos a mic_nr axis ≤ a.L axis) →
      mic_nr < a.nr_of_mics → loud_nr < a.nr_of_louds →
      a.nsamples * a.nr_of_mics * a.nr_of_louds < 2 ^ 64 →
      (∀ c, c ∈ lattice a →
        ⌊Real.sqrt ((a.ss (loud_nr + 0 * a.nr_of_louds) - a.rr (mic_nr + 0 * a.nr_of_mics)) ^ 2 +
          (a.ss (loud_nr + 1 * a.nr_of_louds) - a.rr (mic_nr + 1 * a.nr_of_mics)) ^ 2 +
          (a.ss (loud_nr + 2 * a.nr_of_louds) - a.rr (mic_nr + 2 * a.nr_of_mics)) ^ 2) /
          a.cTs⌋ ≤ pathFdist a (srcPos a loud_nr) (micPos a mic_nr) c) ∧
      ∀ sample : Nat, sample < a.nsamples →
        (sample : Int) <
          ⌊Real.sqrt ((a.ss (loud_nr + 0 * a.nr_of_louds) - a.rr (mic_nr + 0 * a.nr_of_mics)) ^ 2 +
            (a.ss (loud_nr + 1 * a.nr_of_louds) - a.rr (mic_nr + 1 * a.nr_of_mics)) ^ 2 +
            (a.ss (loud_nr + 2 * a.nr_of_louds) - a.rr (mic_nr + 2 * a.nr_of_mics)) ^ 2) /
            a.cTs⌋ - (if a.lp_filter = 1 then Int.tdiv a.Tw 2 else 0) →
        pairComp a loud_nr mic_nr (fun _ => 0)
          (sample + a.nsamples * mic_nr + a.nsamples * a.nr_of_mics * loud_nr) = 0) := by
  constructor
  · intro R _ _ _ _ _ _ _ hZ a loud_nr mic_nr K hmic hloud hfit hK sample hsample hlt
    exact pairComp_before_arrival hZ a loud_nr mic_nr hmic hloud hfit K hK sample hsample hlt
  · intro a loud_nr mic_nr hcTs hdim hs hr hmic hloud hfit
    rw [← pathDist_direct a loud_nr mic_nr hcTs]
    have h0 : 0 ≤ ⌊pathDist a (srcPos a loud_nr) (micPos a mic_nr) (0, 0, 0, 0, 0, 0)⌋ := by
      rw [pathDist_real]
      exact Int.floor_nonneg.mpr (Real.sqrt_nonneg _)
    have hK := pathFdist_ge_direct a loud_nr mic_nr hdim hs hr
    constructor
    · intro c hc
      have := hK c hc
      omega
    · intro sample hsample hlt
      have h := pairComp_before_arrival zeroLaws_real a loud_nr mic_nr hmic hloud hfit _
        (fun c hc _ _ => hK c hc) sample hsample (by
          generalize (if a.lp_filter = 1 then Int.tdiv a.Tw 2 else 0) = t at *
          omega)
      simpa [ofInt_real] using h

/-- Witness of C2, amended.  In binary64 arithmetic, whatever the functions of
`math.h` return: in the room with source `(2.02, 1, 1)`, receiver `(1, 1, 1)`,
`c = 340`, `fs = 8000`, order 0 and the high-pass filter on, the kernel
computes the arrival sample 23 and sample 22 is zero.  Over the reals: in the
concrete scenario with the interpolation on (`Tw = 128`, direct path at sample
65), sample 0 is zero. -/
theorem arrival_causality_witness :
    (∀ lm : Libm, pairComp (roundedRoom 64) 0 0 (fun _ => Flt.ofInt 0) 22 = Flt.ofInt 0) ∧
      pairComp { scenario 2048 with lp_filter := 1 } 0 0 (fun _ => 0) 0 = 0 := by
  constructor
  · intro lm
    exact arrival_causality.1 Dbl zeroLaws_dbl (roundedRoom 64) 0 0 23 Nat.zero_lt_one
      Nat.zero_lt_one (by show 64 * 1 * 1 < 2 ^ 64; norm_num)
      (by
        rintro ⟨mx, my, mz, q, j, k⟩ hc ho _
        obtain ⟨hq, hj, hk⟩ := lattice_parity (roundedRoom 64) (fun _ _ => Or.inr rfl)
          mx my mz q j k hc
        have hd := (orderTest_zero mx my mz q j k hq hj hk).mp ho
        rw [hd, roundedRoom_fdist.2]
        decide)
      22 (by show 22 < 64; norm_num) (by show ((22 : Nat) : Int) < ((23 : Nat) : Int) - 0; decide)
  · exact (arrival_causality.2 { scenario 2048 with lp_filter := 1 } 0 0
      (by show (0 : ℝ) < 343 / 16000; norm_num) (fun _ _ => Or.inr rfl)
      (fun axis _ => (scenario_inside 2048 axis).1) (fun axis _ => (scenario_inside 2048 axis).2)
      Nat.zero_lt_one Nat.zero_lt_one (by norm_num [scenario_sizes])).2 0
      (by show 0 < 2048; norm_num)
      (by
        show ((0 : Nat) : Int) <
          ⌊Real.sqrt (((scenario 2048).ss (0 + 0 * (scenario 2048).nr_of_louds) -
              (scenario 2048).rr (0 + 0 * (scenario 2048).nr_of_mics)) ^ 2 +
            ((scenario 2048).ss (0 + 1 * (scenario 2048).nr_of_louds) -
              (scenario 2048).rr (0 + 1 * (scenario 2048).nr_of_mics)) ^ 2 +
            ((scenario 2048).ss (0 + 2 * (scenario 2048).nr_of_louds) -
              (scenario 2048).rr (0 + 2 * (scenario 2048).nr_of_mics)) ^ 2) /
            (scenario 2048).cTs⌋ - (if (1 : Int) = 1 then Int.tdiv (scenario 2048).Tw 2 else 0)
        rw [← pathDist_direct (scenario 2048) 0 0 (by show (0 : ℝ) < 343 / 16000; norm_num),
          ← pathFdist_real, scenario_fdist_direct, scenario_Tw]
        decide)

/-- C13, amended.  First part, in every carrier of `double` with the two laws
of zero (binary64 arithmetic and the reals among them), with the
nearest-sample injection and a tensor of fewer than `2 ^ 64` cells: when `K`
is at most the arrival sample `floor(dist)` the kernel computes for every
visited path that passes the order test and the arrival test, no step of the
kernel and not the six loops as a whole change a sample of the pair whose
index is below `K`; the high-pass filter keeps leading zero samples zero; so,
computed on a zero tensor, these samples are zero with the high-pass filter on
or off.  Second part, over the reals (exact arithmetic), with a dimension mask
of zeros and ones and source and receiver inside the room: the image offset of
an axis is at least the direct offset in absolute value for every integer `m`
and parity `p` in `{0, 1}`, every visited path is at least as long as the
direct path, the arrival sample `floor(direct dist)` is such a `K`, and the
samples below it are not changed and, on a zero tensor, zero. -/
theorem inside_room_first_arrival :
    (∀ (R : Type) [Add R] [Sub R] [Mul R] [Div R] [Neg R] [OfScientific R] [Flt R],
      ZeroLaws R → ∀ (a : arg_s R) (loud_nr mic_nr K : Nat), a.lp_filter ≠ 1 →
      mic_nr < a.nr_of_mics → loud_nr < a.nr_of_louds →
      a.nsamples * a.nr_of_mics * a.nr_of_louds < 2 ^ 64 →
      (∀ c, c ∈ lattice a → orderTest a.order c = true →
        pathFdist a (srcPos a loud_nr) (micPos a mic_nr) c < a.nsamples →
        (K : Int) ≤ pathFdist a (srcPos a loud_nr) (micPos a mic_nr) c) →
      ∀ sample : Nat, sample < a.nsamples → sample < K →
        (∀ imp : Nat → R,
          (∀ c, c ∈ lattice a →
            imageStep a loud_nr mic_nr (srcPos a loud_nr) (micPos a mic_nr) imp c
                (sample + a.nsamples * mic_nr + a.nsamples * a.nr_of_mics * loud_nr) =
              imp (sample + a.nsamples * mic_nr + a.nsamples * a.nr_of_mics * loud_nr)) ∧
          imageSum a loud_nr mic_nr imp
              (sample + a.nsamples * mic_nr + a.nsamples * a.nr_of_mics * loud_nr) =
            imp (sample + a.nsamples * mic_nr + a.nsamples * a.nr_of_mics * loud_nr)) ∧
        (∀ imp : Nat → R,
          (∀ k, k ≤ sample →
            imp (k + a.nsamples * mic_nr + a.nsamples * a.nr_of_mics * loud_nr) = Flt.ofInt 0) →
          highPass a loud_nr mic_nr imp
            (sample + a.nsamples * mic_nr + a.nsamples * a.nr_of_mics * loud_nr) = Flt.ofInt 0) ∧
        pairComp a loud_nr mic_nr (fun _ => Flt.ofInt 0)
          (sample + a.nsamples * mic_nr + a.nsamples * a.nr_of_mics * loud_nr) = Flt.ofInt 0) ∧
    (∀ (a : arg_s ℝ) (loud_nr mic_nr : Nat),
      (∀ axis, axis < 3 → a.dim_s axis = 0 ∨ a.dim_s axis = 1) →
      (∀ axis, axis < 3 → 0 ≤ srcPos a loud_nr axis ∧ srcPos a loud_nr axis ≤ a.L axis) →
      (∀ axis, axis < 3 → 0 ≤ micPos a mic_nr axis ∧ micPos a mic_nr axis ≤ a.L axis) →
      (∀ axis, axis < 3 → ∀ m p : Int, p = 0 ∨ p = 1 →
        imageOffset a (srcPos a loud_nr) (micPos a mic_nr) axis m p =
            srcPos a loud_nr axis - micPos a mic_nr axis + 2 * (p : ℝ) * micPos a mic_nr axis +
              2 * (m : ℝ) * a.L axis ∧
          |srcPos a loud_nr axis - micPos a mic_nr axis| ≤
            |imageOffset a (srcPos a loud_nr) (micPos a mic_nr) axis m p|) ∧
      (∀ c, c ∈ lattice a →
        pathDist a (srcPos a loud_nr) (micPos a mic_nr) (0, 0, 0, 0, 0, 0) ≤
            pathDist a (srcPos a loud_nr) (micPos a mic_nr) c ∧
          ⌊pathDist a (srcPos a loud_nr) (micPos a mic_nr) (0, 0, 0, 0, 0, 0)⌋ ≤
            pathFdist a (srcPos a loud_nr) (micPos a mic_nr) c) ∧
      (a.lp_filter ≠ 1 → mic_nr < a.nr_of_mics → loud_nr < a.nr_of_louds →
        a.nsamples * a.nr_of_mics * a.nr_of_louds < 2 ^ 64 →
        ∀ sample : Nat, sample < a.nsamples →
          (sample : Int) <
            ⌊pathDist a (srcPos a loud_nr) (micPos a mic_nr) (0, 0, 0, 0, 0, 0)⌋ →
          (∀ imp : Nat → ℝ,
            (∀ c, c ∈ lattice a →
              imageStep a loud_nr mic_nr (srcPos a loud_nr) (micPos a mic_nr) imp c
                  (sample + a.nsamples * mic_nr + a.nsamples * a.nr_of_mics * loud_nr) =
                imp (sample + a.nsamples * mic_nr + a.nsamples * a.nr_of_mics * loud_nr)) ∧
            imageSum a loud_nr mic_nr imp
                (sample + a.nsamples * mic_nr + a.nsamples * a.nr_of_mics * loud_nr) =
              imp (sample + a.nsamples * mic_nr + a.nsamples * a.nr_of_mics * loud_nr)) ∧
          (∀ imp : Nat → ℝ,
            (∀ k, k ≤ sample →
              imp (k + a.nsamples * mic_nr + a.nsamples * a.nr_of_mics * loud_nr) = 0) →
            highPass a loud_nr mic_nr imp
              (sample + a.nsamples * mic_nr + a.nsamples * a.nr_of_mics * loud_nr) = 0) ∧
          pairComp a loud_nr mic_nr (fun _ => 0)
            (sample + a.nsamples * mic_nr + a.nsamples * a.nr_of_mics * loud_nr) = 0)) := by
  have gen : ∀ (R : Type) [Add R] [Sub R] [Mul R] [Div R] [Neg R] [OfScientific R] [Flt R],
      ZeroLaws R → ∀ (a : arg_s R) (loud_nr mic_nr K : Nat), a.lp_filter ≠ 1 →
      mic_nr < a.nr_of_mics → loud_nr < a.nr_of_louds →
      a.nsamples * a.nr_of_mics * a.nr_of_louds < 2 ^ 64 →
      (∀ c, c ∈ lattice a → orderTest a.order c = true →
        pathFdist a (srcPos a loud_nr) (micPos a mic_nr) c < a.nsamples →
        (K : Int) ≤ pathFdist a (srcPos a loud_nr) (micPos a mic_nr) c) →
      ∀ sample : Nat, sample < a.nsamples → sample < K →
        (∀ imp : Nat → R,
          (∀ c, c ∈ lattice a →
            imageStep a loud_nr mic_nr (srcPos a loud_nr) (micPos a mic_nr) imp c
                (sample + a.nsamples * mic_nr + a.nsamples * a.nr_of_mics * loud_nr) =
              imp (sample + a.nsamples * mic_nr + a.nsamples * a.nr_of_mics * loud_nr)) ∧
          imageSum a loud_nr mic_nr imp
              (sample + a.nsamples * mic_nr + a.nsamples * a.nr_of_mics * loud_nr) =
            imp (sample + a.nsamples * mic_nr + a.nsamples * a.nr_of_mics * loud_nr)) ∧
        (∀ imp : Nat → R,
          (∀ k, k ≤ sample →
            imp (k + a.nsamples * mic_nr + a.nsamples * a.nr_of_mics * loud_nr) = Flt.ofInt 0) →
          highPass a loud_nr mic_nr imp
            (sample + a.nsamples * mic_nr + a.nsamples * a.nr_of_mics * loud_nr) = Flt.ofInt 0) ∧
        pairComp a loud_nr mic_nr (fun _ => Flt.ofInt 0)
          (sample + a.nsamples * mic_nr + a.nsamples * a.nr_of_mics * loud_nr) = Flt.ofInt 0 := by
    intro R _ _ _ _ _ _ _ hZ a loud_nr mic_nr K hlp hmic hloud hfit hK sample hsample hlt
    have hlt2 : ∀ k : Nat, k ≤ sample →
        (k : Int) < (K : Int) - (if a.lp_filter = 1 then Int.tdiv a.Tw 2 else 0) := by
      intro k hk
      rw [if_neg hlp]
      omega
    refine ⟨fun imp => ⟨?_, ?_⟩, ?_, ?_⟩
    · intro c hc
      rw [imageStep_cell]
      exact cellStep_before_arrival a loud_nr mic_nr _ _ hmic hloud hfit K c (hK c hc) sample
        (hlt2 sample le_rfl) _
    · exact imageSum_before_arrival a loud_nr mic_nr hmic hloud hfit K hK sample
        (hlt2 sample le_rfl) imp
    · intro imp hz
      exact highPass_keeps_zeros hZ a a.nr_of_louds loud_nr mic_nr hmic hloud hfit imp
        (sample + 1) (fun k hk _ => hz k (by omega)) sample (by omega) hsample
    · exact pairComp_before_arrival hZ a loud_nr mic_nr hmic hloud hfit K hK sample hsample
        (hlt2 sample le_rfl)
  refine ⟨gen, ?_⟩
  intro a loud_nr mic_nr hdim hs hr
  have h0 : 0 ≤ ⌊pathDist a (srcPos a loud_nr) (micPos a mic_nr) (0, 0, 0, 0, 0, 0)⌋ := by
    rw [pathDist_real]
    exact Int.floor_nonneg.mpr (Real.sqrt_nonneg _)
  have hK := pathFdist_ge_direct a loud_nr mic_nr hdim hs hr
  refine ⟨?_, ?_, ?_⟩
  · intro axis hax m p hp
    rw [imageOffset_real]
    exact ⟨rfl, imageOffset_abs_ge _ _ _ m p hp (hs axis hax) (hr axis hax)⟩
  · rintro ⟨mx, my, mz, q, j, k⟩ hc
    obtain ⟨hq, hj, hk⟩ := lattice_parity a hdim mx my mz q j k hc
    refine ⟨pathDist_ge_direct a _ _ mx my mz q j k (by omega) (by omega) (by omega) hs hr, ?_⟩
    have := hK _ hc
    omega
  · intro hlp hmic hloud hfit sample hsample hlt
    have h := gen ℝ zeroLaws_real a loud_nr mic_nr _ hlp hmic hloud hfit
      (fun c hc _ _ => hK c hc) sample hsample (by omega)
    simpa [ofInt_real] using h

/-- Witness of C13, amended.  In binary64 arithmetic, whatever the functions
of `math.h` return: in the wall example restricted to order 0 the kernel
computes the arrival sample 172 and sample 171 is zero.  Over the reals: in
the concrete scenario the six loops leave sample 64, the last one before the
direct-path arrival, as it is on a tensor of ones. -/
theorem inside_room_first_arrival_witness :
    (∀ lm : Libm, pairComp { wallRoom 2048 with order := 0 } 0 0 (fun _ => Flt.ofInt 0) 171 =
        Flt.ofInt 0) ∧
      imageSum (scenario 2048) 0 0 (fun _ => 1) 64 = 1 := by
  constructor
  · intro lm
    exact (inside_room_first_arrival.1 Dbl zeroLaws_dbl { wallRoom 2048 with order := 0 } 0 0 172
      (by show ¬ (0 : Int) = 1; decide) Nat.zero_lt_one
      Nat.zero_lt_one (by show 2048 * 1 * 1 < 2 ^ 64; norm_num)
      (by
        rintro ⟨mx, my, mz, q, j, k⟩ hc ho _
        obtain ⟨hq, hj, hk⟩ := lattice_parity { wallRoom 2048 with order := 0 }
          (fun _ _ => Or.inr rfl) mx my mz q j k hc
        have hd := (orderTest_zero mx my mz q j k hq hj hk).mp ho
        rw [hd]
        show ((172 : Nat) : Int) ≤ pathFdist (wallRoom 2048) (srcPos (wallRoom 2048) 0)
          (micPos (wallRoom 2048) 0) (0, 0, 0, 0, 0, 0)
        rw [wallRoom_fdist.1]
        decide)
      171 (by show 171 < 2048; norm_num) (by norm_num)).2.2
  · exact (((inside_room_first_arrival.2 (scenario 2048) 0 0 (fun _ _ => Or.inr rfl)
      (fun axis _ => (scenario_inside 2048 axis).1)
      (fun axis _ => (scenario_inside 2048 axis).2)).2.2
        (by show ¬ (0 : Int) = 1; decide) Nat.zero_lt_one Nat.zero_lt_one
        (by norm_num [scenario_sizes]) 64 (by show 64 < 2048; norm_num)
        (by rw [← pathFdist_real, scenario_fdist_direct]; norm_num)).1 (fun _ => 1)).2

end RirGenerator
